import Mathlib

/-! Deadlock detector: wait-for graph, observation hooks and cycle detection.

A shallow embedding of `graph.cpp` (class `DirectedGraph`) and of the day-3
`deadlock_detector.cpp` (class `DeadlockDetector`), followed by theorems about
them.  The hooks of day 1 and the hooks and detection of `src/src` are embedded
next to them (`Day1.DeadlockDetector`, `Earlier.DeadlockDetector`) and compared
with day 3.

Modelling conventions.

* `std::map<uint64_t, β>` is a key-ordered association list (`StdMap β`);
  iteration order is the list order, as in the C++ container.  Identifiers
  (`uint64_t`) are natural numbers; the code never does arithmetic on them.
* `GraphVertex::indegree` is a C++ `int`.  It is an `Int` here: the code only
  increments it once per added edge and decrements a copy once per traversed
  edge, and signed overflow (more than `2^31 - 1` edges into one vertex) is
  undefined behaviour in C++, so no wrap-around is modelled.
* Every member function is one sequential state transition on the detector's
  fields.  The detector's mutexes are not part of that state; the order in
  which the member functions take and release them is modelled on its own
  (`lock_steps`), a `std::lock` or `lock_guard` proceeding only when every
  mutex it requests is free.
* The `while (!queue.empty())` loop of `has_cycle` runs on fuel; running out of
  fuel yields `none`.
* The worker thread is the function `detector_loop` over a list that says, for
  each evaluation of the loop condition, what the other threads do around that
  pass: the hook calls made before and after the snapshot of the pass's
  `check_deadlock()`, and whether a `stop()` call stores `false` into
  `running_` before the loop condition is read or later in the pass.  Sleeping
  and console output are not modelled, except for the warning of `start` and
  the report, which are recorded as effects.
* The platform's `pthread_mutex_lock` / `pthread_mutex_unlock`, bracketed by the
  macros of `deadlock_detector.h`, appear only in the same-lock-order scenario:
  a mutex has at most one owner and a lock attempt on an owned mutex makes no
  progress.
-/

namespace Deadlock

/-! ## `std::map<uint64_t, β>` -/

/-- A `std::map<uint64_t, β>`: association list, keys strictly ascending. -/
abbrev StdMap (β : Type) := List (Nat × β)

namespace StdMap

variable {β : Type}

/-- Lookup `m.find(k)`: the mapped value, `none` for `end()`. -/
def find : StdMap β → Nat → Option β
  | [], _ => none
  | (k', v) :: rest, k => if k = k' then some v else find rest k

/-- Assignment `m[k] = v`: insert at the ordered position, or overwrite the mapped value. -/
def put (k : Nat) (v : β) : StdMap β → StdMap β
  | [] => [(k, v)]
  | (k', v') :: rest =>
    if k < k' then (k, v) :: (k', v') :: rest
    else if k = k' then (k, v) :: rest
    else (k', v') :: put k v rest

/-- Removal `m.erase(k)`: the entry with key `k`, if any, is dropped. -/
def erase (k : Nat) : StdMap β → StdMap β
  | [] => []
  | (k', v') :: rest => if k = k' then erase k rest else (k', v') :: erase k rest

/-- The keys in iteration order. -/
def keys (m : StdMap β) : List Nat := m.map Prod.fst

/-- The representation invariant of `std::map`: keys strictly ascending. -/
def Ordered (m : StdMap β) : Prop := (keys m).Pairwise (fun a b => a < b)

instance (m : StdMap β) : Decidable (Ordered m) := by
  unfold Ordered; infer_instance

end StdMap

/-! ## `graph.h` / `graph.cpp` -/

/-- The struct `GraphVertex`: indegree and out-neighbour list. -/
structure GraphVertex where
  indegree : Int
  neighbors : List Nat
  deriving DecidableEq, Repr

/-- The constructor `GraphVertex() : indegree(0) {}`. -/
instance : Inhabited GraphVertex := ⟨⟨0, []⟩⟩

/-- The class `DirectedGraph`: its only data member is `graph_`. -/
structure DirectedGraph where
  graph_ : StdMap GraphVertex
  deriving DecidableEq, Repr

namespace DirectedGraph

/-- The constructor `DirectedGraph() {}`. -/
def empty : DirectedGraph := ⟨[]⟩

/-- Member `ensure_node_exists(node_id)`. -/
def ensure_node_exists (g : DirectedGraph) (node_id : Nat) : DirectedGraph :=
  match g.graph_.find node_id with
  | none => ⟨g.graph_.put node_id default⟩
  | some _ => g

/-- Member `add_edge(from, to)`. -/
def add_edge (g : DirectedGraph) (src dst : Nat) : DirectedGraph :=
  let g1 := g.ensure_node_exists src
  let g2 := g1.ensure_node_exists dst
  -- graph_[from].neighbors.push_back(to)
  let vs := (g2.graph_.find src).getD default
  let m3 := g2.graph_.put src { vs with neighbors := vs.neighbors ++ [dst] }
  -- graph_[to].indegree++
  let vd := (m3.find dst).getD default
  ⟨m3.put dst { vd with indegree := vd.indegree + 1 }⟩

/-- Member `clear()`. -/
def clear (_g : DirectedGraph) : DirectedGraph := ⟨[]⟩

/-- Member `size()`. -/
def size (g : DirectedGraph) : Nat := g.graph_.length

/-- Member `get_all_nodes()`. -/
def get_all_nodes (g : DirectedGraph) : List Nat :=
  g.graph_.foldl (fun nodes pair => nodes ++ [pair.1]) []

/-- The local variables of `has_cycle` together with `graph_`. -/
structure KahnState where
  graph_ : StdMap GraphVertex
  indegree_copy : StdMap Int
  queue : List Nat
  processed_count : Nat
  deriving DecidableEq, Repr

/-- The first loop of `has_cycle`: `indegree_copy[pair.first] = pair.second.indegree`. -/
def copy_indegrees (m : StdMap GraphVertex) : StdMap Int :=
  m.foldl (fun ic pair => ic.put pair.1 pair.2.indegree) []

/-- The second loop of `has_cycle`: enqueue every vertex of working indegree zero. -/
def seed_queue (ic : StdMap Int) : List Nat :=
  ic.foldl (fun q pair => if pair.2 = 0 then q ++ [pair.1] else q) []

/-- The body of the `for` loop over `neighbors`:
`indegree_copy[neighbor]--; if (indegree_copy[neighbor] == 0) queue.push_back(neighbor);` -/
def relax (st : StdMap Int × List Nat) (neighbor : Nat) : StdMap Int × List Nat :=
  let ic := st.1.put neighbor ((st.1.find neighbor).getD 0 - 1)
  if (ic.find neighbor).getD 0 = 0 then (ic, st.2 ++ [neighbor]) else (ic, st.2)

/-- One iteration of the `while` loop, `node` being `queue.front()` and `rest`
the queue after `pop_front()`. -/
def kahn_step (s : KahnState) (node : Nat) (rest : List Nat) : KahnState :=
  -- graph_[node] default-constructs the vertex when the key is absent
  let graph1 := match s.graph_.find node with
    | none => s.graph_.put node default
    | some _ => s.graph_
  let neighbors := ((graph1.find node).getD default).neighbors
  let st := neighbors.foldl relax (s.indegree_copy, rest)
  { graph_ := graph1, indegree_copy := st.1, queue := st.2,
    processed_count := s.processed_count + 1 }

/-- The `while (!queue.empty())` loop, at most `fuel` iterations. -/
def kahn_loop : Nat → KahnState → Option KahnState
  | 0, s => if s.queue = [] then some s else none
  | fuel + 1, s =>
    match s.queue with
    | [] => some s
    | node :: rest => kahn_loop fuel (kahn_step s node rest)

/-- The state of `has_cycle` when the `while` loop is left (graph not empty);
the loop is given `graph_.size()` iterations. -/
def kahn_run (g : DirectedGraph) : Option KahnState :=
  let ic := copy_indegrees g.graph_
  kahn_loop g.graph_.length
    { graph_ := g.graph_, indegree_copy := ic, queue := seed_queue ic, processed_count := 0 }

/-- Member `has_cycle()`: the returned flag and the graph afterwards (the function is
not `const`); `none` when the loop does not finish within its fuel. -/
def has_cycle (g : DirectedGraph) : Option (Bool × DirectedGraph) :=
  if g.graph_.isEmpty then some (false, g)
  else
    match kahn_run g with
    | none => none
    | some s => some (decide (s.processed_count < s.graph_.length), ⟨s.graph_⟩)

/-- The graph after calling `add_edge` for each pair of `es`, first to last, on
the empty graph. -/
def of_edges (es : List (Nat × Nat)) : DirectedGraph :=
  es.foldl (fun g e => g.add_edge e.1 e.2) empty

/-- The out-neighbour list stored for `v` (empty when `v` is not a vertex). -/
def out_neighbors (g : DirectedGraph) (v : Nat) : List Nat :=
  match g.graph_.find v with
  | none => []
  | some vtx => vtx.neighbors

/-- The indegree stored for `v` (zero when `v` is not a vertex). -/
def stored_indegree (g : DirectedGraph) (v : Nat) : Int :=
  match g.graph_.find v with
  | none => 0
  | some vtx => vtx.indegree

/-- All edges `(from, to)` of the graph, vertex by vertex. -/
def edges (g : DirectedGraph) : List (Nat × Nat) :=
  g.graph_.flatMap (fun pair => pair.2.neighbors.map (fun dst => (pair.1, dst)))

/-- There is an edge `a → b`. -/
def edge (g : DirectedGraph) (a b : Nat) : Prop := b ∈ g.out_neighbors a

/-- The graph contains a directed cycle: a non-empty path from a vertex to itself. -/
def contains_cycle (g : DirectedGraph) : Prop := ∃ v, Relation.TransGen g.edge v v

end DirectedGraph

/-! ## `deadlock_detector.h` / `deadlock_detector.cpp` (day 3) -/

/-- The data members of the class `DeadlockDetector`, mutexes left out.  The
handle `detector_thread_` is kept as the flag `detector_thread_.joinable()`. -/
structure DeadlockDetector where
  lock_owners_ : StdMap Nat
  thread_waiting_ : StdMap Nat
  thread_stacks_ : StdMap String
  graph_ : DirectedGraph
  detector_thread_ : Bool
  running_ : Bool
  interval_seconds_ : Int
  deadlock_detected_ : Bool
  deriving DecidableEq, Repr

namespace DeadlockDetector

/-- The private constructor: empty tables, no worker thread, `running_(false)`,
`interval_seconds_(1)`, `deadlock_detected_(false)`. -/
def init : DeadlockDetector :=
  { lock_owners_ := [], thread_waiting_ := [], thread_stacks_ := [],
    graph_ := DirectedGraph.empty, detector_thread_ := false, running_ := false,
    interval_seconds_ := 1, deadlock_detected_ := false }

/-- Hook `on_lock_before(thread_id, lock_addr)`. -/
def on_lock_before (d : DeadlockDetector) (thread_id lock_addr : Nat) : DeadlockDetector :=
  { d with
    thread_waiting_ := d.thread_waiting_.put thread_id lock_addr
    thread_stacks_ := d.thread_stacks_.put thread_id "[Stack trace placeholder]" }

/-- Hook `on_lock_after(thread_id, lock_addr)`. -/
def on_lock_after (d : DeadlockDetector) (thread_id lock_addr : Nat) : DeadlockDetector :=
  { d with
    thread_waiting_ := d.thread_waiting_.erase thread_id
    thread_stacks_ := d.thread_stacks_.erase thread_id
    lock_owners_ := d.lock_owners_.put lock_addr thread_id }

/-- Hook `on_unlock_after(thread_id, lock_addr)`; `thread_id` is not used by the code. -/
def on_unlock_after (d : DeadlockDetector) (_thread_id lock_addr : Nat) : DeadlockDetector :=
  { d with lock_owners_ := d.lock_owners_.erase lock_addr }

/-- Member `get_snapshot(...)`: copies of the three tables. -/
def get_snapshot (d : DeadlockDetector) : StdMap Nat × StdMap Nat × StdMap String :=
  (d.lock_owners_, d.thread_waiting_, d.thread_stacks_)

/-- Member `build_waiting_graph()`. -/
def build_waiting_graph (d : DeadlockDetector) : DeadlockDetector :=
  let g0 := d.graph_.clear
  let snap := d.get_snapshot
  let lock_owners_snapshot := snap.1
  let thread_waiting_snapshot := snap.2.1
  { d with
    graph_ := thread_waiting_snapshot.foldl
      (fun g pair =>
        match lock_owners_snapshot.find pair.2 with
        | some owner_thread => g.add_edge pair.1 owner_thread
        | none => g)
      g0 }

/-- Member `check_deadlock()`: the returned flag and the detector afterwards;
`none` when `has_cycle` does not finish within its fuel. -/
def check_deadlock (d : DeadlockDetector) : Option (Bool × DeadlockDetector) :=
  let d1 := d.build_waiting_graph
  match d1.graph_.has_cycle with
  | none => none
  | some (b, g) => some (b, { d1 with graph_ := g })

/-- A call of one of the three observation hooks. -/
inductive HookCall where
  | lock_before (thread_id lock_addr : Nat)
  | lock_after (thread_id lock_addr : Nat)
  | unlock_after (thread_id lock_addr : Nat)
  deriving DecidableEq, Repr

/-- Perform one hook call. -/
def apply_hook (d : DeadlockDetector) : HookCall → DeadlockDetector
  | .lock_before t l => d.on_lock_before t l
  | .lock_after t l => d.on_lock_after t l
  | .unlock_after t l => d.on_unlock_after t l

/-- Perform a sequence of hook calls, first to last. -/
def run_hooks (d : DeadlockDetector) (calls : List HookCall) : DeadlockDetector :=
  calls.foldl apply_hook d

end DeadlockDetector

/-- The tables contain a circular wait: `k ≥ 1` threads `t 0 .. t (k-1)` and
locks `L 0 .. L (k-1)` with `waiters[t i] = L i` and
`holders[L i] = t ((i+1) mod k)`. -/
def CircularWait (holders waiters : StdMap Nat) : Prop :=
  ∃ k : Nat, 1 ≤ k ∧ ∃ t L : Nat → Nat,
    ∀ i, i < k → waiters.find (t i) = some (L i) ∧ holders.find (L i) = some (t ((i + 1) % k))

/-- All merges of two sequences that keep each sequence's own order. -/
def interleavings {α : Type} : List α → List α → List (List α)
  | [], ys => [ys]
  | x :: xs, [] => [x :: xs]
  | x :: xs, y :: ys =>
    (interleavings xs (y :: ys)).map (fun l => x :: l) ++
      (interleavings (x :: xs) ys).map (fun l => y :: l)

/-- The graph `g` stores the edge list `es`: its map is ordered, its vertices
are the endpoints of `es`, each out-neighbour list is the targets of the edges
leaving the vertex (in insertion order), and each stored indegree is the number
of edges entering the vertex. -/
structure Represents (g : DirectedGraph) (es : List (Nat × Nat)) : Prop where
  ordered : g.graph_.Ordered
  mem_keys : ∀ v, v ∈ StdMap.keys g.graph_ ↔ ∃ e ∈ es, e.1 = v ∨ e.2 = v
  out_eq : ∀ w, g.out_neighbors w = (es.filter (fun e => e.1 = w)).map Prod.snd
  indegree_eq : ∀ v, g.stored_indegree v = ((es.countP (fun e => e.2 = v) : Nat) : Int)

/-- The value `indegree_copy[v]` would read: the mapped value, zero for an
absent key. -/
def working (ic : StdMap Int) (v : Nat) : Int := (ic.find v).getD 0

/-- The number of edges of `es` that enter `v` and leave a vertex of `R`. -/
def pending (es : List (Nat × Nat)) (R : Finset Nat) (v : Nat) : Nat :=
  es.countP (fun e => decide (e.2 = v ∧ e.1 ∈ R))

/-- The loop invariant of the `while` loop of `has_cycle` on a graph `g` that
stores the edge list `es`; `R` is the set of vertices not yet dequeued. -/
structure KahnInv (g : DirectedGraph) (es : List (Nat × Nat)) (s : DirectedGraph.KahnState)
    (R : Finset Nat) : Prop where
  graph_eq : s.graph_ = g.graph_
  sub : ∀ v, v ∈ R → v ∈ StdMap.keys g.graph_
  count : s.processed_count + R.card = g.graph_.length
  nodup : s.queue.Nodup
  working_eq : ∀ v, working s.indegree_copy v = ((pending es R v : Nat) : Int)
  queue_iff : ∀ v, v ∈ s.queue ↔ v ∈ R ∧ pending es R v = 0
  done_zero : ∀ v, v ∉ R → pending es R v = 0
  acyc : ∀ v, pending es R v = 0 → ¬ Relation.TransGen g.edge v v

/-- The edges the tables prescribe: for each `(tid, L)` of `waiters`, in
iteration order, the pair `(tid, holders[L])` when `L` is a key of `holders`. -/
def wait_edges (holders waiters : StdMap Nat) : List (Nat × Nat) :=
  waiters.filterMap (fun pair => (holders.find pair.2).map (fun owner => (pair.1, owner)))

/-- Thread `a` waits for a lock that the tables record as held by thread `b`. -/
def waits_for (holders waiters : StdMap Nat) (a b : Nat) : Prop :=
  ∃ L, waiters.find a = some L ∧ holders.find L = some b

/-- The number of occurrences of the edge `(a, b)` in an edge list. -/
def multiplicity (l : List (Nat × Nat)) (a b : Nat) : Nat :=
  l.countP (fun e => decide (e.1 = a ∧ e.2 = b))

/-- A detector state in which thread 1 holds lock 10 and waits for lock 20 while
thread 2 holds lock 20 and waits for lock 10. -/
def DeadlockDetector.sample_ab_ba : DeadlockDetector :=
  { DeadlockDetector.init with
    lock_owners_ := [(10, 1), (20, 2)]
    thread_waiting_ := [(1, 20), (2, 10)]
    thread_stacks_ := [(1, "[Stack trace placeholder]"), (2, "[Stack trace placeholder]")] }

/-- The thread a hook call is made by (its first argument). -/
def DeadlockDetector.HookCall.thread_id : DeadlockDetector.HookCall → Nat
  | .lock_before t _ => t
  | .lock_after t _ => t
  | .unlock_after t _ => t

/-- What a hook call does to the waiters entry of thread `t`, `cur` being the
entry before the call. -/
def waiting_view (t : Nat) (cur : Option Nat) : DeadlockDetector.HookCall → Option Nat
  | .lock_before t' l => if t' = t then some l else cur
  | .lock_after t' _ => if t' = t then none else cur
  | .unlock_after _ _ => cur

/-- What a hook call does to the holders entry of lock `l`, `cur` being the
entry before the call. -/
def owner_view (l : Nat) (cur : Option Nat) : DeadlockDetector.HookCall → Option Nat
  | .lock_before _ _ => cur
  | .lock_after t' l' => if l' = l then some t' else cur
  | .unlock_after _ l' => if l' = l then none else cur

/-- The hook calls of thread `T i` in the ring scenario of `n` threads: acquire
`L i`, then request `L ((i + 1) mod n)`. -/
def ring_program (T L : Nat → Nat) (n i : Nat) : List DeadlockDetector.HookCall :=
  [.lock_before (T i) (L i), .lock_after (T i) (L i), .lock_before (T i) (L ((i + 1) % n))]

/-- The edges `T i → T ((i + 1) mod n)` of a ring of `n` threads. -/
def ring_edges (T : Nat → Nat) (n : Nat) : List (Nat × Nat) :=
  (List.range n).map (fun i => (T i, T ((i + 1) % n)))

/-- The ring scenario of three threads 1, 2, 3 and locks 10, 20, 30: every
thread acquires its own lock, then every thread requests the next one. -/
def DeadlockDetector.sample_ring_calls : List DeadlockDetector.HookCall :=
  [.lock_before 1 10, .lock_after 1 10, .lock_before 2 20, .lock_after 2 20,
   .lock_before 3 30, .lock_after 3 30,
   .lock_before 1 20, .lock_before 2 30, .lock_before 3 10]

/-! ### Background detection: `start`, `stop`, `detector_loop` -/

/-- What a lifecycle call does besides changing the data members (console
output other than the warning and the report is left out). -/
inductive Effect where
  | warning_already_running
  | thread_created
  | thread_joined
  | deadlock_report
  deriving DecidableEq, Repr

namespace DeadlockDetector

/-- Member `is_running()`. -/
def is_running (d : DeadlockDetector) : Bool := d.running_

/-- Member `set_interval(seconds)`. -/
def set_interval (d : DeadlockDetector) (seconds : Int) : DeadlockDetector :=
  { d with interval_seconds_ := seconds }

/-- Member `start(interval_seconds)`: the detector afterwards and what the call
did.  The created thread runs `detector_loop`. -/
def start (d : DeadlockDetector) (interval_seconds : Int) : DeadlockDetector × List Effect :=
  if d.running_ then (d, [Effect.warning_already_running])
  else
    ({ d with
        interval_seconds_ := interval_seconds
        running_ := true
        deadlock_detected_ := false
        detector_thread_ := true },
      [Effect.thread_created])

/-- Member `stop()`: the detector afterwards and what the call did.  The passes
the worker still makes before `join()` returns belong to `detector_loop`. -/
def stop (d : DeadlockDetector) : DeadlockDetector × List Effect :=
  if !d.running_ then (d, [])
  else if d.detector_thread_ then
    ({ d with running_ := false, detector_thread_ := false }, [Effect.thread_joined])
  else ({ d with running_ := false }, [])

/-- What the other threads do around one pass of the worker.  `stop_requested`:
a `stop()` call has stored `false` into `running_` before the worker reads the
loop condition of this pass.  `calls`: the hook calls made before the snapshot
of this pass's `check_deadlock()` (while the worker sleeps or waits for the
table mutexes).  `late_calls`: the hook calls made after that snapshot and
before the worker reads the loop condition again or leaves the loop.
`stop_during`: a `stop()` call stores `false` into `running_` after the worker
has read the loop condition of this pass (during `sleep_for`,
`check_deadlock()` or the report) and before it reads the condition again or
leaves the loop. -/
structure PassEnv where
  stop_requested : Bool
  calls : List HookCall
  late_calls : List HookCall
  stop_during : Bool
  deriving DecidableEq, Repr

/-- One executed pass of the worker: the result of `check_deadlock()` and
whether `print_deadlock_info()` was called. -/
structure PassRecord where
  result : Bool
  reported : Bool
  deriving DecidableEq, Repr

/-- A run of the worker: the detector afterwards, the executed passes in order,
and whether the worker has left its loop (`false`: it is still looping when the
described environment ends). -/
structure LoopOutcome where
  detector : DeadlockDetector
  passes : List PassRecord
  exited : Bool
  deriving DecidableEq, Repr

/-- What the other threads do to the detector while a pass goes on after its
snapshot: the late hook calls, and the store of a `stop()` call.  The worker
reads none of the fields these change before its next read of `running_`. -/
def PassEnv.during (env : PassEnv) (d : DeadlockDetector) : DeadlockDetector :=
  let d1 := d.run_hooks env.late_calls
  if env.stop_during then { d1 with running_ := false } else d1

/-- Member `detector_loop()`, one list element per evaluation of the loop
condition `running_.load()`; `none` when `check_deadlock` does not finish.
During the run the other threads call hooks and `stop()` only. -/
def detector_loop : DeadlockDetector → List PassEnv → Option LoopOutcome
  | d, [] => some { detector := d, passes := [], exited := false }
  | d, env :: rest =>
    let d1 := if env.stop_requested then { d with running_ := false } else d
    if !d1.running_ then some { detector := d1, passes := [], exited := true }
    else
      -- sleep_for(interval_seconds_), then check_deadlock()
      match (d1.run_hooks env.calls).check_deadlock with
      | none => none
      | some (res, d3) =>
        if res && !d3.deadlock_detected_ then
          -- deadlock_detected_.store(true); print_deadlock_info(); break
          some { detector := env.during { d3 with deadlock_detected_ := true },
                 passes := [{ result := res, reported := true }], exited := true }
        else
          match detector_loop (env.during d3) rest with
          | none => none
          | some o => some { o with passes := { result := res, reported := false } :: o.passes }

/-- Whether a `stop()` call has stored `false` into `running_` before the worker
reads the loop condition for pass `j` (passes counted from 0). -/
def stop_seen (envs : List PassEnv) (j : Nat) : Bool :=
  (envs.take (j + 1)).any (fun e => e.stop_requested) ||
    (envs.take j).any (fun e => e.stop_during)

/-- The hook calls made before the snapshot of pass `j` (passes counted from
0), in order. -/
def calls_before (envs : List PassEnv) (j : Nat) : List HookCall :=
  (envs.take j).flatMap (fun e => e.calls ++ e.late_calls) ++
    ((envs.drop j).head?.map (fun e => e.calls)).getD []

end DeadlockDetector

/-- An environment of one pass in which thread 1 acquires lock 10 and requests
it again before the worker checks. -/
def DeadlockDetector.sample_self_loop_env : DeadlockDetector.PassEnv :=
  { stop_requested := false
    calls := [.lock_before 1 10, .lock_after 1 10, .lock_before 1 10]
    late_calls := []
    stop_during := false }

/-- An environment of one pass in which nothing happens. -/
def DeadlockDetector.sample_idle_env : DeadlockDetector.PassEnv :=
  { stop_requested := false, calls := [], late_calls := [], stop_during := false }

/-- An environment of one pass in which thread 1 acquires lock 10 and requests
it again before the worker checks, and `stop()` stores `false` into `running_`
while the worker is in `check_deadlock()`. -/
def DeadlockDetector.sample_self_loop_stop_env : DeadlockDetector.PassEnv :=
  { stop_requested := false
    calls := [.lock_before 1 10, .lock_after 1 10, .lock_before 1 10]
    late_calls := []
    stop_during := true }

/-! ### Two threads taking two locks in the same order -/

/-- The lock a thread is recorded as waiting for when its next step is `pc`. -/
def awaited (L1 L2 pc : Nat) : Option Nat :=
  if pc = 1 ∨ pc = 2 then some L1 else if pc = 4 ∨ pc = 5 then some L2 else none

/-- The steps at which a thread may be recorded as the holder of lock `l`. -/
def may_hold (L1 L2 l pc : Nat) : Prop :=
  (l = L1 ∧ 3 ≤ pc ∧ pc ≤ 9) ∨ (l = L2 ∧ 6 ≤ pc ∧ pc ≤ 7)

/-- One step of thread `tid` running, over and over, the body
`pthread_mutex_lock(L1); pthread_mutex_lock(L2); pthread_mutex_unlock(L2);
pthread_mutex_unlock(L1)` with the macros of `deadlock_detector.h` expanded;
`pc` is the next step, `m1` and `m2` are the owners of the two real mutexes.
The real `pthread_mutex_lock` (steps 1 and 4) makes no progress while the
mutex is owned. -/
def thread_step (tid L1 L2 pc : Nat) (d : DeadlockDetector) (m1 m2 : Option Nat) :
    Nat × DeadlockDetector × Option Nat × Option Nat :=
  match pc with
  | 0 => (1, d.on_lock_before tid L1, m1, m2)
  | 1 => if m1 = none then (2, d, some tid, m2) else (1, d, m1, m2)
  | 2 => (3, d.on_lock_after tid L1, m1, m2)
  | 3 => (4, d.on_lock_before tid L2, m1, m2)
  | 4 => if m2 = none then (5, d, m1, some tid) else (4, d, m1, m2)
  | 5 => (6, d.on_lock_after tid L2, m1, m2)
  | 6 => (7, d, m1, none)
  | 7 => (8, d.on_unlock_after tid L2, m1, m2)
  | 8 => (9, d, none, m2)
  | 9 => (0, d.on_unlock_after tid L1, m1, m2)
  | _ => (pc, d, m1, m2)

/-- The detector, the two real mutexes and the next steps of the two threads. -/
structure LockOrderState where
  detector : DeadlockDetector
  mutex1 : Option Nat
  mutex2 : Option Nat
  pc1 : Nat
  pc2 : Nat
  deriving DecidableEq, Repr

namespace LockOrderState

/-- Both threads about to start, nothing locked, empty tables. -/
def initial : LockOrderState :=
  { detector := DeadlockDetector.init, mutex1 := none, mutex2 := none, pc1 := 0, pc2 := 0 }

/-- The scheduler lets one thread take its next step: thread `T2` when `second`
is `true`, thread `T1` otherwise. -/
def step (T1 T2 L1 L2 : Nat) (s : LockOrderState) (second : Bool) : LockOrderState :=
  if second then
    { detector := (thread_step T2 L1 L2 s.pc2 s.detector s.mutex1 s.mutex2).2.1
      mutex1 := (thread_step T2 L1 L2 s.pc2 s.detector s.mutex1 s.mutex2).2.2.1
      mutex2 := (thread_step T2 L1 L2 s.pc2 s.detector s.mutex1 s.mutex2).2.2.2
      pc1 := s.pc1
      pc2 := (thread_step T2 L1 L2 s.pc2 s.detector s.mutex1 s.mutex2).1 }
  else
    { detector := (thread_step T1 L1 L2 s.pc1 s.detector s.mutex1 s.mutex2).2.1
      mutex1 := (thread_step T1 L1 L2 s.pc1 s.detector s.mutex1 s.mutex2).2.2.1
      mutex2 := (thread_step T1 L1 L2 s.pc1 s.detector s.mutex1 s.mutex2).2.2.2
      pc1 := (thread_step T1 L1 L2 s.pc1 s.detector s.mutex1 s.mutex2).1
      pc2 := s.pc2 }

/-- The state after the scheduler's choices `sched`, first to last. -/
def run (T1 T2 L1 L2 : Nat) (s : LockOrderState) (sched : List Bool) : LockOrderState :=
  sched.foldl (step T1 T2 L1 L2) s

end LockOrderState

/-- What holds of the tables in every state of the same-order scenario. -/
structure SameOrderInv (T1 T2 L1 L2 : Nat) (s : LockOrderState) : Prop where
  pc1_lt : s.pc1 < 10
  pc2_lt : s.pc2 < 10
  ordered : s.detector.thread_waiting_.Ordered
  waiting : ∀ t, s.detector.thread_waiting_.find t =
    if t = T1 then awaited L1 L2 s.pc1 else if t = T2 then awaited L1 L2 s.pc2 else none
  owners : ∀ l t, s.detector.lock_owners_.find l = some t →
    (t = T1 ∧ may_hold L1 L2 l s.pc1) ∨ (t = T2 ∧ may_hold L1 L2 l s.pc2)

/-- The lock a hook call names (its second argument). -/
def DeadlockDetector.HookCall.lock_addr : DeadlockDetector.HookCall → Nat
  | .lock_before _ l => l
  | .lock_after _ l => l
  | .unlock_after _ l => l

/-- A call that changes a `DirectedGraph`: `add_edge(from, to)` or `clear()`. -/
inductive GraphOp where
  | add_edge (src dst : Nat)
  | clear
  deriving DecidableEq, Repr

/-- Perform one graph call. -/
def DirectedGraph.apply_op (g : DirectedGraph) : GraphOp → DirectedGraph
  | .add_edge a b => g.add_edge a b
  | .clear => g.clear

/-- Perform a sequence of graph calls, first to last. -/
def DirectedGraph.run_ops (g : DirectedGraph) (ops : List GraphOp) : DirectedGraph :=
  ops.foldl DirectedGraph.apply_op g

/-- A detector state whose holders table records thread 2 as the holder of
lock 10. -/
def DeadlockDetector.sample_held_by_2 : DeadlockDetector :=
  { DeadlockDetector.init with lock_owners_ := [(10, 2)] }

/-- The vertices the `while` loop of `has_cycle` takes from the queue, in order:
the successive values of `node`. -/
def DirectedGraph.kahn_dequeued : Nat → DirectedGraph.KahnState → List Nat
  | 0, _ => []
  | fuel + 1, s =>
    match s.queue with
    | [] => []
    | node :: rest => node :: DirectedGraph.kahn_dequeued fuel (DirectedGraph.kahn_step s node rest)

/-- The vertices `has_cycle` dequeues on the graph `g`, in order. -/
def DirectedGraph.dequeued (g : DirectedGraph) : List Nat :=
  DirectedGraph.kahn_dequeued g.graph_.length
    { graph_ := g.graph_, indegree_copy := DirectedGraph.copy_indegrees g.graph_,
      queue := DirectedGraph.seed_queue (DirectedGraph.copy_indegrees g.graph_),
      processed_count := 0 }

/-- The vertex `v` lies on a directed cycle or can be reached from a vertex on a
directed cycle. -/
def DirectedGraph.fed_by_cycle (g : DirectedGraph) (v : Nat) : Prop :=
  ∃ c, Relation.TransGen g.edge c c ∧ Relation.ReflTransGen g.edge c v

/-! ### The report -/

namespace DeadlockDetector

/-- One line `Thread tid is waiting for lock waiting_lock (held by Thread owner)`
of the report. -/
structure ReportLine where
  tid : Nat
  waiting_lock : Nat
  owner : Nat
  deriving DecidableEq, Repr

/-- Member `print_deadlock_info()`: the lines it prints under the heading
`Threads involved in deadlock:`, one for every element of
`graph_.get_all_nodes()`; the detector is not changed. -/
def print_deadlock_info (d : DeadlockDetector) : List ReportLine :=
  d.graph_.get_all_nodes.map (fun tid =>
    let waiting_lock := match d.thread_waiting_.find tid with
      | some l => l
      | none => 0
    let owner := match d.lock_owners_.find waiting_lock with
      | some o => o
      | none => 0
    { tid := tid, waiting_lock := waiting_lock, owner := owner })

/-- Threads 1 and 2 are deadlocked on locks 10 and 20 while thread 5 waits for
lock 40, held by thread 4, which waits for nothing. -/
def sample_with_bystanders : DeadlockDetector :=
  { init with
    lock_owners_ := [(10, 1), (20, 2), (40, 4)]
    thread_waiting_ := [(1, 20), (2, 10), (5, 40)] }

end DeadlockDetector

/-! ### The detector's own mutexes -/

/-- The four mutexes of the class `DeadlockDetector`: `mutex_lock_owners_`,
`mutex_thread_waiting_`, `mutex_thread_stacks_` and `mutex_graph_`. -/
inductive Mutex where
  | lock_owners
  | thread_waiting
  | thread_stacks
  | graph
  deriving DecidableEq, Repr

/-- What a member function does to the mutexes: `acquire ms` is one
`std::lock(...)` call on the mutexes `ms` or one `lock_guard` on a single
mutex, `release m` is the end of the scope of the `lock_guard` that owns `m`. -/
inductive LockStep where
  | acquire (ms : List Mutex)
  | release (m : Mutex)
  deriving DecidableEq, Repr

/-- The member functions that take mutexes; `print_deadlock_info nodes` is a
call that finds `nodes` elements in `graph_.get_all_nodes()`. -/
inductive DetectorOp where
  | on_lock_before
  | on_lock_after
  | on_unlock_after
  | get_snapshot
  | check_deadlock
  | print_deadlock_info (nodes : Nat)
  | print_status
  deriving DecidableEq, Repr

/-- The mutex steps of `get_snapshot`. -/
def snapshot_steps : List LockStep :=
  [.acquire [.lock_owners, .thread_waiting, .thread_stacks],
   .release .lock_owners, .release .thread_waiting, .release .thread_stacks]

/-- The mutex steps of the `for` loop of `print_deadlock_info` over `nodes`
threads: per thread a `lock_guard` on `mutex_thread_waiting_`, then one on
`mutex_lock_owners_`. -/
def report_steps : Nat → List LockStep
  | 0 => []
  | nodes + 1 =>
    .acquire [.thread_waiting] :: .release .thread_waiting ::
      .acquire [.lock_owners] :: .release .lock_owners :: report_steps nodes

/-- The mutex steps of each member function, in program order. -/
def lock_steps : DetectorOp → List LockStep
  | .on_lock_before =>
    [.acquire [.thread_waiting, .thread_stacks], .release .thread_waiting,
     .release .thread_stacks]
  | .on_lock_after =>
    [.acquire [.thread_waiting, .thread_stacks, .lock_owners], .release .thread_waiting,
     .release .thread_stacks, .release .lock_owners]
  | .on_unlock_after => [.acquire [.lock_owners], .release .lock_owners]
  | .get_snapshot => snapshot_steps
  | .check_deadlock => .acquire [.graph] :: (snapshot_steps ++ [.release .graph])
  | .print_deadlock_info nodes => .acquire [.graph] :: (report_steps nodes ++ [.release .graph])
  | .print_status => snapshot_steps

/-- Some `acquire` step of the program is taken while a mutex is held. -/
def acquires_while_holding : List Mutex → List LockStep → Bool
  | _, [] => false
  | held, .acquire ms :: rest => !held.isEmpty || acquires_while_holding (ms ++ held) rest
  | held, .release m :: rest => acquires_while_holding (held.erase m) rest

/-- The locking discipline of the detector: a program releases only what it
holds, requests mutexes only while it holds no table mutex, requests
`mutex_graph_` only while it holds nothing, and ends holding nothing. -/
def disciplined : List Mutex → List LockStep → Prop
  | held, [] => held = []
  | held, .acquire ms :: rest =>
    (∀ m, m ∈ held → m = Mutex.graph) ∧ (Mutex.graph ∈ ms → held = []) ∧
      disciplined (ms ++ held) rest
  | held, .release m :: rest => m ∈ held ∧ disciplined (held.erase m) rest

/-- A thread that calls member functions of the detector: the mutexes it holds
and the mutex steps it still has to take. -/
structure LockThread where
  held : List Mutex
  todo : List LockStep
  deriving DecidableEq, Repr

/-- No thread holds the mutex `m`. -/
def is_free (sys : List LockThread) (m : Mutex) : Bool :=
  sys.all (fun th => decide (m ∉ th.held))

/-- Thread `i` can take its next step: a release always, an acquire when all
requested mutexes are free. -/
def can_step (sys : List LockThread) (i : Nat) : Bool :=
  match sys[i]? with
  | none => false
  | some th =>
    match th.todo with
    | [] => false
    | .release _ :: _ => true
    | .acquire ms :: _ => ms.all (is_free sys)

/-- The thread after its next step. -/
def LockThread.advance (th : LockThread) : LockThread :=
  match th.todo with
  | [] => th
  | .acquire ms :: rest => { held := ms ++ th.held, todo := rest }
  | .release m :: rest => { held := th.held.erase m, todo := rest }

/-- The scheduler picks thread `i`: it takes its next step if it can, and
waits otherwise. -/
def lock_step (sys : List LockThread) (i : Nat) : List LockThread :=
  match sys[i]? with
  | none => sys
  | some th => if can_step sys i then sys.set i th.advance else sys

/-- The threads after the scheduler's choices `sched`, first to last. -/
def lock_run (sys : List LockThread) (sched : List Nat) : List LockThread :=
  sched.foldl lock_step sys

/-- Threads that are about to run the given sequences of member functions. -/
def start_threads (programs : List (List DetectorOp)) : List LockThread :=
  programs.map (fun ops => { held := [], todo := ops.flatMap lock_steps })

/-! ### The run of `has_cycle`, state by state -/

/-- The state of `has_cycle` when the `while` loop is entered: `indegree_copy`
filled from `graph_`, the queue seeded, `processed_count = 0`. -/
def DirectedGraph.kahn_init (g : DirectedGraph) : DirectedGraph.KahnState :=
  { graph_ := g.graph_, indegree_copy := DirectedGraph.copy_indegrees g.graph_,
    queue := DirectedGraph.seed_queue (DirectedGraph.copy_indegrees g.graph_),
    processed_count := 0 }

/-- The states of `has_cycle` at the successive evaluations of the loop
condition `!queue.empty()`, the state in which the loop is left included. -/
def DirectedGraph.kahn_states : Nat → DirectedGraph.KahnState → List DirectedGraph.KahnState
  | 0, s => [s]
  | fuel + 1, s =>
    match s.queue with
    | [] => [s]
    | node :: rest => s :: DirectedGraph.kahn_states fuel (DirectedGraph.kahn_step s node rest)

/-- The states `has_cycle` goes through on the graph `g`, one per evaluation of
the loop condition. -/
def DirectedGraph.states (g : DirectedGraph) : List DirectedGraph.KahnState :=
  DirectedGraph.kahn_states g.graph_.length g.kahn_init

/-- The vector `neighbors` of the iteration that dequeues `node`:
`graph_[node].neighbors`, the lookup default-constructing the vertex when the
key is absent. -/
def DirectedGraph.kahn_neighbors (s : DirectedGraph.KahnState) (node : Nat) : List Nat :=
  let graph1 := match s.graph_.find node with
    | none => s.graph_.put node default
    | some _ => s.graph_
  ((graph1.find node).getD default).neighbors

/-- The map `indegree_copy` and the queue after the first `k` passes of the
`for` loop over `neighbors`, in the iteration that dequeues `node` and leaves
`rest` in the queue. -/
def DirectedGraph.kahn_inner (s : DirectedGraph.KahnState) (node : Nat) (rest : List Nat)
    (k : Nat) : StdMap Int × List Nat :=
  ((DirectedGraph.kahn_neighbors s node).take k).foldl DirectedGraph.relax (s.indegree_copy, rest)

/-- The vertices the iteration that dequeues `node` pushes onto the queue: what
the queue holds behind `rest` when the `for` loop is done. -/
def DirectedGraph.kahn_pushed (s : DirectedGraph.KahnState) (node : Nat) (rest : List Nat) :
    List Nat :=
  (DirectedGraph.kahn_step s node rest).queue.drop rest.length

/-- The vertices the `while` loop pushes onto the queue, in order. -/
def DirectedGraph.kahn_enqueued : Nat → DirectedGraph.KahnState → List Nat
  | 0, _ => []
  | fuel + 1, s =>
    match s.queue with
    | [] => []
    | node :: rest =>
      DirectedGraph.kahn_pushed s node rest ++
        DirectedGraph.kahn_enqueued fuel (DirectedGraph.kahn_step s node rest)

/-- All vertices `has_cycle` pushes onto the queue on the graph `g`, in order:
those of the seeding loop, then those of the `while` loop. -/
def DirectedGraph.enqueued (g : DirectedGraph) : List Nat :=
  g.kahn_init.queue ++ DirectedGraph.kahn_enqueued g.graph_.length g.kahn_init

/-! ## `deadlock_detector.cpp` of day 1 and of `src/src` -/

namespace Day1

/-- The data members of the day-1 class `DeadlockDetector`, mutexes left out. -/
structure DeadlockDetector where
  lock_owners_ : StdMap Nat
  thread_waiting_ : StdMap Nat
  thread_stacks_ : StdMap String
  deriving DecidableEq, Repr

namespace DeadlockDetector

/-- Day-1 hook `on_lock_before(thread_id, lock_addr)`; the line written to
`std::cout` is not modelled. -/
def on_lock_before (d : DeadlockDetector) (thread_id lock_addr : Nat) : DeadlockDetector :=
  let d1 := { d with thread_waiting_ := d.thread_waiting_.put thread_id lock_addr }
  { d1 with thread_stacks_ := d1.thread_stacks_.put thread_id "[Stack trace placeholder]" }

/-- Day-1 hook `on_lock_after(thread_id, lock_addr)`; the line written to
`std::cout` is not modelled. -/
def on_lock_after (d : DeadlockDetector) (thread_id lock_addr : Nat) : DeadlockDetector :=
  let d1 := { d with thread_waiting_ := d.thread_waiting_.erase thread_id }
  let d2 := { d1 with thread_stacks_ := d1.thread_stacks_.erase thread_id }
  { d2 with lock_owners_ := d2.lock_owners_.put lock_addr thread_id }

/-- Day-1 hook `on_unlock_after(thread_id, lock_addr)`; `thread_id` is used only
in the line written to `std::cout`, which is not modelled. -/
def on_unlock_after (d : DeadlockDetector) (_thread_id lock_addr : Nat) : DeadlockDetector :=
  { d with lock_owners_ := d.lock_owners_.erase lock_addr }

/-- The three tables: holders, waiters, contexts. -/
def tables (d : DeadlockDetector) : StdMap Nat × StdMap Nat × StdMap String :=
  (d.lock_owners_, d.thread_waiting_, d.thread_stacks_)

end DeadlockDetector

end Day1

namespace Earlier

/-- The data members of the class `DeadlockDetector` implemented by
`src/src/deadlock_detector.cpp` (declared as in the day-2 header: the three
tables and the graph), mutexes left out. -/
structure DeadlockDetector where
  lock_owners_ : StdMap Nat
  thread_waiting_ : StdMap Nat
  thread_stacks_ : StdMap String
  graph_ : DirectedGraph
  deriving DecidableEq, Repr

namespace DeadlockDetector

/-- Hook `on_lock_before(thread_id, lock_addr)` of `src/src`: one `lock_guard`
block per table. -/
def on_lock_before (d : DeadlockDetector) (thread_id lock_addr : Nat) : DeadlockDetector :=
  let d1 := { d with thread_waiting_ := d.thread_waiting_.put thread_id lock_addr }
  { d1 with thread_stacks_ := d1.thread_stacks_.put thread_id "[Stack trace placeholder]" }

/-- Hook `on_lock_after(thread_id, lock_addr)` of `src/src`: one `lock_guard`
block per table. -/
def on_lock_after (d : DeadlockDetector) (thread_id lock_addr : Nat) : DeadlockDetector :=
  let d1 := { d with thread_waiting_ := d.thread_waiting_.erase thread_id }
  let d2 := { d1 with thread_stacks_ := d1.thread_stacks_.erase thread_id }
  { d2 with lock_owners_ := d2.lock_owners_.put lock_addr thread_id }

/-- Hook `on_unlock_after(thread_id, lock_addr)` of `src/src`; `thread_id` is
not used by the code. -/
def on_unlock_after (d : DeadlockDetector) (_thread_id lock_addr : Nat) : DeadlockDetector :=
  { d with lock_owners_ := d.lock_owners_.erase lock_addr }

/-- Member `build_waiting_graph()` of `src/src`: the holders table is copied
under its mutex, then the waiters table under its own. -/
def build_waiting_graph (d : DeadlockDetector) : DeadlockDetector :=
  let g0 := d.graph_.clear
  let lock_owners_snapshot := d.lock_owners_
  let thread_waiting_snapshot := d.thread_waiting_
  { d with
    graph_ := thread_waiting_snapshot.foldl
      (fun g pair =>
        match lock_owners_snapshot.find pair.2 with
        | some owner_thread => g.add_edge pair.1 owner_thread
        | none => g)
      g0 }

/-- Member `check_deadlock()` of `src/src`: the returned flag and the detector
afterwards; `none` when `has_cycle` does not finish within its fuel. -/
def check_deadlock (d : DeadlockDetector) : Option (Bool × DeadlockDetector) :=
  let d1 := d.build_waiting_graph
  match d1.graph_.has_cycle with
  | none => none
  | some (has_deadlock, g) => some (has_deadlock, { d1 with graph_ := g })

/-- The three tables: holders, waiters, contexts. -/
def tables (d : DeadlockDetector) : StdMap Nat × StdMap Nat × StdMap String :=
  (d.lock_owners_, d.thread_waiting_, d.thread_stacks_)

end DeadlockDetector

end Earlier

/-- The three tables of the day-3 detector: holders, waiters, contexts. -/
def DeadlockDetector.tables (d : DeadlockDetector) : StdMap Nat × StdMap Nat × StdMap String :=
  (d.lock_owners_, d.thread_waiting_, d.thread_stacks_)

/-- A day-1 detector state with the tables of `sample_ab_ba`. -/
def Day1.DeadlockDetector.sample_ab_ba : Day1.DeadlockDetector :=
  { lock_owners_ := [(10, 1), (20, 2)], thread_waiting_ := [(1, 20), (2, 10)],
    thread_stacks_ := [(1, "[Stack trace placeholder]"), (2, "[Stack trace placeholder]")] }

/-- A `src/src` detector state with the tables of `sample_ab_ba`, its graph left
over from an earlier pass. -/
def Earlier.DeadlockDetector.sample_ab_ba : Earlier.DeadlockDetector :=
  { lock_owners_ := [(10, 1), (20, 2)], thread_waiting_ := [(1, 20), (2, 10)],
    thread_stacks_ := [(1, "[Stack trace placeholder]"), (2, "[Stack trace placeholder]")],
    graph_ := DirectedGraph.of_edges [(7, 7)] }

/-! ## Facts about `StdMap` -/

namespace StdMap

variable {β : Type}

theorem find_put_self (k : Nat) (v : β) (m : StdMap β) : (m.put k v).find k = some v := by
  induction m with
  | nil => simp [put, find]
  | cons p rest ih =>
    obtain ⟨k', v'⟩ := p
    by_cases h1 : k < k'
    · simp [put, find, h1]
    · by_cases h2 : k = k'
      · simp [put, find, h2]
      · simp [put, find, h1, h2, ih]

theorem find_put_ne {k j : Nat} (v : β) (m : StdMap β) (h : j ≠ k) :
    (m.put k v).find j = m.find j := by
  induction m with
  | nil => simp [put, find, h]
  | cons p rest ih =>
    obtain ⟨k', v'⟩ := p
    by_cases h1 : k < k'
    · simp [put, find, h1, h]
    · by_cases h2 : k = k'
      · subst h2; simp [put, find, h]
      · simp [put, find, h1, h2, ih]

theorem find_put (k j : Nat) (v : β) (m : StdMap β) :
    (m.put k v).find j = if j = k then some v else m.find j := by
  by_cases h : j = k
  · subst h; simp [find_put_self]
  · simp [h, find_put_ne v m h]

theorem mem_keys_put (k j : Nat) (v : β) (m : StdMap β) :
    j ∈ keys (m.put k v) ↔ j = k ∨ j ∈ keys m := by
  induction m with
  | nil => simp [put, keys]
  | cons p rest ih =>
    obtain ⟨k', v'⟩ := p
    simp only [keys] at ih
    by_cases h1 : k < k'
    · simp [put, keys, h1]
    · by_cases h2 : k = k'
      · subst h2; simp [put, keys]
      · simp only [put, h1, h2, if_false, keys, List.map_cons, List.mem_cons, ih]
        tauto

theorem ordered_put (k : Nat) (v : β) (m : StdMap β) (h : m.Ordered) : (m.put k v).Ordered := by
  induction m with
  | nil => simp [put, Ordered, keys]
  | cons p rest ih =>
    obtain ⟨k', v'⟩ := p
    have hc : (∀ a ∈ keys rest, k' < a) ∧ Ordered rest := by
      simpa [Ordered, keys] using h
    by_cases h1 : k < k'
    · simp only [put, h1, if_true, Ordered, keys, List.map_cons, List.pairwise_cons]
      refine ⟨?_, by simpa [Ordered, keys] using h⟩
      intro a ha
      rcases List.mem_cons.1 ha with rfl | ha
      · exact h1
      · exact lt_trans h1 (hc.1 a ha)
    · by_cases h2 : k = k'
      · subst h2
        simpa [put, Ordered, keys] using h
      · have h3 : k' < k := by omega
        have ih1 := ih hc.2
        simp only [put, h1, h2, if_false, Ordered, keys, List.map_cons, List.pairwise_cons]
        refine ⟨?_, ih1⟩
        intro a ha
        rcases (mem_keys_put k a v rest).1 ha with rfl | ha
        · exact h3
        · exact hc.1 a ha

theorem find_eq_none_iff (m : StdMap β) (k : Nat) : m.find k = none ↔ k ∉ keys m := by
  induction m with
  | nil => simp [find, keys]
  | cons p rest ih =>
    obtain ⟨k', v'⟩ := p
    simp only [keys] at ih
    by_cases h : k = k'
    · simp [find, keys, h]
    · simp [find, keys, h, ih]

theorem find_isSome_iff (m : StdMap β) (k : Nat) : (m.find k).isSome ↔ k ∈ keys m := by
  rw [← not_iff_not, ← find_eq_none_iff]
  cases m.find k <;> simp

theorem mem_of_find {m : StdMap β} {k : Nat} {v : β} (h : m.find k = some v) : (k, v) ∈ m := by
  induction m with
  | nil => simp [find] at h
  | cons p rest ih =>
    obtain ⟨k', v'⟩ := p
    by_cases hk : k = k'
    · subst hk; simp [find] at h; simp [h]
    · simp [find, hk] at h; exact List.mem_cons_of_mem _ (ih h)

theorem find_of_mem {m : StdMap β} (ho : m.Ordered) {k : Nat} {v : β} (h : (k, v) ∈ m) :
    m.find k = some v := by
  induction m with
  | nil => simp at h
  | cons p rest ih =>
    obtain ⟨k', v'⟩ := p
    have hc : (∀ a ∈ keys rest, k' < a) ∧ Ordered rest := by
      simpa [Ordered, keys] using ho
    rcases List.mem_cons.1 h with heq | hmem
    · cases heq; simp [find]
    · have hk : k ∈ keys rest := List.mem_map.2 ⟨(k, v), hmem, rfl⟩
      have hlt := hc.1 k hk
      have hne : k ≠ k' := by omega
      simp [find, hne, ih hc.2 hmem]

theorem mem_iff_find {m : StdMap β} (ho : m.Ordered) (k : Nat) (v : β) :
    (k, v) ∈ m ↔ m.find k = some v :=
  ⟨find_of_mem ho, mem_of_find⟩

theorem nodup_keys {m : StdMap β} (ho : m.Ordered) : (keys m).Nodup :=
  List.Pairwise.imp (fun h => Nat.ne_of_lt h) ho

theorem find_erase_self (k : Nat) (m : StdMap β) : (m.erase k).find k = none := by
  induction m with
  | nil => simp [erase, find]
  | cons p rest ih =>
    obtain ⟨k', v'⟩ := p
    by_cases h : k = k'
    · simp [erase, h]; rw [← h]; exact ih
    · simp [erase, find, h, ih]

theorem find_erase_ne {k j : Nat} (m : StdMap β) (h : j ≠ k) :
    (m.erase k).find j = m.find j := by
  induction m with
  | nil => simp [erase, find]
  | cons p rest ih =>
    obtain ⟨k', v'⟩ := p
    by_cases h1 : k = k'
    · subst h1; simp [erase, find, h, ih]
    · by_cases h2 : j = k'
      · simp [erase, find, h1, h2]
      · simp [erase, find, h1, h2, ih]

theorem erase_of_not_mem {k : Nat} {m : StdMap β} (h : k ∉ keys m) : m.erase k = m := by
  induction m with
  | nil => simp [erase]
  | cons p rest ih =>
    obtain ⟨k', v'⟩ := p
    simp only [keys, List.map_cons, List.mem_cons, not_or] at h
    simp [erase, h.1, ih h.2]

theorem keys_erase (k : Nat) (m : StdMap β) : keys (m.erase k) = (keys m).filter (fun a => a ≠ k) := by
  induction m with
  | nil => simp [erase, keys]
  | cons p rest ih =>
    obtain ⟨k', v'⟩ := p
    simp only [keys] at ih
    by_cases h : k = k'
    · subst h; simp [erase, keys, ih]
    · have h' : k' ≠ k := fun e => h e.symm
      simp [erase, keys, h, h', ih, List.filter_cons]

end StdMap

/-! ## Facts about `add_edge` -/

namespace DirectedGraph

open StdMap

theorem out_neighbors_eq (g : DirectedGraph) (v : Nat) :
    g.out_neighbors v = ((g.graph_.find v).getD default).neighbors := by
  unfold out_neighbors
  cases g.graph_.find v <;> rfl

theorem stored_indegree_eq (g : DirectedGraph) (v : Nat) :
    g.stored_indegree v = ((g.graph_.find v).getD default).indegree := by
  unfold stored_indegree
  cases g.graph_.find v <;> rfl

theorem find_ensure (g : DirectedGraph) (a w : Nat) :
    (g.ensure_node_exists a).graph_.find w =
      if w = a then some ((g.graph_.find a).getD default) else g.graph_.find w := by
  unfold ensure_node_exists
  cases h : g.graph_.find a with
  | none =>
    by_cases hw : w = a
    · subst hw; simp [find_put_self]
    · simp [hw, find_put_ne _ _ hw]
  | some x =>
    by_cases hw : w = a
    · subst hw; simp [h]
    · simp [hw]

theorem mem_keys_ensure (g : DirectedGraph) (a w : Nat) :
    w ∈ keys (g.ensure_node_exists a).graph_ ↔ w = a ∨ w ∈ keys g.graph_ := by
  unfold ensure_node_exists
  cases h : g.graph_.find a with
  | none => simp [mem_keys_put]
  | some x =>
    have ha : a ∈ keys g.graph_ := by
      rw [← find_isSome_iff, h]; rfl
    constructor
    · intro hw; exact Or.inr hw
    · rintro (rfl | hw)
      · exact ha
      · exact hw

theorem ordered_ensure (g : DirectedGraph) (a : Nat) (h : g.graph_.Ordered) :
    (g.ensure_node_exists a).graph_.Ordered := by
  unfold ensure_node_exists
  cases g.graph_.find a with
  | none => exact ordered_put _ _ _ h
  | some x => exact h

theorem find_add_edge (g : DirectedGraph) (a b w : Nat) :
    ((g.add_edge a b).graph_.find w).getD default =
      { indegree := g.stored_indegree w + (if w = b then 1 else 0),
        neighbors := g.out_neighbors w ++ (if w = a then [b] else []) } := by
  simp only [add_edge, find_put, find_ensure, out_neighbors_eq, stored_indegree_eq]
  by_cases h1 : w = b <;> by_cases h2 : w = a <;> by_cases h3 : b = a <;>
    simp_all

theorem out_neighbors_add_edge (g : DirectedGraph) (a b w : Nat) :
    (g.add_edge a b).out_neighbors w = g.out_neighbors w ++ (if w = a then [b] else []) := by
  rw [out_neighbors_eq, find_add_edge]

theorem stored_indegree_add_edge (g : DirectedGraph) (a b w : Nat) :
    (g.add_edge a b).stored_indegree w = g.stored_indegree w + (if w = b then 1 else 0) := by
  rw [stored_indegree_eq, find_add_edge]

theorem mem_keys_add_edge (g : DirectedGraph) (a b w : Nat) :
    w ∈ keys (g.add_edge a b).graph_ ↔ w = a ∨ w = b ∨ w ∈ keys g.graph_ := by
  simp only [add_edge, mem_keys_put, mem_keys_ensure]
  tauto

theorem ordered_add_edge (g : DirectedGraph) (a b : Nat) (h : g.graph_.Ordered) :
    (g.add_edge a b).graph_.Ordered := by
  simp only [add_edge]
  exact ordered_put _ _ _ (ordered_put _ _ _ (ordered_ensure _ _ (ordered_ensure _ _ h)))

theorem represents_empty : Represents empty [] := by
  refine ⟨?_, ?_, ?_, ?_⟩
  · simp [empty, Ordered, keys]
  · simp [empty, keys]
  · intro w; simp [empty, out_neighbors, find]
  · intro v; simp [empty, stored_indegree, find]

theorem represents_add_edge {g : DirectedGraph} {es : List (Nat × Nat)} (h : Represents g es)
    (a b : Nat) : Represents (g.add_edge a b) (es ++ [(a, b)]) := by
  refine ⟨ordered_add_edge g a b h.ordered, ?_, ?_, ?_⟩
  · intro v
    rw [mem_keys_add_edge, h.mem_keys]
    constructor
    · rintro (rfl | rfl | ⟨e, he, hv⟩)
      · exact ⟨(v, b), by simp, Or.inl rfl⟩
      · exact ⟨(a, v), by simp, Or.inr rfl⟩
      · exact ⟨e, by simp [he], hv⟩
    · rintro ⟨e, he, hv⟩
      rcases List.mem_append.1 he with he | he
      · exact Or.inr (Or.inr ⟨e, he, hv⟩)
      · simp only [List.mem_singleton] at he
        subst he
        rcases hv with hv | hv
        · exact Or.inl hv.symm
        · exact Or.inr (Or.inl hv.symm)
  · intro w
    rw [out_neighbors_add_edge, h.out_eq]
    by_cases hw : w = a
    · subst hw; simp [List.filter_append]
    · have : ¬ a = w := fun e => hw e.symm
      simp [List.filter_append, hw, this]
  · intro v
    rw [stored_indegree_add_edge, h.indegree_eq]
    by_cases hv : v = b
    · subst hv; simp [List.countP_append]
    · have : ¬ b = v := fun e => hv e.symm
      simp [List.countP_append, hv, this]

theorem foldl_add_edge_represents (es' : List (Nat × Nat)) :
    ∀ (g : DirectedGraph) (es : List (Nat × Nat)), Represents g es →
      Represents (es'.foldl (fun g e => g.add_edge e.1 e.2) g) (es ++ es') := by
  induction es' with
  | nil => intro g es h; simpa using h
  | cons e rest ih =>
    intro g es h
    have := ih (g.add_edge e.1 e.2) (es ++ [(e.1, e.2)]) (represents_add_edge h e.1 e.2)
    simpa using this

theorem represents_of_edges (es : List (Nat × Nat)) : Represents (of_edges es) es := by
  have := foldl_add_edge_represents es empty [] represents_empty
  simpa [of_edges] using this

end DirectedGraph

/-! ## The loops of `has_cycle` -/

namespace DirectedGraph

open StdMap

theorem working_put (ic : StdMap Int) (k v : Nat) (x : Int) :
    working (ic.put k x) v = if v = k then x else working ic v := by
  unfold working
  rw [find_put]
  split_ifs <;> rfl

theorem relax_fst (ic : StdMap Int) (q : List Nat) (n : Nat) :
    (relax (ic, q) n).1 = ic.put n (working ic n - 1) := by
  unfold relax
  simp only [working]
  split_ifs <;> rfl

theorem relax_snd (ic : StdMap Int) (q : List Nat) (n : Nat) :
    (relax (ic, q) n).2 = if working ic n = 1 then q ++ [n] else q := by
  unfold relax
  simp only [find_put_self, Option.getD_some, working]
  by_cases h : (ic.find n).getD 0 = 1
  · simp [h]
  · have : ¬ ((ic.find n).getD 0 - 1 = 0) := by omega
    simp [h, this]

/-- The inner `for` loop: every working indegree drops by the number of
occurrences in the neighbour list, and exactly the vertices whose positive
working indegree is used up are appended to the queue, once each. -/
theorem relax_foldl (ns : List Nat) :
    ∀ (ic : StdMap Int) (q : List Nat),
      (∀ v, working (ns.foldl relax (ic, q)).1 v = working ic v - (ns.count v : Nat)) ∧
      ∃ E : List Nat, (ns.foldl relax (ic, q)).2 = q ++ E ∧ E.Nodup ∧
        ∀ v, v ∈ E ↔ (0 < working ic v ∧ working ic v ≤ (ns.count v : Nat)) := by
  induction ns with
  | nil =>
    intro ic q
    refine ⟨by simp, [], by simp, List.nodup_nil, ?_⟩
    intro v
    simp only [List.not_mem_nil, List.count_nil, false_iff]
    omega
  | cons n rest ih =>
    intro ic q
    have hst : relax (ic, q) n = ((relax (ic, q) n).1, (relax (ic, q) n).2) := rfl
    rw [List.foldl_cons, hst, relax_fst, relax_snd]
    obtain ⟨ihw, E, ihq, ihn, ihE⟩ :=
      ih (ic.put n (working ic n - 1)) (if working ic n = 1 then q ++ [n] else q)
    refine ⟨?_, ?_⟩
    · intro v
      rw [ihw, working_put, List.count_cons]
      by_cases hv : v = n
      · subst hv; simp; omega
      · have : ¬ n = v := fun e => hv e.symm
        simp [hv, this]
    · by_cases h1 : working ic n = 1
      · refine ⟨n :: E, ?_, ?_, ?_⟩
        · rw [ihq]; simp [h1]
        · refine List.nodup_cons.2 ⟨?_, ihn⟩
          intro hn
          have := (ihE n).1 hn
          rw [working_put] at this
          simp at this
          omega
        · intro v
          rw [List.mem_cons, ihE, working_put, List.count_cons]
          by_cases hv : v = n
          · subst hv; simp [h1]
          · have : ¬ n = v := fun e => hv e.symm
            simp [hv, this]
      · refine ⟨E, ?_, ihn, ?_⟩
        · rw [ihq]; simp [h1]
        · intro v
          rw [ihE, working_put, List.count_cons]
          by_cases hv : v = n
          · subst hv; simp; omega
          · have : ¬ n = v := fun e => hv e.symm
            simp [hv, this]

theorem put_append_of_lt (m : StdMap Int) (k : Nat) (x : Int) (h : ∀ a ∈ keys m, a < k) :
    m.put k x = m ++ [(k, x)] := by
  induction m with
  | nil => rfl
  | cons p rest ih =>
    obtain ⟨k', v'⟩ := p
    have h1 : k' < k := h k' (by simp [keys])
    have h2 : ¬ k < k' := by omega
    have h3 : ¬ k = k' := by omega
    have h4 : ∀ a ∈ keys rest, a < k := fun a ha => h a (by simp [keys] at ha ⊢; exact Or.inr ha)
    simp [put, h2, h3, ih h4]

theorem copy_indegrees_foldl (m : StdMap GraphVertex) :
    ∀ acc : StdMap Int, (∀ a ∈ keys acc, ∀ b ∈ keys m, a < b) → m.Ordered →
      m.foldl (fun ic pair => ic.put pair.1 pair.2.indegree) acc =
        acc ++ m.map (fun pair => (pair.1, pair.2.indegree)) := by
  induction m with
  | nil => intro acc _ _; simp
  | cons p rest ih =>
    intro acc hlt ho
    have hc : (∀ a ∈ keys rest, p.1 < a) ∧ Ordered rest := by
      simpa [Ordered, keys] using ho
    rw [List.foldl_cons, put_append_of_lt acc p.1 p.2.indegree
      (fun a ha => hlt a ha p.1 (by simp [keys]))]
    rw [ih _ ?_ hc.2]
    · simp
    · intro a ha b hb
      simp only [keys, List.map_append, List.mem_append, List.map_cons, List.map_nil,
        List.mem_singleton] at ha
      rcases ha with ha | ha
      · exact hlt a ha b (by simp only [keys, List.map_cons, List.mem_cons]; exact Or.inr hb)
      · subst ha; exact hc.1 b hb

theorem copy_indegrees_eq (m : StdMap GraphVertex) (ho : m.Ordered) :
    copy_indegrees m = m.map (fun pair => (pair.1, pair.2.indegree)) := by
  have := copy_indegrees_foldl m [] (by simp [keys]) ho
  simpa [copy_indegrees] using this

theorem seed_queue_foldl (ic : StdMap Int) :
    ∀ q : List Nat, ic.foldl (fun q pair => if pair.2 = 0 then q ++ [pair.1] else q) q =
      q ++ (ic.filter (fun pair => decide (pair.2 = 0))).map Prod.fst := by
  induction ic with
  | nil => intro q; simp
  | cons p rest ih =>
    intro q
    rw [List.foldl_cons, ih]
    by_cases h : p.2 = 0
    · simp [h, List.filter_cons]
    · simp [h, List.filter_cons]

theorem seed_queue_eq (ic : StdMap Int) :
    seed_queue ic = (ic.filter (fun pair => decide (pair.2 = 0))).map Prod.fst := by
  have := seed_queue_foldl ic []
  simpa [seed_queue] using this

theorem find_map_indegree (m : StdMap GraphVertex) (v : Nat) :
    StdMap.find (m.map (fun pair => (pair.1, pair.2.indegree))) v =
      (m.find v).map (fun vtx => vtx.indegree) := by
  induction m with
  | nil => rfl
  | cons p rest ih =>
    obtain ⟨k', v'⟩ := p
    by_cases h : v = k'
    · simp [find, h]
    · simp only [List.map_cons, find, h, if_false]; exact ih

theorem working_copy_indegrees (g : DirectedGraph) (ho : g.graph_.Ordered) (v : Nat) :
    working (copy_indegrees g.graph_) v = g.stored_indegree v := by
  rw [copy_indegrees_eq _ ho, working, find_map_indegree, stored_indegree]
  cases g.graph_.find v <;> rfl

theorem mem_seed_queue (g : DirectedGraph) (ho : g.graph_.Ordered) (v : Nat) :
    v ∈ seed_queue (copy_indegrees g.graph_) ↔ v ∈ keys g.graph_ ∧ g.stored_indegree v = 0 := by
  rw [seed_queue_eq, copy_indegrees_eq _ ho]
  simp only [List.mem_map, List.mem_filter, decide_eq_true_eq]
  constructor
  · rintro ⟨p, ⟨⟨q, hmem, heq⟩, hz⟩, rfl⟩
    subst heq
    obtain ⟨k, vtx⟩ := q
    have hf := find_of_mem ho hmem
    refine ⟨List.mem_map.2 ⟨(k, vtx), hmem, rfl⟩, ?_⟩
    simp only [stored_indegree, hf]
    exact hz
  · rintro ⟨hk, hz⟩
    obtain ⟨⟨k, vtx⟩, hmem, hkv⟩ := List.mem_map.1 hk
    simp only at hkv
    subst hkv
    have hf := find_of_mem ho hmem
    simp only [stored_indegree, hf] at hz
    exact ⟨(k, vtx.indegree), ⟨⟨(k, vtx), hmem, rfl⟩, hz⟩, rfl⟩

theorem nodup_seed_queue (g : DirectedGraph) (ho : g.graph_.Ordered) :
    (seed_queue (copy_indegrees g.graph_)).Nodup := by
  rw [seed_queue_eq, copy_indegrees_eq _ ho]
  have hsub : List.Sublist
      (((g.graph_.map (fun pair => (pair.1, pair.2.indegree))).filter
        (fun pair => decide (pair.2 = 0))).map Prod.fst)
      ((g.graph_.map (fun pair => (pair.1, pair.2.indegree))).map Prod.fst) :=
    List.Sublist.map _ (List.filter_sublist _)
  have hk : (g.graph_.map (fun pair => (pair.1, pair.2.indegree))).map Prod.fst = keys g.graph_ := by
    simp [keys, List.map_map, Function.comp_def]
  rw [hk] at hsub
  exact List.Nodup.sublist hsub (nodup_keys ho)

theorem edge_iff {g : DirectedGraph} {es : List (Nat × Nat)} (hr : Represents g es)
    (w v : Nat) : g.edge w v ↔ (w, v) ∈ es := by
  unfold edge
  rw [hr.out_eq]
  simp only [List.mem_map, List.mem_filter, decide_eq_true_eq]
  constructor
  · rintro ⟨⟨a, b⟩, ⟨hmem, ha⟩, hb⟩
    simp only at ha hb
    subst ha; subst hb
    exact hmem
  · intro h
    exact ⟨(w, v), ⟨h, rfl⟩, rfl⟩

theorem count_targets (es : List (Nat × Nat)) (node v : Nat) :
    ((es.filter (fun e => decide (e.1 = node))).map Prod.snd).count v =
      es.countP (fun e => decide (e.2 = v ∧ e.1 = node)) := by
  induction es with
  | nil => rfl
  | cons e rest ih =>
    by_cases h1 : e.1 = node <;> by_cases h2 : e.2 = v <;>
      simp [List.filter_cons, List.countP_cons, List.count_cons, h1, h2, ih]

theorem pending_erase (es : List (Nat × Nat)) (R : Finset Nat) (node v : Nat) (h : node ∈ R) :
    pending es R v =
      pending es (R.erase node) v + es.countP (fun e => decide (e.2 = v ∧ e.1 = node)) := by
  unfold pending
  induction es with
  | nil => rfl
  | cons e rest ih =>
    simp only [List.countP_cons, ih]
    by_cases h1 : e.1 = node <;> by_cases h2 : e.2 = v <;> by_cases h3 : e.1 ∈ R <;>
      simp_all <;> omega

theorem pending_pos_iff (es : List (Nat × Nat)) (R : Finset Nat) (v : Nat) :
    0 < pending es R v ↔ ∃ w, w ∈ R ∧ (w, v) ∈ es := by
  unfold pending
  rw [List.countP_pos_iff]
  constructor
  · rintro ⟨⟨a, b⟩, hmem, hp⟩
    simp only [decide_eq_true_eq] at hp
    obtain ⟨rfl, ha⟩ := hp
    exact ⟨a, ha, hmem⟩
  · rintro ⟨w, hw, hmem⟩
    exact ⟨(w, v), hmem, by simp [hw]⟩

theorem pending_zero_iff (es : List (Nat × Nat)) (R : Finset Nat) (v : Nat) :
    pending es R v = 0 ↔ ∀ w, (w, v) ∈ es → w ∉ R := by
  have h := pending_pos_iff es R v
  constructor
  · intro h0 w hmem hw
    have : 0 < pending es R v := h.2 ⟨w, hw, hmem⟩
    omega
  · intro hall
    by_contra hne
    have hpos : 0 < pending es R v := by omega
    obtain ⟨w, hw, hmem⟩ := h.1 hpos
    exact hall w hmem hw

theorem pending_erase_out {g : DirectedGraph} {es : List (Nat × Nat)} (hr : Represents g es)
    (R : Finset Nat) (node v : Nat) (h : node ∈ R) :
    pending es R v = pending es (R.erase node) v + (g.out_neighbors node).count v := by
  rw [hr.out_eq, count_targets]
  exact pending_erase es R node v h

theorem kahn_step_of_find (s : KahnState) (node : Nat) (rest : List Nat) (vtx : GraphVertex)
    (h : s.graph_.find node = some vtx) :
    kahn_step s node rest =
      { graph_ := s.graph_,
        indegree_copy := (vtx.neighbors.foldl relax (s.indegree_copy, rest)).1,
        queue := (vtx.neighbors.foldl relax (s.indegree_copy, rest)).2,
        processed_count := s.processed_count + 1 } := by
  simp [kahn_step, h]

/-- One iteration of the `while` loop preserves the invariant: the dequeued
vertex leaves the set of vertices not yet dequeued. -/
theorem kahn_step_inv {g : DirectedGraph} {es : List (Nat × Nat)} (hr : Represents g es)
    {s : KahnState} {R : Finset Nat} (hi : KahnInv g es s R) {node : Nat} {rest : List Nat}
    (hq : s.queue = node :: rest) :
    KahnInv g es (kahn_step s node rest) (R.erase node) := by
  have hnode : node ∈ R ∧ pending es R node = 0 :=
    (hi.queue_iff node).1 (by rw [hq]; exact List.mem_cons_self _ _)
  have hkey : node ∈ keys g.graph_ := hi.sub node hnode.1
  have hsome : (g.graph_.find node).isSome := (find_isSome_iff _ _).2 hkey
  obtain ⟨vtx, hfind⟩ := Option.isSome_iff_exists.1 hsome
  have hns : vtx.neighbors = g.out_neighbors node := by
    simp [out_neighbors, hfind]
  have hfind' : s.graph_.find node = some vtx := by rw [hi.graph_eq]; exact hfind
  rw [kahn_step_of_find s node rest vtx hfind', hns]
  obtain ⟨hw, E, hE, hEn, hEm⟩ := relax_foldl (g.out_neighbors node) s.indegree_copy rest
  have hcnt := fun v => pending_erase_out hr R node v hnode.1
  have hrest_nodup : node ∉ rest ∧ rest.Nodup := by
    have := hi.nodup; rw [hq] at this; exact List.nodup_cons.1 this
  have hrest : ∀ v, v ∈ rest ↔ v ≠ node ∧ v ∈ R ∧ pending es R v = 0 := by
    intro v
    have h1 := hi.queue_iff v
    rw [hq, List.mem_cons] at h1
    constructor
    · intro hv
      refine ⟨?_, h1.1 (Or.inr hv)⟩
      rintro rfl
      exact hrest_nodup.1 hv
    · rintro ⟨hne, hv⟩
      rcases h1.2 hv with h | h
      · exact absurd h hne
      · exact h
  have hEm' : ∀ v, v ∈ E ↔ 0 < pending es R v ∧ pending es (R.erase node) v = 0 := by
    intro v
    rw [hEm, hi.working_eq]
    have := hcnt v
    constructor
    · rintro ⟨h1, h2⟩; omega
    · rintro ⟨h1, h2⟩; omega
  refine ⟨hi.graph_eq, ?_, ?_, ?_, ?_, ?_, ?_, ?_⟩
  · intro v hv
    exact hi.sub v (Finset.mem_of_mem_erase hv)
  · have h1 := Finset.card_erase_of_mem hnode.1
    have h2 : 0 < R.card := Finset.card_pos.2 ⟨node, hnode.1⟩
    have h3 := hi.count
    simp only
    omega
  · simp only
    rw [hE]
    refine List.Nodup.append hrest_nodup.2 hEn ?_
    intro v hv1 hv2
    have h1 := ((hrest v).1 hv1).2.2
    have h2 := ((hEm' v).1 hv2).1
    omega
  · intro v
    simp only
    rw [hw, hi.working_eq]
    have := hcnt v
    omega
  · intro v
    simp only
    rw [hE, List.mem_append, hrest, hEm', Finset.mem_erase]
    have hc := hcnt v
    constructor
    · rintro (⟨h1, h2, h3⟩ | ⟨h1, h2⟩)
      · exact ⟨⟨h1, h2⟩, by omega⟩
      · have hv : v ∈ R := by
          by_contra hnot
          have := hi.done_zero v hnot
          omega
        refine ⟨⟨?_, hv⟩, h2⟩
        rintro rfl
        have := hnode.2
        omega
    · rintro ⟨⟨h1, h2⟩, h3⟩
      by_cases h0 : pending es R v = 0
      · exact Or.inl ⟨h1, h2, h0⟩
      · exact Or.inr ⟨by omega, h3⟩
  · intro v hv
    have hc := hcnt v
    rw [Finset.mem_erase] at hv
    by_cases hvR : v ∈ R
    · have hvn : v = node := by
        by_contra hne
        exact hv ⟨hne, hvR⟩
      subst hvn
      have := hnode.2
      omega
    · have := hi.done_zero v hvR
      omega
  · intro v hv hcyc
    obtain ⟨w, hvw, hwv⟩ := Relation.TransGen.tail'_iff.1 hcyc
    have hww : Relation.TransGen g.edge w w := Relation.TransGen.head' hwv hvw
    have hmem : (w, v) ∈ es := (edge_iff hr w v).1 hwv
    have hwR : w ∉ R.erase node := (pending_zero_iff es _ v).1 hv w hmem
    have hw0 : pending es R w = 0 := by
      by_cases hwn : w = node
      · subst hwn; exact hnode.2
      · have : w ∉ R := fun h => hwR (Finset.mem_erase.2 ⟨hwn, h⟩)
        exact hi.done_zero w this
    exact hi.acyc w hw0 hww

/-- The `while` loop finishes within as many iterations as there are vertices
not yet dequeued, with the invariant intact and the queue empty. -/
theorem kahn_loop_inv {g : DirectedGraph} {es : List (Nat × Nat)} (hr : Represents g es) :
    ∀ (fuel : Nat) (s : KahnState) (R : Finset Nat), KahnInv g es s R → R.card ≤ fuel →
      ∃ s' R', kahn_loop fuel s = some s' ∧ KahnInv g es s' R' ∧ s'.queue = [] := by
  intro fuel
  induction fuel with
  | zero =>
    intro s R hi hc
    have hR : R = ∅ := Finset.card_eq_zero.1 (by omega)
    have hq : s.queue = [] := by
      apply List.eq_nil_iff_forall_not_mem.2
      intro v hv
      have := ((hi.queue_iff v).1 hv).1
      rw [hR] at this
      exact absurd this (Finset.not_mem_empty v)
    exact ⟨s, R, by simp [kahn_loop, hq], hi, hq⟩
  | succ fuel ih =>
    intro s R hi hc
    cases hq : s.queue with
    | nil => exact ⟨s, R, by simp [kahn_loop, hq], hi, hq⟩
    | cons node rest =>
      have hnode : node ∈ R := ((hi.queue_iff node).1 (by rw [hq]; exact List.mem_cons_self _ _)).1
      have h1 := Finset.card_erase_of_mem hnode
      have h2 : 0 < R.card := Finset.card_pos.2 ⟨node, hnode⟩
      obtain ⟨s', R', hl, hi', hq'⟩ :=
        ih (kahn_step s node rest) (R.erase node) (kahn_step_inv hr hi hq) (by omega)
      exact ⟨s', R', by simp [kahn_loop, hq, hl], hi', hq'⟩

theorem kahn_init_inv {g : DirectedGraph} {es : List (Nat × Nat)} (hr : Represents g es) :
    KahnInv g es
      { graph_ := g.graph_, indegree_copy := copy_indegrees g.graph_,
        queue := seed_queue (copy_indegrees g.graph_), processed_count := 0 }
      (keys g.graph_).toFinset := by
  have hsrc : ∀ e ∈ es, e.1 ∈ keys g.graph_ := fun e he => (hr.mem_keys e.1).2 ⟨e, he, Or.inl rfl⟩
  have hdst : ∀ e ∈ es, e.2 ∈ keys g.graph_ := fun e he => (hr.mem_keys e.2).2 ⟨e, he, Or.inr rfl⟩
  have hpend : ∀ v, pending es (keys g.graph_).toFinset v = es.countP (fun e => decide (e.2 = v)) := by
    intro v
    unfold pending
    apply List.countP_congr
    intro e he
    have := hsrc e he
    simp [this]
  have hwork : ∀ v, working (copy_indegrees g.graph_) v =
      ((pending es (keys g.graph_).toFinset v : Nat) : Int) := by
    intro v
    rw [working_copy_indegrees g hr.ordered, hr.indegree_eq, hpend]
  refine ⟨rfl, ?_, ?_, nodup_seed_queue g hr.ordered, hwork, ?_, ?_, ?_⟩
  · intro v hv
    exact List.mem_toFinset.1 hv
  · simp only [Nat.zero_add]
    rw [List.toFinset_card_of_nodup (nodup_keys hr.ordered)]
    simp [keys]
  · intro v
    simp only
    rw [mem_seed_queue g hr.ordered, List.mem_toFinset, hr.indegree_eq, hpend]
    constructor
    · rintro ⟨h1, h2⟩; exact ⟨h1, by exact_mod_cast h2⟩
    · rintro ⟨h1, h2⟩; exact ⟨h1, by exact_mod_cast h2⟩
  · intro v hv
    rw [pending_zero_iff]
    intro w hmem
    exact absurd (List.mem_toFinset.2 (hdst (w, v) hmem)) hv
  · intro v hv hcyc
    obtain ⟨w, _, hwv⟩ := Relation.TransGen.tail'_iff.1 hcyc
    have hmem : (w, v) ∈ es := (edge_iff hr w v).1 hwv
    exact (pending_zero_iff es _ v).1 hv w hmem (List.mem_toFinset.2 (hsrc (w, v) hmem))

/-- On a graph storing an edge list the reduction of `has_cycle` finishes
within `size()` iterations, invariant intact and queue empty. -/
theorem kahn_run_spec {g : DirectedGraph} {es : List (Nat × Nat)} (hr : Represents g es) :
    ∃ s R, kahn_run g = some s ∧ KahnInv g es s R ∧ s.queue = [] := by
  have hcard : (keys g.graph_).toFinset.card ≤ g.graph_.length := by
    rw [List.toFinset_card_of_nodup (nodup_keys hr.ordered)]
    simp [keys]
  exact kahn_loop_inv hr _ _ _ (kahn_init_inv hr) hcard

/-- A non-empty finite set in which every element has a predecessor contains a
cycle of the relation. -/
theorem exists_cycle_of_pred (r : Nat → Nat → Prop) (R : Finset Nat) (hne : R.Nonempty)
    (h : ∀ v, v ∈ R → ∃ w, w ∈ R ∧ r w v) : ∃ v, Relation.TransGen r v v := by
  by_contra hno
  push_neg at hno
  let r' : {x // x ∈ R} → {x // x ∈ R} → Prop := fun a b => Relation.TransGen r a.1 b.1
  haveI : IsTrans _ r' := ⟨fun a b c hab hbc => Relation.TransGen.trans hab hbc⟩
  haveI : IsIrrefl _ r' := ⟨fun a ha => hno a.1 ha⟩
  have hwf : WellFounded r' := Finite.wellFounded_of_trans_of_irrefl r'
  obtain ⟨v0, hv0⟩ := hne
  obtain ⟨m, -, hm⟩ := hwf.has_min Set.univ ⟨⟨v0, hv0⟩, trivial⟩
  obtain ⟨w, hw, hwm⟩ := h m.1 m.2
  exact hm ⟨w, hw⟩ trivial (Relation.TransGen.single hwm)

/-- When the loop is left, vertices remain undequeued exactly when the graph
contains a cycle. -/
theorem kahn_final {g : DirectedGraph} {es : List (Nat × Nat)} (hr : Represents g es)
    {s : KahnState} {R : Finset Nat} (hi : KahnInv g es s R) (hq : s.queue = []) :
    (s.processed_count < g.graph_.length ↔ g.contains_cycle) ∧
      (¬ g.contains_cycle → s.processed_count = g.graph_.length) := by
  have hiff : s.processed_count < g.graph_.length ↔ g.contains_cycle := by
    constructor
    · intro hlt
      have hpos : 0 < R.card := by have := hi.count; omega
      have hne : R.Nonempty := Finset.card_pos.1 hpos
      apply exists_cycle_of_pred g.edge R hne
      intro v hv
      have hnz : pending es R v ≠ 0 := by
        intro h0
        have := (hi.queue_iff v).2 ⟨hv, h0⟩
        rw [hq] at this
        exact absurd this (List.not_mem_nil v)
      obtain ⟨w, hw, hmem⟩ := (pending_pos_iff es R v).1 (by omega)
      exact ⟨w, hw, (edge_iff hr w v).2 hmem⟩
    · rintro ⟨v, hcyc⟩
      have hnz : pending es R v ≠ 0 := fun h0 => hi.acyc v h0 hcyc
      have hv : v ∈ R := by
        by_contra hnot
        exact hnz (hi.done_zero v hnot)
      have hpos : 0 < R.card := Finset.card_pos.2 ⟨v, hv⟩
      have := hi.count
      omega
  refine ⟨hiff, ?_⟩
  intro hno
  have h1 : ¬ s.processed_count < g.graph_.length := fun h => hno (hiff.1 h)
  have h2 := hi.count
  omega

/-- On a graph storing an edge list `has_cycle` returns, leaves the graph as it
was, and answers `true` exactly when the graph contains a directed cycle. -/
theorem has_cycle_represents {g : DirectedGraph} {es : List (Nat × Nat)} (hr : Represents g es) :
    ∃ b, g.has_cycle = some (b, g) ∧ (b = true ↔ g.contains_cycle) := by
  by_cases hemp : g.graph_ = []
  · refine ⟨false, by simp [has_cycle, hemp], ?_⟩
    constructor
    · intro h; cases h
    · rintro ⟨v, hcyc⟩
      obtain ⟨w, _, hwv⟩ := Relation.TransGen.tail'_iff.1 hcyc
      unfold edge out_neighbors at hwv
      simp [hemp, find] at hwv
  · obtain ⟨s, R, hrun, hi, hq⟩ := kahn_run_spec hr
    have hfin := (kahn_final hr hi hq).1
    refine ⟨decide (s.processed_count < s.graph_.length), ?_, ?_⟩
    · have hne : g.graph_.isEmpty = false := by
        cases hg : g.graph_ with
        | nil => exact absurd hg hemp
        | cons a l => rfl
      simp only [has_cycle, hne, hrun, hi.graph_eq]
      rfl
    · rw [decide_eq_true_eq, hi.graph_eq]
      exact hfin

theorem not_contains_cycle_of_increasing (es : List (Nat × Nat))
    (h : ∀ e, e ∈ es → e.1 < e.2) : ¬ (of_edges es).contains_cycle := by
  have hr := represents_of_edges es
  have hlt : ∀ a b, Relation.TransGen (of_edges es).edge a b → a < b := by
    intro a b hab
    induction hab with
    | single hab => exact h _ ((edge_iff hr _ _).1 hab)
    | tail _ hcb ih => exact lt_trans ih (h _ ((edge_iff hr _ _).1 hcb))
  rintro ⟨v, hv⟩
  exact lt_irrefl v (hlt v v hv)

/-! ## The edge list of a graph -/

theorem multiplicity_append (l1 l2 : List (Nat × Nat)) (a b : Nat) :
    multiplicity (l1 ++ l2) a b = multiplicity l1 a b + multiplicity l2 a b := by
  simp [multiplicity, List.countP_append]

theorem count_eq_multiplicity (l : List (Nat × Nat)) (a b : Nat) :
    List.count (a, b) l = multiplicity l a b := by
  unfold multiplicity List.count
  apply List.countP_congr
  rintro ⟨x, y⟩ _
  simp

theorem perm_of_multiplicity {l1 l2 : List (Nat × Nat)}
    (h : ∀ a b, multiplicity l1 a b = multiplicity l2 a b) : List.Perm l1 l2 := by
  rw [List.perm_iff_count]
  rintro ⟨a, b⟩
  have e : ∀ l : List (Nat × Nat),
      @List.count (Nat × Nat) instBEqOfDecidableEq (a, b) l = multiplicity l a b := by
    intro l
    unfold multiplicity List.count
    apply List.countP_congr
    rintro ⟨x, y⟩ _
    show decide ((x, y) = (a, b)) = true ↔ decide (x = a ∧ y = b) = true
    simp
  rw [e l1, e l2, h]

theorem multiplicity_edges_cons (k : Nat) (vtx : GraphVertex) (rest : StdMap GraphVertex)
    (a b : Nat) :
    multiplicity (edges ⟨(k, vtx) :: rest⟩) a b =
      (if a = k then vtx.neighbors.count b else 0) + multiplicity (edges ⟨rest⟩) a b := by
  have h1 : edges ⟨(k, vtx) :: rest⟩ =
      vtx.neighbors.map (fun dst => (k, dst)) ++ edges ⟨rest⟩ := by
    simp [edges, List.flatMap]
  rw [h1, multiplicity_append]
  congr 1
  unfold multiplicity
  rw [List.countP_map]
  by_cases hak : a = k
  · subst hak
    simp only [if_true, List.count]
    apply List.countP_congr
    intro x _
    simp
  · have hka : ¬ k = a := fun e => hak e.symm
    simp only [hak, if_false]
    rw [List.countP_eq_zero]
    intro x _
    simp [hka]

theorem multiplicity_edges (m : StdMap GraphVertex) (ho : m.Ordered) (a b : Nat) :
    multiplicity (edges ⟨m⟩) a b = (out_neighbors ⟨m⟩ a).count b := by
  induction m with
  | nil => simp [edges, out_neighbors, find, multiplicity]
  | cons p rest ih =>
    obtain ⟨k, vtx⟩ := p
    have hc : (∀ x ∈ keys rest, k < x) ∧ Ordered rest := by
      simpa [Ordered, keys] using ho
    rw [multiplicity_edges_cons, ih hc.2]
    by_cases hak : a = k
    · subst hak
      have hnot : a ∉ keys rest := fun hmem => lt_irrefl a (hc.1 a hmem)
      have hnone : StdMap.find rest a = none := (find_eq_none_iff rest a).2 hnot
      simp [out_neighbors, find, hnone]
    · simp [out_neighbors, find, hak]

theorem multiplicity_edges_represents {g : DirectedGraph} {es : List (Nat × Nat)}
    (hr : Represents g es) (a b : Nat) : multiplicity g.edges a b = multiplicity es a b := by
  have h1 : multiplicity g.edges a b = (g.out_neighbors a).count b :=
    multiplicity_edges g.graph_ hr.ordered a b
  rw [h1, hr.out_eq, count_targets]
  unfold multiplicity
  apply List.countP_congr
  rintro ⟨x, y⟩ _
  simp only [decide_eq_true_eq]
  tauto

/-- The edges of a graph that stores an edge list are that list, up to order. -/
theorem edges_perm {g : DirectedGraph} {es : List (Nat × Nat)} (hr : Represents g es) :
    List.Perm g.edges es :=
  perm_of_multiplicity (multiplicity_edges_represents hr)

theorem get_all_nodes_eq (g : DirectedGraph) : g.get_all_nodes = keys g.graph_ := by
  have h : ∀ (m : StdMap GraphVertex) (acc : List Nat),
      m.foldl (fun nodes pair => nodes ++ [pair.1]) acc = acc ++ keys m := by
    intro m
    induction m with
    | nil => intro acc; simp [keys]
    | cons p rest ih => intro acc; simp [List.foldl_cons, ih, keys]
  simpa [get_all_nodes] using h g.graph_ []

end DirectedGraph

/-! ## Cycles as indexed sequences -/

theorem path_of_transGen {r : Nat → Nat → Prop} {a b : Nat} (h : Relation.TransGen r a b) :
    ∃ k : Nat, 1 ≤ k ∧ ∃ t : Nat → Nat, t 0 = a ∧ t k = b ∧ ∀ i, i < k → r (t i) (t (i + 1)) := by
  induction h with
  | @single b' hab =>
    refine ⟨1, le_refl 1, fun i => if i = 0 then a else b', by simp, by simp, ?_⟩
    intro i hi
    have : i = 0 := by omega
    subst this
    simpa using hab
  | @tail c b' _ hcb ih =>
    obtain ⟨k, hk, t, h0, hkc, hstep⟩ := ih
    refine ⟨k + 1, by omega, fun i => if i ≤ k then t i else b', by simp [h0], by simp, ?_⟩
    intro i hi
    by_cases hik : i < k
    · have h1 : i ≤ k := by omega
      have h2 : i + 1 ≤ k := by omega
      simpa [h1, h2] using hstep i hik
    · have h1 : i = k := by omega
      subst h1
      simpa [hkc] using hcb

theorem cycle_iff_indexed (r : Nat → Nat → Prop) :
    (∃ v, Relation.TransGen r v v) ↔
      ∃ k : Nat, 1 ≤ k ∧ ∃ t : Nat → Nat, ∀ i, i < k → r (t i) (t ((i + 1) % k)) := by
  constructor
  · rintro ⟨v, hv⟩
    obtain ⟨k, hk, t, h0, hkv, hstep⟩ := path_of_transGen hv
    refine ⟨k, hk, t, ?_⟩
    intro i hi
    by_cases hik : i + 1 < k
    · rw [Nat.mod_eq_of_lt hik]; exact hstep i hi
    · have h1 : i + 1 = k := by omega
      have h2 := hstep i hi
      rw [h1, hkv, ← h0] at h2
      rw [h1, Nat.mod_self]
      exact h2
  · rintro ⟨k, hk, t, hstep⟩
    have hreach : ∀ j, j < k → Relation.TransGen r (t 0) (t ((j + 1) % k)) := by
      intro j
      induction j with
      | zero => intro _; exact Relation.TransGen.single (hstep 0 (by omega))
      | succ j ih =>
        intro hj
        have h1 := ih (by omega)
        rw [Nat.mod_eq_of_lt hj] at h1
        exact Relation.TransGen.tail h1 (hstep (j + 1) hj)
    have := hreach (k - 1) (by omega)
    have hk1 : k - 1 + 1 = k := by omega
    rw [hk1, Nat.mod_self] at this
    exact ⟨t 0, this⟩

theorem circularWait_iff (holders waiters : StdMap Nat) :
    CircularWait holders waiters ↔ ∃ v, Relation.TransGen (waits_for holders waiters) v v := by
  rw [cycle_iff_indexed]
  constructor
  · rintro ⟨k, hk, t, L, h⟩
    exact ⟨k, hk, t, fun i hi => ⟨L i, h i hi⟩⟩
  · rintro ⟨k, hk, t, h⟩
    refine ⟨k, hk, t, fun i => (waiters.find (t i)).getD 0, ?_⟩
    intro i hi
    obtain ⟨L, h1, h2⟩ := h i hi
    simp only [h1, Option.getD_some]
    exact ⟨trivial, h2⟩

/-! ## The graph built from the tables -/

namespace DeadlockDetector

open StdMap DirectedGraph

theorem foldl_wait_edges (holders : StdMap Nat) (waiters : StdMap Nat) :
    ∀ g : DirectedGraph,
      waiters.foldl
        (fun g pair =>
          match holders.find pair.2 with
          | some owner_thread => g.add_edge pair.1 owner_thread
          | none => g) g =
      (wait_edges holders waiters).foldl (fun g e => g.add_edge e.1 e.2) g := by
  induction waiters with
  | nil => intro g; rfl
  | cons p rest ih =>
    intro g
    rw [List.foldl_cons, ih]
    cases h : holders.find p.2 with
    | none => simp [wait_edges, List.filterMap_cons, h]
    | some o => simp [wait_edges, List.filterMap_cons, h]

theorem build_waiting_graph_graph (d : DeadlockDetector) :
    d.build_waiting_graph.graph_ = of_edges (wait_edges d.lock_owners_ d.thread_waiting_) := by
  simp only [build_waiting_graph, get_snapshot, DirectedGraph.clear, of_edges]
  exact foldl_wait_edges d.lock_owners_ d.thread_waiting_ ⟨[]⟩

theorem build_waiting_graph_represents (d : DeadlockDetector) :
    Represents d.build_waiting_graph.graph_ (wait_edges d.lock_owners_ d.thread_waiting_) := by
  rw [build_waiting_graph_graph]
  exact represents_of_edges _

theorem mem_wait_edges (holders waiters : StdMap Nat) (a b : Nat) :
    (a, b) ∈ wait_edges holders waiters ↔ ∃ L, (a, L) ∈ waiters ∧ holders.find L = some b := by
  unfold wait_edges
  rw [List.mem_filterMap]
  constructor
  · rintro ⟨⟨t, L⟩, hmem, h⟩
    cases ho : holders.find L with
    | none => simp [ho] at h
    | some o =>
      simp only [ho, Option.map_some', Option.some.injEq, Prod.mk.injEq] at h
      obtain ⟨rfl, rfl⟩ := h
      exact ⟨L, hmem, ho⟩
  · rintro ⟨L, hmem, ho⟩
    exact ⟨(a, L), hmem, by simp [ho]⟩

theorem mem_wait_edges_iff (holders : StdMap Nat) {waiters : StdMap Nat} (hW : waiters.Ordered)
    (a b : Nat) : (a, b) ∈ wait_edges holders waiters ↔ waits_for holders waiters a b := by
  rw [mem_wait_edges]
  unfold waits_for
  constructor
  · rintro ⟨L, hmem, ho⟩
    exact ⟨L, find_of_mem hW hmem, ho⟩
  · rintro ⟨L, hf, ho⟩
    exact ⟨L, mem_of_find hf, ho⟩

theorem multiplicity_wait_edges (holders : StdMap Nat) (waiters : StdMap Nat)
    (hW : waiters.Ordered) (a b : Nat) :
    multiplicity (wait_edges holders waiters) a b =
      if (waiters.find a).bind holders.find = some b then 1 else 0 := by
  induction waiters with
  | nil => simp [wait_edges, multiplicity, find]
  | cons p rest ih =>
    obtain ⟨t, L⟩ := p
    have hc : (∀ x ∈ keys rest, t < x) ∧ Ordered rest := by
      simpa [Ordered, keys] using hW
    have hcons : wait_edges holders ((t, L) :: rest) =
        (match holders.find L with
          | some o => [(t, o)]
          | none => []) ++ wait_edges holders rest := by
      cases h : holders.find L <;> simp [wait_edges, List.filterMap_cons, h]
    rw [hcons, multiplicity_append, ih hc.2]
    by_cases hat : a = t
    · subst hat
      have hnot : a ∉ keys rest := fun hmem => lt_irrefl a (hc.1 a hmem)
      have hnone : StdMap.find rest a = none := (find_eq_none_iff rest a).2 hnot
      cases h : holders.find L with
      | none => simp [find, hnone, h, multiplicity]
      | some o =>
        by_cases hob : o = b
        · simp [find, hnone, h, multiplicity, hob]
        · simp [find, hnone, h, multiplicity, hob]
    · have hta : ¬ t = a := fun e => hat e.symm
      cases h : holders.find L with
      | none => simp [find, hat, multiplicity]
      | some o => simp [find, hat, hta, multiplicity]

theorem edge_build_waiting_graph (d : DeadlockDetector) (hW : d.thread_waiting_.Ordered)
    (a b : Nat) :
    d.build_waiting_graph.graph_.edge a b ↔ waits_for d.lock_owners_ d.thread_waiting_ a b := by
  rw [edge_iff (build_waiting_graph_represents d), mem_wait_edges_iff _ hW]

theorem contains_cycle_build_waiting_graph (d : DeadlockDetector)
    (hW : d.thread_waiting_.Ordered) :
    d.build_waiting_graph.graph_.contains_cycle ↔
      CircularWait d.lock_owners_ d.thread_waiting_ := by
  rw [circularWait_iff]
  have hrel : d.build_waiting_graph.graph_.edge = waits_for d.lock_owners_ d.thread_waiting_ := by
    funext a b
    exact propext (edge_build_waiting_graph d hW a b)
  unfold contains_cycle
  rw [hrel]

theorem check_deadlock_spec (d : DeadlockDetector) (hW : d.thread_waiting_.Ordered) :
    ∃ b, d.check_deadlock = some (b, d.build_waiting_graph) ∧
      (b = true ↔ CircularWait d.lock_owners_ d.thread_waiting_) := by
  obtain ⟨b, hb, hiff⟩ := has_cycle_represents (build_waiting_graph_represents d)
  refine ⟨b, ?_, ?_⟩
  · simp only [check_deadlock, hb]
  · rw [hiff]
    exact contains_cycle_build_waiting_graph d hW

/-! ## The observation hooks -/

theorem keys_put_congr {α β : Type} (k : Nat) (x : α) (y : β) :
    ∀ (m1 : StdMap α) (m2 : StdMap β), keys m1 = keys m2 →
      keys (m1.put k x) = keys (m2.put k y) := by
  intro m1
  induction m1 with
  | nil =>
    intro m2 h
    cases m2 with
    | nil => rfl
    | cons q r => simp [keys] at h
  | cons p rest ih =>
    intro m2 h
    cases m2 with
    | nil => simp [keys] at h
    | cons q r =>
      obtain ⟨k1, v1⟩ := p
      obtain ⟨k2, v2⟩ := q
      simp only [keys, List.map_cons, List.cons.injEq] at h
      obtain ⟨hk, hrest⟩ := h
      subst hk
      have ih' := ih r hrest
      simp only [keys] at ih'
      by_cases h1 : k < k1
      · simp [put, keys, h1, hrest]
      · by_cases h2 : k = k1
        · simp [put, keys, h2, hrest]
        · simp [put, keys, h1, h2, ih']

theorem apply_hook_keys (d : DeadlockDetector) (c : HookCall)
    (h : keys d.thread_waiting_ = keys d.thread_stacks_) :
    keys (d.apply_hook c).thread_waiting_ = keys (d.apply_hook c).thread_stacks_ := by
  cases c with
  | lock_before t l =>
    simp only [apply_hook, on_lock_before]
    exact keys_put_congr t l _ _ _ h
  | lock_after t l =>
    simp only [apply_hook, on_lock_after, keys_erase, h]
  | unlock_after t l =>
    simpa only [apply_hook, on_unlock_after] using h

theorem run_hooks_keys (calls : List HookCall) :
    ∀ d : DeadlockDetector, keys d.thread_waiting_ = keys d.thread_stacks_ →
      keys (d.run_hooks calls).thread_waiting_ = keys (d.run_hooks calls).thread_stacks_ := by
  induction calls with
  | nil => intro d h; exact h
  | cons c rest ih =>
    intro d h
    simp only [run_hooks, List.foldl_cons]
    exact ih (d.apply_hook c) (apply_hook_keys d c h)

end DeadlockDetector

/-! ## Hook sequences -/

namespace DeadlockDetector

open StdMap DirectedGraph

theorem find_erase (k j : Nat) (m : StdMap Nat) :
    (m.erase k).find j = if j = k then none else m.find j := by
  by_cases h : j = k
  · subst h; simp [find_erase_self]
  · simp [h, find_erase_ne m h]

theorem ordered_erase {β : Type} (k : Nat) (m : StdMap β) (h : m.Ordered) :
    (m.erase k).Ordered := by
  unfold Ordered at h ⊢
  rw [keys_erase]
  exact List.Pairwise.sublist (List.filter_sublist _) h

theorem apply_hook_ordered (d : DeadlockDetector) (c : HookCall)
    (h : d.thread_waiting_.Ordered) : (d.apply_hook c).thread_waiting_.Ordered := by
  cases c with
  | lock_before t l => exact ordered_put _ _ _ h
  | lock_after t l => exact ordered_erase _ _ h
  | unlock_after t l => exact h

theorem run_hooks_ordered (calls : List HookCall) :
    ∀ d : DeadlockDetector, d.thread_waiting_.Ordered →
      (d.run_hooks calls).thread_waiting_.Ordered := by
  induction calls with
  | nil => intro d h; exact h
  | cons c rest ih =>
    intro d h
    simp only [run_hooks, List.foldl_cons]
    exact ih (d.apply_hook c) (apply_hook_ordered d c h)

theorem bind_find_iff (holders waiters : StdMap Nat) (a b : Nat) :
    (waiters.find a).bind holders.find = some b ↔ waits_for holders waiters a b := by
  unfold waits_for
  cases h : waiters.find a with
  | none => simp
  | some L => simp

/-- The tables of the AB/BA deadlock determine the detection result and the
graph: `true`, vertices `T1` and `T2`, edges `T1 → T2` and `T2 → T1`. -/
theorem ab_ba_of_tables (d : DeadlockDetector) (T1 T2 L1 L2 : Nat) (hT : T1 ≠ T2)
    (hL : L1 ≠ L2) (hW : d.thread_waiting_.Ordered)
    (hWf : ∀ t, d.thread_waiting_.find t =
      if t = T1 then some L2 else if t = T2 then some L1 else none)
    (hHf : ∀ l, d.lock_owners_.find l =
      if l = L1 then some T1 else if l = L2 then some T2 else none) :
    d.check_deadlock = some (true, d.build_waiting_graph) ∧
      (∀ v, v ∈ d.build_waiting_graph.graph_.get_all_nodes ↔ v = T1 ∨ v = T2) ∧
      List.Perm d.build_waiting_graph.graph_.edges [(T1, T2), (T2, T1)] := by
  have hT' : ¬ T2 = T1 := fun e => hT e.symm
  have hL' : ¬ L2 = L1 := fun e => hL e.symm
  have hwf : ∀ a b, waits_for d.lock_owners_ d.thread_waiting_ a b ↔
      (a = T1 ∧ b = T2) ∨ (a = T2 ∧ b = T1) := by
    intro a b
    unfold waits_for
    rw [hWf]
    by_cases h1 : a = T1
    · subst h1
      simp only [if_true, Option.some.injEq, exists_eq_left', true_and]
      rw [hHf]
      simp [hL', hT, eq_comm]
    · by_cases h2 : a = T2
      · subst h2
        simp only [h1, if_false, if_true, Option.some.injEq, exists_eq_left', true_and,
          false_and, false_or]
        rw [hHf]
        simp [eq_comm]
      · simp [h1, h2]
  have hr := build_waiting_graph_represents d
  refine ⟨?_, ?_, ?_⟩
  · obtain ⟨b, hb, hiff⟩ := check_deadlock_spec d hW
    have hcw : CircularWait d.lock_owners_ d.thread_waiting_ := by
      rw [circularWait_iff]
      exact ⟨T1, Relation.TransGen.tail
        (Relation.TransGen.single ((hwf T1 T2).2 (Or.inl ⟨rfl, rfl⟩)))
        ((hwf T2 T1).2 (Or.inr ⟨rfl, rfl⟩))⟩
    rw [hb, hiff.2 hcw]
  · intro v
    rw [get_all_nodes_eq, hr.mem_keys]
    constructor
    · rintro ⟨⟨a, b⟩, hmem, hv⟩
      rw [mem_wait_edges_iff _ hW, hwf] at hmem
      simp only at hv
      rcases hmem with ⟨rfl, rfl⟩ | ⟨rfl, rfl⟩ <;> rcases hv with rfl | rfl <;> simp
    · rintro (rfl | rfl)
      · exact ⟨(v, T2), (mem_wait_edges_iff _ hW _ _).2 ((hwf _ _).2 (Or.inl ⟨rfl, rfl⟩)),
          Or.inl rfl⟩
      · exact ⟨(T1, v), (mem_wait_edges_iff _ hW _ _).2 ((hwf _ _).2 (Or.inl ⟨rfl, rfl⟩)),
          Or.inr rfl⟩
  · apply perm_of_multiplicity
    intro a b
    rw [multiplicity_edges_represents hr, multiplicity_wait_edges _ _ hW]
    have h1 := bind_find_iff d.lock_owners_ d.thread_waiting_ a b
    rw [hwf] at h1
    by_cases hc : (d.thread_waiting_.find a).bind d.lock_owners_.find = some b
    · rw [if_pos hc]
      rcases h1.1 hc with ⟨rfl, rfl⟩ | ⟨rfl, rfl⟩
      · simp [multiplicity, hT']
      · simp [multiplicity, hT]
    · rw [if_neg hc]
      have h2 : ¬ ((a = T1 ∧ b = T2) ∨ (a = T2 ∧ b = T1)) := fun h => hc (h1.2 h)
      have h3 : ¬ (T1 = a ∧ T2 = b) := fun h => h2 (Or.inl ⟨h.1.symm, h.2.symm⟩)
      have h4 : ¬ (T2 = a ∧ T1 = b) := fun h => h2 (Or.inr ⟨h.1.symm, h.2.symm⟩)
      simp [multiplicity, List.countP_cons, h3, h4]

end DeadlockDetector

namespace DeadlockDetector

open StdMap DirectedGraph

/-- Every interleaving of the two threads' hook calls of the AB/BA scenario
leaves the same tables. -/
theorem ab_ba_tables (T1 T2 L1 L2 : Nat) (hT : T1 ≠ T2) (hL : L1 ≠ L2)
    (calls : List HookCall)
    (hc : calls ∈ interleavings
      [HookCall.lock_before T1 L1, HookCall.lock_after T1 L1, HookCall.lock_before T1 L2]
      [HookCall.lock_before T2 L2, HookCall.lock_after T2 L2, HookCall.lock_before T2 L1]) :
    (∀ t, (init.run_hooks calls).thread_waiting_.find t =
      if t = T1 then some L2 else if t = T2 then some L1 else none) ∧
    (∀ l, (init.run_hooks calls).lock_owners_.find l =
      if l = L1 then some T1 else if l = L2 then some T2 else none) := by
  have hT' : ¬ T2 = T1 := fun e => hT e.symm
  have hL' : ¬ L2 = L1 := fun e => hL e.symm
  simp only [interleavings, List.map_cons, List.map_nil, List.cons_append, List.nil_append,
    List.mem_cons, List.mem_singleton, List.not_mem_nil, or_false] at hc
  rcases hc with h | h | h | h | h | h | h | h | h | h | h | h | h | h | h | h | h | h | h | h <;>
    subst h <;>
    refine ⟨fun t => ?_, fun l => ?_⟩ <;>
    simp only [run_hooks, List.foldl_cons, List.foldl_nil, apply_hook, on_lock_before,
      on_lock_after, init, find_put, find_erase, find] <;>
    split_ifs <;> simp_all

end DeadlockDetector

/-! ## Scenarios: tables, graph and detection result -/

namespace DeadlockDetector

open StdMap DirectedGraph

theorem multiplicity_of_nodup (l : List (Nat × Nat)) (hl : l.Nodup) (a b : Nat) :
    multiplicity l a b = if (a, b) ∈ l then 1 else 0 := by
  induction l with
  | nil => simp [multiplicity]
  | cons e rest ih =>
    obtain ⟨x, y⟩ := e
    have hc := List.nodup_cons.1 hl
    have hsplit : multiplicity ((x, y) :: rest) a b =
        multiplicity rest a b + (if x = a ∧ y = b then 1 else 0) := by
      simp [multiplicity, List.countP_cons]
    rw [hsplit, ih hc.2]
    by_cases hxy : x = a ∧ y = b
    · obtain ⟨rfl, rfl⟩ := hxy
      simp [hc.1]
    · have hne : ¬ (a, b) = (x, y) := by
        intro h
        simp only [Prod.mk.injEq] at h
        exact hxy ⟨h.1.symm, h.2.symm⟩
      simp [hxy, hne]

/-- When a duplicate-free list `l` holds exactly the pairs `(a, b)` with `a`
waiting for a lock held by `b`, the built graph has the endpoints of `l` as
vertices and `l` as edges. -/
theorem graph_of_waits (d : DeadlockDetector) (hW : d.thread_waiting_.Ordered)
    (l : List (Nat × Nat)) (hl : l.Nodup)
    (hmem : ∀ a b, (a, b) ∈ l ↔ waits_for d.lock_owners_ d.thread_waiting_ a b) :
    (∀ v, v ∈ d.build_waiting_graph.graph_.get_all_nodes ↔ ∃ e, e ∈ l ∧ (e.1 = v ∨ e.2 = v)) ∧
      List.Perm d.build_waiting_graph.graph_.edges l := by
  have hr := build_waiting_graph_represents d
  have hw : ∀ a b, (a, b) ∈ wait_edges d.lock_owners_ d.thread_waiting_ ↔ (a, b) ∈ l := by
    intro a b
    rw [mem_wait_edges_iff _ hW, hmem]
  constructor
  · intro v
    rw [get_all_nodes_eq, hr.mem_keys]
    constructor
    · rintro ⟨⟨a, b⟩, he, hv⟩
      exact ⟨(a, b), (hw a b).1 he, hv⟩
    · rintro ⟨⟨a, b⟩, he, hv⟩
      exact ⟨(a, b), (hw a b).2 he, hv⟩
  · apply perm_of_multiplicity
    intro a b
    rw [multiplicity_edges_represents hr, multiplicity_wait_edges _ _ hW,
      multiplicity_of_nodup l hl]
    have h1 := bind_find_iff d.lock_owners_ d.thread_waiting_ a b
    by_cases hc : (a, b) ∈ l
    · rw [if_pos hc, if_pos (h1.2 ((hmem a b).1 hc))]
    · rw [if_neg hc, if_neg (fun h => hc ((hmem a b).2 (h1.1 h)))]

theorem check_deadlock_true_of_wait (d : DeadlockDetector) (hW : d.thread_waiting_.Ordered)
    (h : CircularWait d.lock_owners_ d.thread_waiting_) :
    d.check_deadlock = some (true, d.build_waiting_graph) := by
  obtain ⟨b, hb, hiff⟩ := check_deadlock_spec d hW
  rw [hb, hiff.2 h]

theorem check_deadlock_false_of_no_wait (d : DeadlockDetector) (hW : d.thread_waiting_.Ordered)
    (h : ¬ CircularWait d.lock_owners_ d.thread_waiting_) :
    d.check_deadlock = some (false, d.build_waiting_graph) := by
  obtain ⟨b, hb, hiff⟩ := check_deadlock_spec d hW
  have hbf : b = false := by
    cases b with
    | false => rfl
    | true => exact absurd (hiff.1 rfl) h
  rw [hb, hbf]

/-- A relation whose steps strictly raise a rank has no cycle. -/
theorem no_cycle_of_rank (r : Nat → Nat → Prop) (rank : Nat → Nat)
    (h : ∀ a b, r a b → rank a < rank b) : ¬ ∃ v, Relation.TransGen r v v := by
  have hlt : ∀ a b, Relation.TransGen r a b → rank a < rank b := by
    intro a b hab
    induction hab with
    | single hab => exact h _ _ hab
    | tail _ hcb ih => exact lt_trans ih (h _ _ hcb)
  rintro ⟨v, hv⟩
  exact lt_irrefl _ (hlt v v hv)

end DeadlockDetector

/-! ## Hook sequences seen from one table entry -/

namespace DeadlockDetector

open StdMap DirectedGraph

theorem find_waiting_apply_hook (d : DeadlockDetector) (c : HookCall) (t : Nat) :
    (d.apply_hook c).thread_waiting_.find t = waiting_view t (d.thread_waiting_.find t) c := by
  cases c with
  | lock_before t' l =>
    simp only [apply_hook, on_lock_before, waiting_view, find_put]
    by_cases h : t = t'
    · subst h; simp
    · have h' : ¬ t' = t := fun e => h e.symm
      simp [h, h']
  | lock_after t' l =>
    simp only [apply_hook, on_lock_after, waiting_view, find_erase]
    by_cases h : t = t'
    · subst h; simp
    · have h' : ¬ t' = t := fun e => h e.symm
      simp [h, h']
  | unlock_after t' l => rfl

theorem find_owner_apply_hook (d : DeadlockDetector) (c : HookCall) (l : Nat) :
    (d.apply_hook c).lock_owners_.find l = owner_view l (d.lock_owners_.find l) c := by
  cases c with
  | lock_before t' l' => rfl
  | lock_after t' l' =>
    simp only [apply_hook, on_lock_after, owner_view, find_put]
    by_cases h : l = l'
    · subst h; simp
    · have h' : ¬ l' = l := fun e => h e.symm
      simp [h, h']
  | unlock_after t' l' =>
    simp only [apply_hook, on_unlock_after, owner_view, find_erase]
    by_cases h : l = l'
    · subst h; simp
    · have h' : ¬ l' = l := fun e => h e.symm
      simp [h, h']

theorem find_waiting_run_hooks (calls : List HookCall) (t : Nat) :
    ∀ d : DeadlockDetector, (d.run_hooks calls).thread_waiting_.find t =
      calls.foldl (waiting_view t) (d.thread_waiting_.find t) := by
  induction calls with
  | nil => intro d; rfl
  | cons c rest ih =>
    intro d
    simp only [run_hooks, List.foldl_cons]
    have := ih (d.apply_hook c)
    simp only [run_hooks] at this
    rw [this, find_waiting_apply_hook]

theorem find_owner_run_hooks (calls : List HookCall) (l : Nat) :
    ∀ d : DeadlockDetector, (d.run_hooks calls).lock_owners_.find l =
      calls.foldl (owner_view l) (d.lock_owners_.find l) := by
  induction calls with
  | nil => intro d; rfl
  | cons c rest ih =>
    intro d
    simp only [run_hooks, List.foldl_cons]
    have := ih (d.apply_hook c)
    simp only [run_hooks] at this
    rw [this, find_owner_apply_hook]

theorem waiting_view_of_ne (t : Nat) (cur : Option Nat) (c : HookCall) (h : c.thread_id ≠ t) :
    waiting_view t cur c = cur := by
  cases c <;> simp_all [waiting_view, HookCall.thread_id]

/-- The waiters entry of thread `t` depends only on the calls made by `t`. -/
theorem foldl_waiting_view_filter (calls : List HookCall) (t : Nat) :
    ∀ cur : Option Nat, calls.foldl (waiting_view t) cur =
      (calls.filter (fun c => decide (c.thread_id = t))).foldl (waiting_view t) cur := by
  induction calls with
  | nil => intro cur; rfl
  | cons c rest ih =>
    intro cur
    by_cases h : c.thread_id = t
    · simp only [List.foldl_cons, List.filter_cons, h, decide_True, if_true]
      exact ih _
    · simp only [List.foldl_cons, List.filter_cons, h, decide_False]
      rw [waiting_view_of_ne t cur c h]
      simpa using ih cur

/-- Calls that either leave an entry alone or set it to `v` leave `some v` as it is. -/
theorem foldl_owner_view_stable (l v : Nat) (calls : List HookCall)
    (h : ∀ c, c ∈ calls → (∀ x, owner_view l x c = x) ∨ (∀ x, owner_view l x c = some v)) :
    calls.foldl (owner_view l) (some v) = some v := by
  induction calls with
  | nil => rfl
  | cons c rest ih =>
    rw [List.foldl_cons]
    have hc : owner_view l (some v) c = some v := by
      rcases h c (List.mem_cons_self _ _) with h1 | h1
      · exact h1 _
      · exact h1 _
    rw [hc]
    exact ih (fun c' hc' => h c' (List.mem_cons_of_mem _ hc'))

/-- Calls that either leave an entry alone or set it to `v`, one of them setting
it, leave the entry at `some v`. -/
theorem foldl_owner_view_set (l v : Nat) (calls : List HookCall)
    (h : ∀ c, c ∈ calls → (∀ x, owner_view l x c = x) ∨ (∀ x, owner_view l x c = some v))
    (hex : ∃ c, c ∈ calls ∧ ∀ x, owner_view l x c = some v) :
    ∀ cur : Option Nat, calls.foldl (owner_view l) cur = some v := by
  induction calls with
  | nil => obtain ⟨c, hc, _⟩ := hex; simp at hc
  | cons c rest ih =>
    intro cur
    rw [List.foldl_cons]
    have hrest : ∀ c', c' ∈ rest →
        (∀ x, owner_view l x c' = x) ∨ (∀ x, owner_view l x c' = some v) :=
      fun c' hc' => h c' (List.mem_cons_of_mem _ hc')
    by_cases hin : ∃ c', c' ∈ rest ∧ ∀ x, owner_view l x c' = some v
    · exact ih hrest hin _
    · obtain ⟨c0, hc0, hset⟩ := hex
      rcases List.mem_cons.1 hc0 with rfl | hc0
      · rw [hset cur]
        exact foldl_owner_view_stable l v rest hrest
      · exact absurd ⟨c0, hc0, hset⟩ hin

/-- Calls that all leave an entry alone leave it alone. -/
theorem foldl_owner_view_id (l : Nat) (calls : List HookCall)
    (h : ∀ c, c ∈ calls → ∀ x, owner_view l x c = x) :
    ∀ cur : Option Nat, calls.foldl (owner_view l) cur = cur := by
  induction calls with
  | nil => intro cur; rfl
  | cons c rest ih =>
    intro cur
    rw [List.foldl_cons, h c (List.mem_cons_self _ _) cur]
    exact ih (fun c' hc' => h c' (List.mem_cons_of_mem _ hc')) cur

end DeadlockDetector

namespace DeadlockDetector

open StdMap DirectedGraph

/-- The tables after any interleaving of the ring scenario's hook calls. -/
theorem ring_tables (n : Nat) (T L : Nat → Nat)
    (hL : ∀ i j, i < n → j < n → L i = L j → i = j)
    (calls : List HookCall)
    (hproj : ∀ i, i < n →
      calls.filter (fun c => decide (c.thread_id = T i)) = ring_program T L n i)
    (hown : ∀ c, c ∈ calls → ∃ i, i < n ∧ c.thread_id = T i) :
    (∀ i, i < n → (init.run_hooks calls).thread_waiting_.find (T i) = some (L ((i + 1) % n))) ∧
      (∀ t, (∀ i, i < n → t ≠ T i) → (init.run_hooks calls).thread_waiting_.find t = none) ∧
      (∀ i, i < n → (init.run_hooks calls).lock_owners_.find (L i) = some (T i)) := by
  have hmem : ∀ c, c ∈ calls → ∃ j, j < n ∧ c ∈ ring_program T L n j := by
    intro c hc
    obtain ⟨j, hj, hcj⟩ := hown c hc
    refine ⟨j, hj, ?_⟩
    rw [← hproj j hj]
    exact List.mem_filter.2 ⟨hc, by simp [hcj]⟩
  refine ⟨?_, ?_, ?_⟩
  · intro i hi
    rw [find_waiting_run_hooks, foldl_waiting_view_filter, hproj i hi]
    simp [ring_program, waiting_view, init, find]
  · intro t ht
    rw [find_waiting_run_hooks, foldl_waiting_view_filter]
    have hnil : calls.filter (fun c => decide (c.thread_id = t)) = [] := by
      rw [List.filter_eq_nil_iff]
      intro c hc
      obtain ⟨j, hj, hcj⟩ := hown c hc
      simp only [decide_eq_true_eq, hcj]
      exact fun e => ht j hj e.symm
    rw [hnil]
    rfl
  · intro i hi
    rw [find_owner_run_hooks]
    apply foldl_owner_view_set (L i) (T i) calls
    · intro c hc
      obtain ⟨j, hj, hcj⟩ := hmem c hc
      simp only [ring_program, List.mem_cons, List.mem_singleton, List.not_mem_nil,
        or_false] at hcj
      rcases hcj with rfl | rfl | rfl
      · exact Or.inl (fun x => rfl)
      · by_cases hji : L j = L i
        · have : j = i := hL j i hj hi hji
          subst this
          exact Or.inr (fun x => by simp [owner_view])
        · exact Or.inl (fun x => by simp [owner_view, hji])
      · exact Or.inl (fun x => rfl)
    · refine ⟨HookCall.lock_after (T i) (L i), ?_, fun x => by simp [owner_view]⟩
      have h1 : HookCall.lock_after (T i) (L i) ∈ ring_program T L n i := by
        simp [ring_program]
      rw [← hproj i hi] at h1
      exact (List.mem_filter.1 h1).1

theorem mem_ring_edges (T : Nat → Nat) (n a b : Nat) :
    (a, b) ∈ ring_edges T n ↔ ∃ i, i < n ∧ a = T i ∧ b = T ((i + 1) % n) := by
  simp only [ring_edges, List.mem_map, List.mem_range, Prod.mk.injEq]
  constructor
  · rintro ⟨i, hi, h1, h2⟩
    exact ⟨i, hi, h1.symm, h2.symm⟩
  · rintro ⟨i, hi, h1, h2⟩
    exact ⟨i, hi, h1.symm, h2.symm⟩

theorem nodup_ring_edges (T : Nat → Nat) (n : Nat)
    (hT : ∀ i j, i < n → j < n → T i = T j → i = j) : (ring_edges T n).Nodup := by
  unfold ring_edges
  apply List.Nodup.map_on _ (List.nodup_range n)
  intro x hx y hy hxy
  simp only [Prod.mk.injEq] at hxy
  exact hT x y (List.mem_range.1 hx) (List.mem_range.1 hy) hxy.1

end DeadlockDetector

/-! ## The background worker -/

namespace DeadlockDetector

open StdMap DirectedGraph

theorem check_deadlock_some (d : DeadlockDetector) :
    ∃ b, d.check_deadlock = some (b, d.build_waiting_graph) := by
  obtain ⟨b, hb, _⟩ := has_cycle_represents (build_waiting_graph_represents d)
  exact ⟨b, by simp only [check_deadlock, hb]⟩

theorem apply_hook_flags (d : DeadlockDetector) (c : HookCall) :
    (d.apply_hook c).running_ = d.running_ ∧
      (d.apply_hook c).deadlock_detected_ = d.deadlock_detected_ := by
  cases c <;> exact ⟨rfl, rfl⟩

theorem run_hooks_flags (calls : List HookCall) :
    ∀ d : DeadlockDetector, (d.run_hooks calls).running_ = d.running_ ∧
      (d.run_hooks calls).deadlock_detected_ = d.deadlock_detected_ := by
  induction calls with
  | nil => intro d; exact ⟨rfl, rfl⟩
  | cons c rest ih =>
    intro d
    have h1 := ih (d.apply_hook c)
    have h2 := apply_hook_flags d c
    simp only [run_hooks, List.foldl_cons] at h1 ⊢
    exact ⟨h1.1.trans h2.1, h1.2.trans h2.2⟩

end DeadlockDetector

/-! ## Same lock order: no cycle is ever seen -/

namespace DeadlockDetector

open StdMap DirectedGraph

/-- One step of a thread keeps the facts about the tables, `other` being the
thread that does not move. -/
theorem thread_step_inv (tid other L1 L2 pc pco : Nat) (hne : tid ≠ other)
    (d : DeadlockDetector) (m1 m2 : Option Nat) (hpc : pc < 10)
    (hW : d.thread_waiting_.Ordered)
    (hwait : ∀ t, d.thread_waiting_.find t =
      if t = tid then awaited L1 L2 pc else if t = other then awaited L1 L2 pco else none)
    (hown : ∀ l t, d.lock_owners_.find l = some t →
      (t = tid ∧ may_hold L1 L2 l pc) ∨ (t = other ∧ may_hold L1 L2 l pco)) :
    (thread_step tid L1 L2 pc d m1 m2).1 < 10 ∧
      (thread_step tid L1 L2 pc d m1 m2).2.1.thread_waiting_.Ordered ∧
      (∀ t, (thread_step tid L1 L2 pc d m1 m2).2.1.thread_waiting_.find t =
        if t = tid then awaited L1 L2 (thread_step tid L1 L2 pc d m1 m2).1
        else if t = other then awaited L1 L2 pco else none) ∧
      (∀ l t, (thread_step tid L1 L2 pc d m1 m2).2.1.lock_owners_.find l = some t →
        (t = tid ∧ may_hold L1 L2 l (thread_step tid L1 L2 pc d m1 m2).1) ∨
          (t = other ∧ may_hold L1 L2 l pco)) := by
  have hne' : ¬ other = tid := fun e => hne e.symm
  interval_cases pc
  · -- on_lock_before(tid, L1)
    refine ⟨by simp [thread_step], ordered_put _ _ _ hW, ?_, ?_⟩
    · intro t
      simp only [thread_step, on_lock_before, find_put, hwait]
      by_cases h : t = tid <;> simp [h, awaited]
    · intro l t h
      simp only [thread_step, on_lock_before] at h ⊢
      rcases hown l t h with ⟨h1, h2⟩ | h2
      · simp [may_hold] at h2
      · exact Or.inr h2
  · -- the real pthread_mutex_lock(L1)
    by_cases hm : m1 = none
    · refine ⟨by simp [thread_step, hm], by simpa [thread_step, hm] using hW, ?_, ?_⟩
      · intro t
        simp only [thread_step, hm, if_true, hwait]
        by_cases h : t = tid <;> simp [h, awaited]
      · intro l t h
        simp only [thread_step, hm, if_true] at h ⊢
        rcases hown l t h with ⟨h1, h2⟩ | h2
        · simp [may_hold] at h2
        · exact Or.inr h2
    · refine ⟨by simp [thread_step, hm], by simpa [thread_step, hm] using hW, ?_, ?_⟩
      · intro t
        simp only [thread_step, hm, if_false, hwait]
      · intro l t h
        simp only [thread_step, hm, if_false] at h ⊢
        exact hown l t h
  · -- on_lock_after(tid, L1)
    refine ⟨by simp [thread_step], ordered_erase _ _ hW, ?_, ?_⟩
    · intro t
      simp only [thread_step, on_lock_after, find_erase, hwait]
      by_cases h : t = tid <;> simp [h, awaited]
    · intro l t h
      simp only [thread_step, on_lock_after, find_put] at h ⊢
      by_cases hl : l = L1
      · simp only [hl, if_true, Option.some.injEq] at h
        exact Or.inl ⟨h.symm, Or.inl ⟨hl, by omega, by omega⟩⟩
      · simp only [hl, if_false] at h
        rcases hown l t h with ⟨h1, h2⟩ | h2
        · simp [may_hold, hl] at h2
        · exact Or.inr h2
  · -- on_lock_before(tid, L2)
    refine ⟨by simp [thread_step], ordered_put _ _ _ hW, ?_, ?_⟩
    · intro t
      simp only [thread_step, on_lock_before, find_put, hwait]
      by_cases h : t = tid <;> simp [h, awaited]
    · intro l t h
      simp only [thread_step, on_lock_before] at h ⊢
      rcases hown l t h with ⟨h1, h2⟩ | h2
      · refine Or.inl ⟨h1, ?_⟩
        rcases h2 with ⟨h3, _, _⟩ | ⟨h3, _, _⟩
        · exact Or.inl ⟨h3, by omega, by omega⟩
        · omega
      · exact Or.inr h2
  · -- the real pthread_mutex_lock(L2)
    by_cases hm : m2 = none
    · refine ⟨by simp [thread_step, hm], by simpa [thread_step, hm] using hW, ?_, ?_⟩
      · intro t
        simp only [thread_step, hm, if_true, hwait]
        by_cases h : t = tid <;> simp [h, awaited]
      · intro l t h
        simp only [thread_step, hm, if_true] at h ⊢
        rcases hown l t h with ⟨h1, h2⟩ | h2
        · refine Or.inl ⟨h1, ?_⟩
          rcases h2 with ⟨h3, _, _⟩ | ⟨h3, _, _⟩
          · exact Or.inl ⟨h3, by omega, by omega⟩
          · omega
        · exact Or.inr h2
    · refine ⟨by simp [thread_step, hm], by simpa [thread_step, hm] using hW, ?_, ?_⟩
      · intro t
        simp only [thread_step, hm, if_false, hwait]
      · intro l t h
        simp only [thread_step, hm, if_false] at h ⊢
        exact hown l t h
  · -- on_lock_after(tid, L2)
    refine ⟨by simp [thread_step], ordered_erase _ _ hW, ?_, ?_⟩
    · intro t
      simp only [thread_step, on_lock_after, find_erase, hwait]
      by_cases h : t = tid <;> simp [h, awaited]
    · intro l t h
      simp only [thread_step, on_lock_after, find_put] at h ⊢
      by_cases hl : l = L2
      · simp only [hl, if_true, Option.some.injEq] at h
        exact Or.inl ⟨h.symm, Or.inr ⟨hl, by omega, by omega⟩⟩
      · simp only [hl, if_false] at h
        rcases hown l t h with ⟨h1, h2⟩ | h2
        · refine Or.inl ⟨h1, ?_⟩
          rcases h2 with ⟨h3, _, _⟩ | ⟨h3, _, _⟩
          · exact Or.inl ⟨h3, by omega, by omega⟩
          · omega
        · exact Or.inr h2
  · -- the real pthread_mutex_unlock(L2)
    refine ⟨by simp [thread_step], by simpa [thread_step] using hW, ?_, ?_⟩
    · intro t
      simp only [thread_step, hwait]
      by_cases h : t = tid <;> simp [h, awaited]
    · intro l t h
      simp only [thread_step] at h ⊢
      rcases hown l t h with ⟨h1, h2⟩ | h2
      · refine Or.inl ⟨h1, ?_⟩
        rcases h2 with ⟨h3, _, _⟩ | ⟨h3, _, _⟩
        · exact Or.inl ⟨h3, by omega, by omega⟩
        · exact Or.inr ⟨h3, by omega, by omega⟩
      · exact Or.inr h2
  · -- on_unlock_after(tid, L2)
    refine ⟨by simp [thread_step], by simpa [thread_step, on_unlock_after] using hW, ?_, ?_⟩
    · intro t
      simp only [thread_step, on_unlock_after, hwait]
      by_cases h : t = tid <;> simp [h, awaited]
    · intro l t h
      simp only [thread_step, on_unlock_after, find_erase] at h ⊢
      by_cases hl : l = L2
      · simp [hl] at h
      · simp only [hl, if_false] at h
        rcases hown l t h with ⟨h1, h2⟩ | h2
        · refine Or.inl ⟨h1, ?_⟩
          rcases h2 with ⟨h3, _, _⟩ | ⟨h3, _, _⟩
          · exact Or.inl ⟨h3, by omega, by omega⟩
          · exact absurd h3 hl
        · exact Or.inr h2
  · -- the real pthread_mutex_unlock(L1)
    refine ⟨by simp [thread_step], by simpa [thread_step] using hW, ?_, ?_⟩
    · intro t
      simp only [thread_step, hwait]
      by_cases h : t = tid <;> simp [h, awaited]
    · intro l t h
      simp only [thread_step] at h ⊢
      rcases hown l t h with ⟨h1, h2⟩ | h2
      · refine Or.inl ⟨h1, ?_⟩
        rcases h2 with ⟨h3, _, _⟩ | ⟨h3, _, _⟩
        · exact Or.inl ⟨h3, by omega, by omega⟩
        · omega
      · exact Or.inr h2
  · -- on_unlock_after(tid, L1)
    refine ⟨by simp [thread_step], by simpa [thread_step, on_unlock_after] using hW, ?_, ?_⟩
    · intro t
      simp only [thread_step, on_unlock_after, hwait]
      by_cases h : t = tid <;> simp [h, awaited]
    · intro l t h
      simp only [thread_step, on_unlock_after, find_erase] at h ⊢
      by_cases hl : l = L1
      · simp [hl] at h
      · simp only [hl, if_false] at h
        rcases hown l t h with ⟨h1, h2⟩ | h2
        · rcases h2 with ⟨h3, _, _⟩ | ⟨h3, _, _⟩
          · exact absurd h3 hl
          · omega
        · exact Or.inr h2

end DeadlockDetector

namespace DeadlockDetector

open StdMap DirectedGraph

theorem sameOrderInv_initial (T1 T2 L1 L2 : Nat) :
    SameOrderInv T1 T2 L1 L2 LockOrderState.initial := by
  refine ⟨by decide, by decide, by simp [LockOrderState.initial, init, Ordered, keys], ?_, ?_⟩
  · intro t
    simp [LockOrderState.initial, init, find, awaited]
  · intro l t h
    simp [LockOrderState.initial, init, find] at h

theorem sameOrderInv_step (T1 T2 L1 L2 : Nat) (hT : T1 ≠ T2) (s : LockOrderState)
    (second : Bool) (h : SameOrderInv T1 T2 L1 L2 s) :
    SameOrderInv T1 T2 L1 L2 (s.step T1 T2 L1 L2 second) := by
  cases second with
  | false =>
    obtain ⟨h1, h2, h3, h4⟩ := thread_step_inv T1 T2 L1 L2 s.pc1 s.pc2 hT s.detector
      s.mutex1 s.mutex2 h.pc1_lt h.ordered h.waiting h.owners
    exact ⟨h1, h.pc2_lt, h2, h3, h4⟩
  | true =>
    have hT' : T2 ≠ T1 := fun e => hT e.symm
    have hwait : ∀ t, s.detector.thread_waiting_.find t =
        if t = T2 then awaited L1 L2 s.pc2 else if t = T1 then awaited L1 L2 s.pc1 else none := by
      intro t
      rw [h.waiting]
      by_cases ht1 : t = T1
      · subst ht1; simp [hT]
      · simp [ht1]
    obtain ⟨h1, h2, h3, h4⟩ := thread_step_inv T2 T1 L1 L2 s.pc2 s.pc1 hT' s.detector
      s.mutex1 s.mutex2 h.pc2_lt h.ordered hwait (fun l t hl => (h.owners l t hl).symm)
    refine ⟨h.pc1_lt, h1, h2, ?_, fun l t hl => (h4 l t hl).symm⟩
    intro t
    have := h3 t
    simp only [LockOrderState.step, if_true]
    rw [this]
    by_cases ht1 : t = T1
    · subst ht1; simp [hT]
    · simp [ht1]

theorem sameOrderInv_run (T1 T2 L1 L2 : Nat) (hT : T1 ≠ T2) (sched : List Bool) :
    ∀ s : LockOrderState, SameOrderInv T1 T2 L1 L2 s →
      SameOrderInv T1 T2 L1 L2 (s.run T1 T2 L1 L2 sched) := by
  induction sched with
  | nil => intro s h; exact h
  | cons b rest ih =>
    intro s h
    simp only [LockOrderState.run, List.foldl_cons]
    exact ih _ (sameOrderInv_step T1 T2 L1 L2 hT s b h)

/-- In a state of the same-order scenario a thread only waits for a thread that
is further along in the loop body, so the tables hold no circular wait. -/
theorem sameOrderInv_no_wait (T1 T2 L1 L2 : Nat) (hT : T1 ≠ T2) (hL : L1 ≠ L2)
    (s : LockOrderState) (h : SameOrderInv T1 T2 L1 L2 s) :
    ¬ CircularWait s.detector.lock_owners_ s.detector.thread_waiting_ := by
  rw [circularWait_iff]
  apply no_cycle_of_rank _ (fun t => if t = T1 then s.pc1 else s.pc2)
  rintro a b ⟨Lx, hw, ho⟩
  have hL' : ¬ L2 = L1 := fun e => hL e.symm
  have hT' : ¬ T2 = T1 := fun e => hT e.symm
  rw [h.waiting] at hw
  have key : ∀ pca pcb, awaited L1 L2 pca = some Lx → may_hold L1 L2 Lx pcb → pca < pcb := by
    intro pca pcb h1 h2
    unfold awaited at h1
    split_ifs at h1 with c1 c2
    · simp only [Option.some.injEq] at h1
      subst h1
      rcases h2 with ⟨_, _, _⟩ | ⟨h3, _, _⟩
      · omega
      · exact absurd h3 hL
    · simp only [Option.some.injEq] at h1
      subst h1
      rcases h2 with ⟨h3, _, _⟩ | ⟨_, _, _⟩
      · exact absurd h3 hL'
      · omega
  by_cases ha : a = T1
  · subst ha
    simp only [if_true] at hw ⊢
    rcases h.owners Lx b ho with ⟨hb, hm⟩ | ⟨hb, hm⟩
    · subst hb
      simpa using key _ _ hw hm
    · subst hb
      simpa [hT'] using key _ _ hw hm
  · simp only [ha, if_false] at hw ⊢
    by_cases ha2 : a = T2
    · subst ha2
      simp only [if_true] at hw
      rcases h.owners Lx b ho with ⟨hb, hm⟩ | ⟨hb, hm⟩
      · subst hb
        simpa using key _ _ hw hm
      · subst hb
        simpa [hT'] using key _ _ hw hm
    · simp [ha2] at hw

end DeadlockDetector

/-! ## Shape of the built graph -/

namespace DeadlockDetector

open StdMap DirectedGraph

theorem fst_mem_keys_of_mem_wait_edges (holders waiters : StdMap Nat) (a b : Nat)
    (h : (a, b) ∈ wait_edges holders waiters) : a ∈ keys waiters := by
  obtain ⟨L, hmem, _⟩ := (mem_wait_edges holders waiters a b).1 h
  exact List.mem_map.2 ⟨(a, L), hmem, rfl⟩

/-- A thread has at most one entry in the waiters table, hence at most one
prescribed edge. -/
theorem filter_wait_edges_length (holders waiters : StdMap Nat) (hW : waiters.Ordered)
    (v : Nat) :
    ((wait_edges holders waiters).filter (fun e => decide (e.1 = v))).length ≤ 1 := by
  induction waiters with
  | nil => simp [wait_edges]
  | cons p rest ih =>
    obtain ⟨t, L⟩ := p
    have hc : (∀ x ∈ keys rest, t < x) ∧ Ordered rest := by
      simpa [Ordered, keys] using hW
    have hcons : wait_edges holders ((t, L) :: rest) =
        (match holders.find L with
          | some o => [(t, o)]
          | none => []) ++ wait_edges holders rest := by
      cases h : holders.find L <;> simp [wait_edges, List.filterMap_cons, h]
    rw [hcons, List.filter_append, List.length_append]
    by_cases hvt : v = t
    · subst hvt
      have hnil : (wait_edges holders rest).filter (fun e => decide (e.1 = v)) = [] := by
        rw [List.filter_eq_nil_iff]
        rintro ⟨a, b⟩ hmem
        have hk := fst_mem_keys_of_mem_wait_edges holders rest a b hmem
        have hlt := hc.1 a hk
        simp only [decide_eq_true_eq]
        omega
      rw [hnil]
      cases holders.find L <;> simp
    · have hnil : List.filter (fun e : Nat × Nat => decide (e.1 = v))
          (match holders.find L with
            | some o => [(t, o)]
            | none => []) = [] := by
        have htv : ¬ t = v := fun e => hvt e.symm
        cases holders.find L <;> simp [htv]
      rw [hnil]
      simpa using ih hc.2

theorem out_neighbors_build_length (d : DeadlockDetector) (hW : d.thread_waiting_.Ordered)
    (v : Nat) : (d.build_waiting_graph.graph_.out_neighbors v).length ≤ 1 := by
  rw [(build_waiting_graph_represents d).out_eq, List.length_map]
  exact filter_wait_edges_length _ _ hW v

theorem out_neighbors_of_mem {g : DirectedGraph} (ho : g.graph_.Ordered) {k : Nat}
    {vtx : GraphVertex} (h : (k, vtx) ∈ g.graph_) : g.out_neighbors k = vtx.neighbors := by
  simp [out_neighbors, find_of_mem ho h]

theorem stored_indegree_of_mem {g : DirectedGraph} (ho : g.graph_.Ordered) {k : Nat}
    {vtx : GraphVertex} (h : (k, vtx) ∈ g.graph_) : g.stored_indegree k = vtx.indegree := by
  simp [stored_indegree, find_of_mem ho h]

end DeadlockDetector

/-! ## Graphs reachable by `add_edge` and `clear` -/

namespace DirectedGraph

open StdMap

theorem represents_run_ops (ops : List GraphOp) :
    ∀ (g : DirectedGraph) (es : List (Nat × Nat)), Represents g es →
      ∃ es', Represents (g.run_ops ops) es' := by
  induction ops with
  | nil => intro g es h; exact ⟨es, h⟩
  | cons op rest ih =>
    intro g es h
    simp only [run_ops, List.foldl_cons]
    cases op with
    | add_edge a b => exact ih _ _ (represents_add_edge h a b)
    | clear => exact ih _ _ represents_empty

theorem represents_reachable (ops : List GraphOp) :
    ∃ es, Represents (empty.run_ops ops) es :=
  represents_run_ops ops empty [] represents_empty

theorem mem_edges_iff {g : DirectedGraph} {es : List (Nat × Nat)} (hr : Represents g es)
    (e : Nat × Nat) : e ∈ g.edges ↔ e ∈ es :=
  (edges_perm hr).mem_iff

/-- The vertices of a graph that stores an edge list are the endpoints of its
own edges; each has an edge entering it or an edge leaving it. -/
theorem vertex_iff_endpoint {g : DirectedGraph} {es : List (Nat × Nat)} (hr : Represents g es)
    (v : Nat) :
    (v ∈ keys g.graph_ ↔ ∃ e, e ∈ g.edges ∧ (e.1 = v ∨ e.2 = v)) ∧
      (v ∈ keys g.graph_ → 0 < g.stored_indegree v ∨ g.out_neighbors v ≠ []) := by
  constructor
  · rw [hr.mem_keys]
    constructor
    · rintro ⟨e, he, hv⟩
      exact ⟨e, (mem_edges_iff hr e).2 he, hv⟩
    · rintro ⟨e, he, hv⟩
      exact ⟨e, (mem_edges_iff hr e).1 he, hv⟩
  · intro hv
    obtain ⟨e, he, hv⟩ := (hr.mem_keys v).1 hv
    rcases hv with hv | hv
    · right
      rw [hr.out_eq]
      intro hnil
      have hmem : e.2 ∈ (es.filter (fun e => decide (e.1 = v))).map Prod.snd :=
        List.mem_map.2 ⟨e, List.mem_filter.2 ⟨he, by simp [hv]⟩, rfl⟩
      rw [hnil] at hmem
      exact absurd hmem (List.not_mem_nil _)
    · left
      rw [hr.indegree_eq]
      have : 0 < es.countP (fun e => decide (e.2 = v)) :=
        List.countP_pos_iff.2 ⟨e, he, by simp [hv]⟩
      exact_mod_cast this

theorem edges_cons (k : Nat) (vtx : GraphVertex) (rest : StdMap GraphVertex) :
    edges ⟨(k, vtx) :: rest⟩ = vtx.neighbors.map (fun dst => (k, dst)) ++ edges ⟨rest⟩ := by
  simp [edges, List.flatMap]

/-- The number of edges entering `v` is the number of occurrences of `v` in all
out-neighbour lists together. -/
theorem countP_targets_edges (m : StdMap GraphVertex) (v : Nat) :
    (edges ⟨m⟩).countP (fun e => decide (e.2 = v)) =
      (m.map (fun p => p.2.neighbors.count v)).sum := by
  induction m with
  | nil => simp [edges]
  | cons p rest ih =>
    obtain ⟨k, vtx⟩ := p
    rw [edges_cons, List.countP_append, ih, List.map_cons, List.sum_cons, List.countP_map]
    congr 1

theorem length_edges (m : StdMap GraphVertex) :
    (edges ⟨m⟩).length = (m.map (fun p => p.2.neighbors.length)).sum := by
  induction m with
  | nil => simp [edges]
  | cons p rest ih =>
    obtain ⟨k, vtx⟩ := p
    rw [edges_cons, List.length_append, ih, List.map_cons, List.sum_cons, List.length_map]

theorem sum_map_ite_eq_count (ks : List Nat) (x : Nat) :
    (ks.map (fun k => if x = k then 1 else 0)).sum = ks.count x := by
  induction ks with
  | nil => rfl
  | cons k rest ih =>
    rw [List.map_cons, List.sum_cons, ih, List.count_cons]
    by_cases h : x = k
    · subst h; simp; omega
    · have h' : ¬ k = x := fun e => h e.symm
      simp [h, h']

/-- Summed over a duplicate-free list that contains every target, the numbers
of entering edges add up to the number of edges. -/
theorem sum_countP_targets (ks : List Nat) (hk : ks.Nodup) (es : List (Nat × Nat))
    (h : ∀ e, e ∈ es → e.2 ∈ ks) :
    (ks.map (fun k => es.countP (fun e => decide (e.2 = k)))).sum = es.length := by
  induction es with
  | nil => simp
  | cons e rest ih =>
    have hrest := ih (fun e' he' => h e' (List.mem_cons_of_mem _ he'))
    have hsplit : (fun k => (e :: rest).countP (fun e => decide (e.2 = k))) =
        (fun k => rest.countP (fun e => decide (e.2 = k)) + (if e.2 = k then 1 else 0)) := by
      funext k
      simp [List.countP_cons]
    rw [hsplit, List.sum_map_add, hrest, sum_map_ite_eq_count,
      List.count_eq_one_of_mem hk (h e (List.mem_cons_self _ _))]
    simp

/-- The well-formedness of a graph that stores an edge list. -/
theorem represents_wellformed {g : DirectedGraph} {es : List (Nat × Nat)}
    (hr : Represents g es) :
    (∀ k vtx w, (k, vtx) ∈ g.graph_ → w ∈ vtx.neighbors → w ∈ keys g.graph_) ∧
      (∀ v, g.stored_indegree v =
        (((g.graph_.map (fun p => p.2.neighbors.count v)).sum : Nat) : Int)) ∧
      (g.graph_.map (fun p => p.2.indegree)).sum = ((g.edges.length : Nat) : Int) := by
  have hcount : ∀ v, es.countP (fun e => decide (e.2 = v)) =
      (g.graph_.map (fun p => p.2.neighbors.count v)).sum := by
    intro v
    rw [← countP_targets_edges g.graph_ v]
    exact ((edges_perm hr).countP_eq _).symm
  refine ⟨?_, ?_, ?_⟩
  · intro k vtx w hmem hw
    have hout : g.out_neighbors k = vtx.neighbors := by
      simp [out_neighbors, find_of_mem hr.ordered hmem]
    have hedge : g.edge k w := by
      unfold edge; rw [hout]; exact hw
    exact (hr.mem_keys w).2 ⟨(k, w), (edge_iff hr k w).1 hedge, Or.inr rfl⟩
  · intro v
    rw [hr.indegree_eq, hcount]
  · have h1 : g.graph_.map (fun p => p.2.indegree) =
        (keys g.graph_).map (fun k => ((es.countP (fun e => decide (e.2 = k)) : Nat) : Int)) := by
      simp only [keys, List.map_map]
      apply List.map_congr_left
      rintro ⟨k, vtx⟩ hmem
      have : g.stored_indegree k = vtx.indegree := by
        simp [stored_indegree, find_of_mem hr.ordered hmem]
      simp only [Function.comp_apply]
      rw [← this, hr.indegree_eq]
    have h2 := sum_countP_targets (keys g.graph_) (nodup_keys hr.ordered) es
      (fun e he => (hr.mem_keys e.2).2 ⟨e, he, Or.inr rfl⟩)
    have h3 : (keys g.graph_).map
        (fun k => ((es.countP (fun e => decide (e.2 = k)) : Nat) : Int)) =
        ((keys g.graph_).map (fun k => es.countP (fun e => decide (e.2 = k)))).map
          (fun n : Nat => (n : Int)) := by
      simp [List.map_map, Function.comp_def]
    rw [h1, h3, ← Nat.cast_list_sum, h2, (edges_perm hr).length_eq]

end DirectedGraph

/-! ## Hook calls that leave a circular wait alone -/

namespace DeadlockDetector

open StdMap DirectedGraph

theorem owner_view_of_ne (l : Nat) (cur : Option Nat) (c : HookCall) (h : c.lock_addr ≠ l) :
    owner_view l cur c = cur := by
  cases c <;> simp_all [owner_view, HookCall.lock_addr]

theorem find_waiting_run_hooks_of_ne (d : DeadlockDetector) (calls : List HookCall) (t : Nat)
    (h : ∀ c, c ∈ calls → c.thread_id ≠ t) :
    (d.run_hooks calls).thread_waiting_.find t = d.thread_waiting_.find t := by
  rw [find_waiting_run_hooks, foldl_waiting_view_filter]
  have hnil : calls.filter (fun c => decide (c.thread_id = t)) = [] := by
    rw [List.filter_eq_nil_iff]
    intro c hc
    simpa using h c hc
  rw [hnil]
  rfl

theorem find_owner_run_hooks_of_ne (d : DeadlockDetector) (calls : List HookCall) (l : Nat)
    (h : ∀ c, c ∈ calls → c.lock_addr ≠ l) :
    (d.run_hooks calls).lock_owners_.find l = d.lock_owners_.find l := by
  rw [find_owner_run_hooks]
  exact foldl_owner_view_id l calls (fun c hc x => owner_view_of_ne l x c (h c hc)) _

theorem mem_edges_build_iff (d : DeadlockDetector) (hW : d.thread_waiting_.Ordered)
    (a b : Nat) :
    (a, b) ∈ d.build_waiting_graph.graph_.edges ↔
      waits_for d.lock_owners_ d.thread_waiting_ a b := by
  rw [mem_edges_iff (build_waiting_graph_represents d), mem_wait_edges_iff _ hW]

end DeadlockDetector

/-! ## The vertices `has_cycle` leaves in the graph -/

namespace DirectedGraph

open StdMap

/-- The loop of `has_cycle` dequeues exactly the vertices that leave the set of
vertices not yet dequeued. -/
theorem kahn_loop_dequeued {g : DirectedGraph} {es : List (Nat × Nat)} (hr : Represents g es) :
    ∀ (fuel : Nat) (s : KahnState) (R : Finset Nat), KahnInv g es s R → R.card ≤ fuel →
      ∃ s' R', kahn_loop fuel s = some s' ∧ KahnInv g es s' R' ∧ s'.queue = [] ∧
        (∀ v, v ∈ R' → v ∈ R) ∧
        (∀ v, v ∈ kahn_dequeued fuel s ↔ v ∈ R ∧ v ∉ R') := by
  intro fuel
  induction fuel with
  | zero =>
    intro s R hi hc
    have hR : R = ∅ := Finset.card_eq_zero.1 (by omega)
    have hq : s.queue = [] := by
      apply List.eq_nil_iff_forall_not_mem.2
      intro v hv
      have := ((hi.queue_iff v).1 hv).1
      rw [hR] at this
      exact absurd this (Finset.not_mem_empty v)
    refine ⟨s, R, by simp [kahn_loop, hq], hi, hq, fun v hv => hv, ?_⟩
    intro v
    simp [kahn_dequeued]
  | succ fuel ih =>
    intro s R hi hc
    cases hq : s.queue with
    | nil =>
      refine ⟨s, R, by simp [kahn_loop, hq], hi, hq, fun v hv => hv, ?_⟩
      intro v
      simp [kahn_dequeued, hq]
    | cons node rest =>
      have hnode : node ∈ R := ((hi.queue_iff node).1 (by rw [hq]; exact List.mem_cons_self _ _)).1
      have h1 := Finset.card_erase_of_mem hnode
      have h2 : 0 < R.card := Finset.card_pos.2 ⟨node, hnode⟩
      obtain ⟨s', R', hl, hi', hq', hsub, hdq⟩ :=
        ih (kahn_step s node rest) (R.erase node) (kahn_step_inv hr hi hq) (by omega)
      refine ⟨s', R', by simp [kahn_loop, hq, hl], hi', hq',
        fun v hv => Finset.mem_of_mem_erase (hsub v hv), ?_⟩
      intro v
      simp only [kahn_dequeued, hq, List.mem_cons, hdq, Finset.mem_erase]
      constructor
      · rintro (rfl | ⟨⟨_, hvR⟩, hvR'⟩)
        · exact ⟨hnode, fun h => (Finset.mem_erase.1 (hsub v h)).1 rfl⟩
        · exact ⟨hvR, hvR'⟩
      · rintro ⟨hvR, hvR'⟩
        by_cases hvn : v = node
        · exact Or.inl hvn
        · exact Or.inr ⟨⟨hvn, hvR⟩, hvR'⟩

/-- When the queue is empty, the vertices not dequeued are those on a cycle or
reachable from a cycle, and they are the ones with a positive working indegree. -/
theorem kahn_residue {g : DirectedGraph} {es : List (Nat × Nat)} (hr : Represents g es)
    {s : KahnState} {R : Finset Nat} (hi : KahnInv g es s R) (hq : s.queue = []) (v : Nat) :
    (v ∈ R ↔ g.fed_by_cycle v) ∧ (v ∈ R ↔ 0 < working s.indegree_copy v) := by
  have hpos : ∀ u, u ∈ R → 0 < pending es R u := by
    intro u hu
    have hnz : pending es R u ≠ 0 := by
      intro h0
      have := (hi.queue_iff u).2 ⟨hu, h0⟩
      rw [hq] at this
      exact absurd this (List.not_mem_nil u)
    omega
  have hin : ∀ u, 0 < pending es R u → u ∈ R := by
    intro u hu
    by_contra hnot
    have := hi.done_zero u hnot
    omega
  constructor
  · constructor
    · intro hv
      classical
      let S : Finset Nat := R.filter (fun u => Relation.ReflTransGen g.edge u v)
      have hvS : v ∈ S := Finset.mem_filter.2 ⟨hv, Relation.ReflTransGen.refl⟩
      have hpred : ∀ u, u ∈ S → ∃ w, w ∈ S ∧ (g.edge w u ∧ w ∈ S ∧ u ∈ S) := by
        intro u hu
        obtain ⟨huR, huv⟩ := Finset.mem_filter.1 hu
        obtain ⟨w, hwR, hmem⟩ := (pending_pos_iff es R u).1 (hpos u huR)
        have hedge : g.edge w u := (edge_iff hr w u).2 hmem
        have hwS : w ∈ S :=
          Finset.mem_filter.2 ⟨hwR, Relation.ReflTransGen.head hedge huv⟩
        exact ⟨w, hwS, hedge, hwS, hu⟩
      obtain ⟨c, hc⟩ := exists_cycle_of_pred (fun a b => g.edge a b ∧ a ∈ S ∧ b ∈ S) S
        ⟨v, hvS⟩ hpred
      have hcyc : Relation.TransGen g.edge c c :=
        Relation.TransGen.mono (fun a b h => h.1) hc
      obtain ⟨b, hcb, _⟩ := Relation.TransGen.head'_iff.1 hc
      exact ⟨c, hcyc, (Finset.mem_filter.1 hcb.2.1).2⟩
    · rintro ⟨c, hcyc, hcv⟩
      have hc : c ∈ R := by
        by_contra hnot
        exact hi.acyc c (hi.done_zero c hnot) hcyc
      induction hcv with
      | refl => exact hc
      | tail _ huw ih =>
        exact hin _ ((pending_pos_iff es R _).2 ⟨_, ih, (edge_iff hr _ _).1 huw⟩)
  · rw [hi.working_eq]
    constructor
    · intro hv
      exact_mod_cast hpos v hv
    · intro h
      exact hin v (by exact_mod_cast h)

/-- On a graph that stores an edge list: the reduction finishes with an empty
queue, and a vertex is never dequeued exactly when it lies on a cycle or is
reachable from one, exactly when its working indegree is still positive. -/
theorem dequeued_spec {g : DirectedGraph} {es : List (Nat × Nat)} (hr : Represents g es) :
    ∃ s, kahn_run g = some s ∧ s.queue = [] ∧
      (∀ v, v ∈ g.dequeued → v ∈ keys g.graph_) ∧
      ∀ v, v ∈ keys g.graph_ →
        ((v ∉ g.dequeued ↔ g.fed_by_cycle v) ∧
          (v ∉ g.dequeued ↔ 0 < working s.indegree_copy v)) := by
  have hcard : (keys g.graph_).toFinset.card ≤ g.graph_.length := by
    rw [List.toFinset_card_of_nodup (nodup_keys hr.ordered)]
    simp [keys]
  obtain ⟨s, R, hrun, hi, hq, _, hdq⟩ := kahn_loop_dequeued hr _ _ _ (kahn_init_inv hr) hcard
  refine ⟨s, hrun, hq, ?_, ?_⟩
  · intro v hv
    exact List.mem_toFinset.1 ((hdq v).1 hv).1
  · intro v hv
    have hvV : v ∈ (keys g.graph_).toFinset := List.mem_toFinset.2 hv
    have hnot : v ∉ g.dequeued ↔ v ∈ R := by
      constructor
      · intro h
        by_contra hR
        exact h ((hdq v).2 ⟨hvV, hR⟩)
      · intro hR h
        exact ((hdq v).1 h).2 hR
    have hres := kahn_residue hr hi hq v
    exact ⟨hnot.trans hres.1, hnot.trans hres.2⟩

end DirectedGraph

/-! ## The detector's own mutexes: no deadlock -/

section OwnMutexes

theorem disciplined_report_steps (nodes : Nat) (rest : List LockStep)
    (h : disciplined [Mutex.graph] rest) :
    disciplined [Mutex.graph] (report_steps nodes ++ rest) := by
  induction nodes with
  | zero => simpa [report_steps] using h
  | succ n ih =>
    simpa [report_steps, disciplined] using ih

/-- Every member function keeps the discipline: run from a state in which the
thread holds nothing, it ends holding nothing. -/
theorem disciplined_lock_steps (op : DetectorOp) (rest : List LockStep)
    (h : disciplined [] rest) : disciplined [] (lock_steps op ++ rest) := by
  cases op with
  | on_lock_before => simpa [lock_steps, disciplined] using h
  | on_lock_after => simpa [lock_steps, disciplined] using h
  | on_unlock_after => simpa [lock_steps, disciplined] using h
  | get_snapshot => simpa [lock_steps, snapshot_steps, disciplined] using h
  | check_deadlock => simpa [lock_steps, snapshot_steps, disciplined] using h
  | print_deadlock_info nodes =>
    have e : lock_steps (DetectorOp.print_deadlock_info nodes) ++ rest =
        LockStep.acquire [Mutex.graph] ::
          (report_steps nodes ++ (LockStep.release Mutex.graph :: rest)) := by
      simp [lock_steps]
    have hrel : disciplined [Mutex.graph] (LockStep.release Mutex.graph :: rest) := by
      simpa [disciplined] using h
    have hrep := disciplined_report_steps nodes _ hrel
    rw [e]
    simpa [disciplined] using hrep
  | print_status => simpa [lock_steps, snapshot_steps, disciplined] using h

theorem disciplined_programs (ops : List DetectorOp) :
    disciplined [] (ops.flatMap lock_steps) := by
  induction ops with
  | nil => simp [disciplined]
  | cons op rest ih =>
    rw [List.flatMap_cons]
    exact disciplined_lock_steps op _ ih

theorem disciplined_advance (th : LockThread) (h : disciplined th.held th.todo) :
    disciplined th.advance.held th.advance.todo := by
  unfold LockThread.advance
  cases hto : th.todo with
  | nil => simpa [hto] using h
  | cons stp rest =>
    rw [hto] at h
    cases stp with
    | acquire ms => exact h.2.2
    | release m => exact h.2

theorem disciplined_lock_step (sys : List LockThread) (i : Nat)
    (h : ∀ th, th ∈ sys → disciplined th.held th.todo) :
    ∀ th, th ∈ lock_step sys i → disciplined th.held th.todo := by
  intro th hth
  unfold lock_step at hth
  cases hi : sys[i]? with
  | none =>
    rw [hi] at hth
    exact h th hth
  | some th0 =>
    rw [hi] at hth
    have hmem0 : th0 ∈ sys := List.mem_iff_getElem?.2 ⟨i, hi⟩
    by_cases hc : can_step sys i = true
    · simp only [hc, if_true] at hth
      rcases List.mem_or_eq_of_mem_set hth with hold | hnew
      · exact h th hold
      · rw [hnew]
        exact disciplined_advance th0 (h th0 hmem0)
    · simp only [hc] at hth
      exact h th hth

theorem disciplined_lock_run (sched : List Nat) :
    ∀ sys : List LockThread, (∀ th, th ∈ sys → disciplined th.held th.todo) →
      ∀ th, th ∈ lock_run sys sched → disciplined th.held th.todo := by
  induction sched with
  | nil => intro sys h; exact h
  | cons i rest ih =>
    intro sys h
    simp only [lock_run, List.foldl_cons]
    exact ih _ (disciplined_lock_step sys i h)

theorem disciplined_start_threads (programs : List (List DetectorOp)) :
    ∀ th, th ∈ start_threads programs → disciplined th.held th.todo := by
  intro th hth
  obtain ⟨ops, _, rfl⟩ := List.mem_map.1 hth
  exact disciplined_programs ops

theorem is_free_iff (sys : List LockThread) (m : Mutex) :
    is_free sys m = true ↔ ∀ th, th ∈ sys → m ∉ th.held := by
  simp [is_free, List.all_eq_true]

theorem can_step_release (sys : List LockThread) (i : Nat) (th : LockThread) (m : Mutex)
    (rest : List LockStep) (hi : sys[i]? = some th) (hto : th.todo = LockStep.release m :: rest) :
    can_step sys i = true := by
  simp [can_step, hi, hto]

theorem can_step_acquire (sys : List LockThread) (i : Nat) (th : LockThread) (ms : List Mutex)
    (rest : List LockStep) (hi : sys[i]? = some th) (hto : th.todo = LockStep.acquire ms :: rest)
    (hfree : ∀ m, m ∈ ms → is_free sys m = true) : can_step sys i = true := by
  simp only [can_step, hi, hto, List.all_eq_true]
  exact hfree

/-- Under the discipline some thread can always take a step, unless every
thread has finished. -/
theorem progress_of_disciplined (sys : List LockThread)
    (h : ∀ th, th ∈ sys → disciplined th.held th.todo) :
    (∀ th, th ∈ sys → th.todo = []) ∨ ∃ i, can_step sys i = true := by
  by_cases hfin : ∀ th, th ∈ sys → th.todo = []
  · exact Or.inl hfin
  right
  push_neg at hfin
  obtain ⟨th, hth, htodo⟩ := hfin
  by_cases htab : ∃ tj, tj ∈ sys ∧ ∃ m, m ∈ tj.held ∧ m ≠ Mutex.graph
  · -- a thread that holds a table mutex is about to release
    obtain ⟨tj, htj, m, hm, hmg⟩ := htab
    obtain ⟨j, hj⟩ := List.mem_iff_getElem?.1 htj
    have hd := h tj htj
    cases hto : tj.todo with
    | nil =>
      rw [hto] at hd
      simp only [disciplined] at hd
      rw [hd] at hm
      exact absurd hm (List.not_mem_nil m)
    | cons stp rest =>
      rw [hto] at hd
      cases stp with
      | acquire ms => exact absurd (hd.1 m hm) hmg
      | release m' => exact ⟨j, can_step_release sys j tj m' rest hj hto⟩
  · -- no table mutex is held
    push_neg at htab
    have hfree_table : ∀ m, m ≠ Mutex.graph → is_free sys m = true := by
      intro m hm
      rw [is_free_iff]
      intro tj htj hmem
      exact hm (htab tj htj m hmem)
    obtain ⟨i, hi⟩ := List.mem_iff_getElem?.1 hth
    cases hto : th.todo with
    | nil => exact absurd hto htodo
    | cons stp rest =>
      cases stp with
      | release m => exact ⟨i, can_step_release sys i th m rest hi hto⟩
      | acquire ms =>
        by_cases hg : is_free sys Mutex.graph = true
        · refine ⟨i, can_step_acquire sys i th ms rest hi hto ?_⟩
          intro m _
          by_cases hmg : m = Mutex.graph
          · rw [hmg]; exact hg
          · exact hfree_table m hmg
        · -- the thread that holds the graph mutex can go on
          rw [is_free_iff] at hg
          push_neg at hg
          obtain ⟨tj, htj, hheld⟩ := hg
          obtain ⟨j, hj⟩ := List.mem_iff_getElem?.1 htj
          have hd := h tj htj
          cases htoj : tj.todo with
          | nil =>
            rw [htoj] at hd
            simp only [disciplined] at hd
            rw [hd] at hheld
            exact absurd hheld (List.not_mem_nil _)
          | cons stp' rest' =>
            rw [htoj] at hd
            cases stp' with
            | release m' => exact ⟨j, can_step_release sys j tj m' rest' hj htoj⟩
            | acquire ms' =>
              refine ⟨j, can_step_acquire sys j tj ms' rest' hj htoj ?_⟩
              intro m hm
              apply hfree_table
              rintro rfl
              have := hd.2.1 hm
              rw [this] at hheld
              exact absurd hheld (List.not_mem_nil _)

end OwnMutexes

/-! ## The run of `has_cycle`, state by state -/

namespace StdMap

variable {β : Type}

/-- Assigning to a key that is present leaves the key set as it is. -/
theorem keys_put_of_mem {m : StdMap β} (ho : m.Ordered) {k : Nat} (v : β) (h : k ∈ keys m) :
    keys (m.put k v) = keys m := by
  induction m with
  | nil => simp [keys] at h
  | cons p rest ih =>
    obtain ⟨k', v'⟩ := p
    have hc : (∀ a ∈ keys rest, k' < a) ∧ Ordered rest := by
      simpa [Ordered, keys] using ho
    have hk : k = k' ∨ k ∈ keys rest := by simpa [keys] using h
    by_cases h1 : k = k'
    · subst h1
      simp [put, keys]
    · have hmem : k ∈ keys rest := hk.resolve_left h1
      have h2 : ¬ k < k' := by have := hc.1 k hmem; omega
      have := ih hc.2 hmem
      simp only [keys] at this
      simp [put, h1, h2, keys, this]

end StdMap

namespace DirectedGraph

open StdMap

theorem kahn_loop_mono : ∀ (fuel : Nat) (s s' : KahnState), kahn_loop fuel s = some s' →
    ∀ fuel', fuel ≤ fuel' → kahn_loop fuel' s = some s' := by
  intro fuel
  induction fuel with
  | zero =>
    intro s s' h fuel' _
    have hq : s.queue = [] := by
      by_contra hne
      simp [kahn_loop, hne] at h
    have hs : s' = s := by
      simp [kahn_loop, hq] at h
      exact h.symm
    subst hs
    cases fuel' <;> simp [kahn_loop, hq]
  | succ fuel ih =>
    intro s s' h fuel' hle
    obtain ⟨f, rfl⟩ : ∃ f, fuel' = f + 1 := ⟨fuel' - 1, by omega⟩
    cases hq : s.queue with
    | nil =>
      simp only [kahn_loop, hq] at h ⊢
      exact h
    | cons node rest =>
      simp only [kahn_loop, hq] at h ⊢
      exact ih _ _ h f (by omega)

theorem kahn_run_eq (g : DirectedGraph) : kahn_run g = kahn_loop g.graph_.length g.kahn_init :=
  rfl

theorem dequeued_eq (g : DirectedGraph) :
    g.dequeued = kahn_dequeued g.graph_.length g.kahn_init := rfl

/-- The `for` loop only appends to the queue. -/
theorem queue_kahn_step (s : KahnState) (node : Nat) (rest : List Nat) :
    (kahn_step s node rest).queue = rest ++ kahn_pushed s node rest := by
  unfold kahn_pushed
  obtain ⟨_, E, hE, _, _⟩ := relax_foldl (kahn_neighbors s node) s.indegree_copy rest
  have hq : (kahn_step s node rest).queue =
      ((kahn_neighbors s node).foldl relax (s.indegree_copy, rest)).2 := rfl
  rw [hq, hE]
  simp

theorem kahn_step_eq_inner (s : KahnState) (node : Nat) (rest : List Nat) :
    (kahn_step s node rest).indegree_copy =
        (kahn_inner s node rest (kahn_neighbors s node).length).1 ∧
      (kahn_step s node rest).queue =
        (kahn_inner s node rest (kahn_neighbors s node).length).2 := by
  unfold kahn_inner
  rw [List.take_length]
  exact ⟨rfl, rfl⟩

theorem kahn_neighbors_of_inv {g : DirectedGraph} {es : List (Nat × Nat)}
    {s : KahnState} {R : Finset Nat} (hi : KahnInv g es s R) {node : Nat} {rest : List Nat}
    (hq : s.queue = node :: rest) : kahn_neighbors s node = g.out_neighbors node := by
  have hnode : node ∈ R :=
    ((hi.queue_iff node).1 (by rw [hq]; exact List.mem_cons_self _ _)).1
  have hsome : (g.graph_.find node).isSome := (find_isSome_iff _ _).2 (hi.sub node hnode)
  obtain ⟨vtx, hfind⟩ := Option.isSome_iff_exists.1 hsome
  simp [kahn_neighbors, hi.graph_eq, hfind, out_neighbors]

theorem keys_relax (ic : StdMap Int) (q : List Nat) (n : Nat) (ho : ic.Ordered)
    (hn : n ∈ keys ic) : keys (relax (ic, q) n).1 = keys ic := by
  rw [relax_fst]
  exact keys_put_of_mem ho _ hn

theorem keys_foldl_relax (ns : List Nat) :
    ∀ (ic : StdMap Int) (q : List Nat), ic.Ordered → (∀ n, n ∈ ns → n ∈ keys ic) →
      keys (ns.foldl relax (ic, q)).1 = keys ic := by
  induction ns with
  | nil => intro ic q _ _; rfl
  | cons n rest ih =>
    intro ic q ho hn
    have hst : relax (ic, q) n = ((relax (ic, q) n).1, (relax (ic, q) n).2) := rfl
    have hk := keys_relax ic q n ho (hn n (List.mem_cons_self _ _))
    rw [List.foldl_cons, hst, ih]
    · exact hk
    · unfold Ordered at ho ⊢
      rw [hk]; exact ho
    · intro m hm
      rw [hk]
      exact hn m (List.mem_cons_of_mem _ hm)

theorem keys_copy_indegrees (g : DirectedGraph) (ho : g.graph_.Ordered) :
    keys (copy_indegrees g.graph_) = keys g.graph_ := by
  rw [copy_indegrees_eq _ ho]
  simp [keys, List.map_map, Function.comp_def]

/-- What the loop invariant says about one state of the `while` loop and about
the passes of the `for` loop that start from it. -/
theorem kahn_state_facts {g : DirectedGraph} {es : List (Nat × Nat)} (hr : Represents g es)
    {s : KahnState} {R : Finset Nat} (hi : KahnInv g es s R)
    (hk : keys s.indegree_copy = keys g.graph_) :
    s.graph_ = g.graph_ ∧ s.processed_count ≤ g.graph_.length ∧
      (∀ v, 0 ≤ working s.indegree_copy v) ∧
      ∀ node rest, s.queue = node :: rest →
        (kahn_step s node rest).graph_ = g.graph_ ∧
          kahn_neighbors s node = g.out_neighbors node ∧
          ∀ k, keys (kahn_inner s node rest k).1 = keys g.graph_ ∧
            ∀ v, 0 ≤ working (kahn_inner s node rest k).1 v := by
  refine ⟨hi.graph_eq, ?_, ?_, ?_⟩
  · have := hi.count; omega
  · intro v; rw [hi.working_eq]; exact Int.natCast_nonneg _
  · intro node rest hq
    have hns := kahn_neighbors_of_inv hi hq
    have hnode : node ∈ R :=
      ((hi.queue_iff node).1 (by rw [hq]; exact List.mem_cons_self _ _)).1
    have ho : s.indegree_copy.Ordered := by
      unfold Ordered; rw [hk]; exact hr.ordered
    refine ⟨(kahn_step_inv hr hi hq).graph_eq, hns, ?_⟩
    intro k
    unfold kahn_inner
    rw [hns]
    constructor
    · rw [keys_foldl_relax _ _ _ ho, hk]
      intro n hn
      rw [hk]
      have hn' : n ∈ g.out_neighbors node := List.mem_of_mem_take hn
      exact (hr.mem_keys n).2 ⟨(node, n), (edge_iff hr node n).1 hn', Or.inr rfl⟩
    · intro v
      obtain ⟨hw, _⟩ := relax_foldl ((g.out_neighbors node).take k) s.indegree_copy rest
      rw [hw, hi.working_eq]
      have h1 := pending_erase_out hr R node v hnode
      have h2 : ((g.out_neighbors node).take k).count v ≤ (g.out_neighbors node).count v :=
        List.Sublist.count_le (List.take_sublist _ _) v
      omega

/-- Along the `while` loop, started in a state that satisfies the invariant
with enough fuel for the vertices not yet dequeued: every state visited
satisfies the invariant and has the key set of the graph in `indegree_copy`,
no vertex is dequeued twice, the vertices pushed are the vertices dequeued
later, and `processed_count` counts the iterations. -/
theorem kahn_loop_trace {g : DirectedGraph} {es : List (Nat × Nat)} (hr : Represents g es) :
    ∀ (fuel : Nat) (s : KahnState) (R : Finset Nat), KahnInv g es s R → R.card ≤ fuel →
      keys s.indegree_copy = keys g.graph_ →
      (∀ s', s' ∈ kahn_states fuel s →
        ∃ R', KahnInv g es s' R' ∧ keys s'.indegree_copy = keys g.graph_) ∧
      (kahn_dequeued fuel s).Nodup ∧ (∀ v, v ∈ kahn_dequeued fuel s → v ∈ R) ∧
      s.queue ++ kahn_enqueued fuel s = kahn_dequeued fuel s ∧
      ∃ s', kahn_loop fuel s = some s' ∧ s'.queue = [] ∧
        (kahn_states fuel s).getLast? = some s' ∧
        (kahn_states fuel s).length = (kahn_dequeued fuel s).length + 1 ∧
        s'.processed_count = s.processed_count + (kahn_dequeued fuel s).length := by
  intro fuel
  induction fuel with
  | zero =>
    intro s R hi hc hk
    have hR : R = ∅ := Finset.card_eq_zero.1 (by omega)
    have hq : s.queue = [] := by
      apply List.eq_nil_iff_forall_not_mem.2
      intro v hv
      have := ((hi.queue_iff v).1 hv).1
      rw [hR] at this
      exact absurd this (Finset.not_mem_empty v)
    refine ⟨?_, by simp [kahn_dequeued], by simp [kahn_dequeued],
      by simp [kahn_dequeued, kahn_enqueued, hq], s, by simp [kahn_loop, hq], hq,
      by simp [kahn_states], by simp [kahn_states, kahn_dequeued],
      by simp [kahn_dequeued]⟩
    intro s' hs'
    simp only [kahn_states, List.mem_singleton] at hs'
    subst hs'
    exact ⟨R, hi, hk⟩
  | succ fuel ih =>
    intro s R hi hc hk
    cases hq : s.queue with
    | nil =>
      refine ⟨?_, by simp [kahn_dequeued, hq], by simp [kahn_dequeued, hq],
        by simp [kahn_dequeued, kahn_enqueued, hq], s, by simp [kahn_loop, hq], hq,
        by simp [kahn_states, hq], by simp [kahn_states, kahn_dequeued, hq],
        by simp [kahn_dequeued, hq]⟩
      intro s' hs'
      simp only [kahn_states, hq, List.mem_singleton] at hs'
      subst hs'
      exact ⟨R, hi, hk⟩
    | cons node rest =>
      have hnode : node ∈ R :=
        ((hi.queue_iff node).1 (by rw [hq]; exact List.mem_cons_self _ _)).1
      have h1 := Finset.card_erase_of_mem hnode
      have h2 : 0 < R.card := Finset.card_pos.2 ⟨node, hnode⟩
      have hi1 := kahn_step_inv hr hi hq
      have hfacts := (kahn_state_facts hr hi hk).2.2.2 node rest hq
      have hk1 : keys (kahn_step s node rest).indegree_copy = keys g.graph_ := by
        rw [(kahn_step_eq_inner s node rest).1]
        exact (hfacts.2.2 _).1
      obtain ⟨hst, hnd, hsub, henq, s', hl, hq', hlast, hlen, hpc⟩ :=
        ih (kahn_step s node rest) (R.erase node) hi1 (by omega) hk1
      refine ⟨?_, ?_, ?_, ?_, s', by simp [kahn_loop, hq, hl], hq', ?_, ?_, ?_⟩
      · intro t ht
        simp only [kahn_states, hq, List.mem_cons] at ht
        rcases ht with rfl | ht
        · exact ⟨R, hi, hk⟩
        · exact hst t ht
      · simp only [kahn_dequeued, hq]
        refine List.nodup_cons.2 ⟨?_, hnd⟩
        intro hmem
        exact (Finset.mem_erase.1 (hsub node hmem)).1 rfl
      · intro v hv
        simp only [kahn_dequeued, hq, List.mem_cons] at hv
        rcases hv with rfl | hv
        · exact hnode
        · exact Finset.mem_of_mem_erase (hsub v hv)
      · simp only [kahn_dequeued, kahn_enqueued, hq]
        rw [← henq, queue_kahn_step]
        simp
      · simp only [kahn_states, hq]
        cases hks : kahn_states fuel (kahn_step s node rest) with
        | nil => rw [hks] at hlast; simp at hlast
        | cons a l => rw [hks] at hlast; rw [List.getLast?_cons_cons]; exact hlast
      · simp only [kahn_states, kahn_dequeued, hq, List.length_cons, hlen]
      · rw [hpc]
        simp only [kahn_dequeued, hq, List.length_cons]
        have : (kahn_step s node rest).processed_count = s.processed_count + 1 := rfl
        omega

end DirectedGraph
namespace DirectedGraph

open StdMap

/-- The run of `has_cycle` on a graph that stores an edge list. -/
theorem has_cycle_run_spec {g : DirectedGraph} {es : List (Nat × Nat)} (hr : Represents g es) :
    (∀ s, s ∈ g.states →
      ∃ R, KahnInv g es s R ∧ keys s.indegree_copy = keys g.graph_) ∧
      g.dequeued.Nodup ∧ (∀ v, v ∈ g.dequeued → v ∈ keys g.graph_) ∧
      g.enqueued = g.dequeued ∧
      ∃ s, kahn_run g = some s ∧ s.queue = [] ∧ g.states.getLast? = some s ∧
        g.states.length = g.dequeued.length + 1 ∧
        s.processed_count = g.dequeued.length := by
  have hcard : (keys g.graph_).toFinset.card ≤ g.graph_.length := by
    rw [List.toFinset_card_of_nodup (nodup_keys hr.ordered)]
    simp [keys]
  obtain ⟨hst, hnd, hsub, henq, s, hl, hq, hlast, hlen, hpc⟩ :=
    kahn_loop_trace hr g.graph_.length g.kahn_init _ (kahn_init_inv hr) hcard
      (keys_copy_indegrees g hr.ordered)
  refine ⟨hst, hnd, ?_, henq, s, hl, hq, hlast, hlen, ?_⟩
  · intro v hv
    exact List.mem_toFinset.1 (hsub v hv)
  · rw [hpc]
    show 0 + _ = _
    rw [Nat.zero_add]
    rfl

theorem entries_nonneg {ic : StdMap Int} (ho : ic.Ordered) (h : ∀ v, 0 ≤ working ic v)
    (p : Nat × Int) (hp : p ∈ ic) : 0 ≤ p.2 := by
  obtain ⟨k, x⟩ := p
  have := h k
  rw [working, find_of_mem ho hp] at this
  exact this

end DirectedGraph

/-! ## The background worker, pass by pass -/

namespace DeadlockDetector

open StdMap DirectedGraph

theorem run_hooks_append (d : DeadlockDetector) (a b : List HookCall) :
    d.run_hooks (a ++ b) = (d.run_hooks a).run_hooks b := by
  simp [run_hooks, List.foldl_append]

/-- The holders and waiters tables after a sequence of hook calls depend only
on the holders and waiters tables before it. -/
theorem run_hooks_tables_congr (calls : List HookCall) :
    ∀ d e : DeadlockDetector, d.lock_owners_ = e.lock_owners_ →
      d.thread_waiting_ = e.thread_waiting_ →
      (d.run_hooks calls).lock_owners_ = (e.run_hooks calls).lock_owners_ ∧
        (d.run_hooks calls).thread_waiting_ = (e.run_hooks calls).thread_waiting_ := by
  induction calls with
  | nil => intro d e h1 h2; exact ⟨h1, h2⟩
  | cons c rest ih =>
    intro d e h1 h2
    simp only [run_hooks, List.foldl_cons]
    apply ih
    · cases c <;> simp [apply_hook, on_lock_before, on_lock_after, on_unlock_after, h1]
    · cases c <;> simp [apply_hook, on_lock_before, on_lock_after, on_unlock_after, h2]

/-- The flag `check_deadlock()` returns depends only on the holders and waiters
tables. -/
theorem check_deadlock_flag_congr (d e : DeadlockDetector)
    (h1 : d.lock_owners_ = e.lock_owners_) (h2 : d.thread_waiting_ = e.thread_waiting_) :
    d.check_deadlock.map Prod.fst = e.check_deadlock.map Prod.fst := by
  have hg : d.build_waiting_graph.graph_ = e.build_waiting_graph.graph_ := by
    rw [build_waiting_graph_graph, build_waiting_graph_graph, h1, h2]
  simp only [check_deadlock, hg]
  cases e.build_waiting_graph.graph_.has_cycle with
  | none => rfl
  | some r => rfl

theorem during_fields (env : PassEnv) (d : DeadlockDetector) :
    (env.during d).lock_owners_ = (d.run_hooks env.late_calls).lock_owners_ ∧
      (env.during d).thread_waiting_ = (d.run_hooks env.late_calls).thread_waiting_ ∧
      (env.during d).deadlock_detected_ = d.deadlock_detected_ ∧
      (env.during d).running_ = (d.running_ && !env.stop_during) := by
  have hf := run_hooks_flags env.late_calls d
  unfold PassEnv.during
  cases env.stop_during <;> simp [hf.1, hf.2]

theorem stop_seen_zero (env : PassEnv) (rest : List PassEnv) :
    stop_seen (env :: rest) 0 = env.stop_requested := by
  simp [stop_seen]

theorem stop_seen_succ (env : PassEnv) (rest : List PassEnv) (j : Nat) :
    stop_seen (env :: rest) (j + 1) =
      (env.stop_requested || env.stop_during || stop_seen rest j) := by
  simp only [stop_seen, List.take_succ_cons, List.any_cons]
  cases env.stop_requested <;> cases env.stop_during <;> simp

theorem calls_before_zero (env : PassEnv) (rest : List PassEnv) :
    calls_before (env :: rest) 0 = env.calls := by
  simp [calls_before]

theorem calls_before_succ (env : PassEnv) (rest : List PassEnv) (j : Nat) :
    calls_before (env :: rest) (j + 1) = env.calls ++ env.late_calls ++ calls_before rest j := by
  simp [calls_before]

/-- A run of the worker that starts with `deadlock_detected_` clear.  The worker
executes pass after pass, each on the tables as the hook calls made so far
have left them, until for the first time either `running_` is `false` when the
loop condition is read (the worker leaves without a report) or
`check_deadlock()` returns `true` (the worker sets `deadlock_detected_`,
reports and leaves); the passes before that one return `false` and report
nothing. -/
theorem detector_loop_run (envs : List PassEnv) :
    ∀ d : DeadlockDetector, d.deadlock_detected_ = false →
      ∃ o k, d.detector_loop envs = some o ∧ k ≤ envs.length ∧
        (∀ j, j < k → (d.running_ && !stop_seen envs j) = true ∧
          (d.run_hooks (calls_before envs j)).check_deadlock.map Prod.fst = some false) ∧
        ((k = envs.length ∧
            o.passes = List.replicate k { result := false, reported := false } ∧
            o.exited = false ∧ o.detector.deadlock_detected_ = false) ∨
          (k < envs.length ∧ (d.running_ && !stop_seen envs k) = false ∧
            o.passes = List.replicate k { result := false, reported := false } ∧
            o.exited = true ∧ o.detector.deadlock_detected_ = false) ∨
          (k < envs.length ∧ (d.running_ && !stop_seen envs k) = true ∧
            (d.run_hooks (calls_before envs k)).check_deadlock.map Prod.fst = some true ∧
            o.passes = List.replicate k { result := false, reported := false } ++
              [{ result := true, reported := true }] ∧
            o.exited = true ∧ o.detector.deadlock_detected_ = true)) := by
  induction envs with
  | nil =>
    intro d hd
    exact ⟨_, 0, rfl, Nat.le_refl _, fun j hj => absurd hj (Nat.not_lt_zero j),
      Or.inl ⟨rfl, rfl, rfl, hd⟩⟩
  | cons env rest ih =>
    intro d hd
    obtain ⟨d1, hd1def⟩ :
        ∃ d1, d1 = if env.stop_requested then { d with running_ := false } else d := ⟨_, rfl⟩
    have hloop : d.detector_loop (env :: rest) =
        if !d1.running_ then some { detector := d1, passes := [], exited := true }
        else
          match (d1.run_hooks env.calls).check_deadlock with
          | none => none
          | some (res, d3) =>
            if res && !d3.deadlock_detected_ then
              some { detector := env.during { d3 with deadlock_detected_ := true },
                     passes := [{ result := res, reported := true }], exited := true }
            else
              match detector_loop (env.during d3) rest with
              | none => none
              | some o =>
                some { o with passes := { result := res, reported := false } :: o.passes } := by
      rw [hd1def]; rfl
    have hdd1 : d1.deadlock_detected_ = false := by
      rw [hd1def]; split_ifs <;> exact hd
    have hrun1 : d1.running_ = (d.running_ && !env.stop_requested) := by
      rw [hd1def]; cases env.stop_requested <;> simp
    rw [hloop]
    cases hrun : d1.running_ with
    | false =>
      refine ⟨{ detector := d1, passes := [], exited := true }, 0, by simp, Nat.zero_le _,
        fun j hj => absurd hj (Nat.not_lt_zero j), Or.inr (Or.inl ⟨by simp, ?_, rfl, rfl, hdd1⟩)⟩
      rw [stop_seen_zero, ← hrun1, hrun]
    | true =>
      have hdr : d.running_ = true ∧ env.stop_requested = false := by
        rw [hrun1] at hrun
        cases h1 : d.running_ <;> cases h2 : env.stop_requested <;> simp_all
      have hd1 : d1 = d := by rw [hd1def, hdr.2]; rfl
      rw [hd1] at hdd1 hrun ⊢
      obtain ⟨res, hres⟩ := check_deadlock_some (d.run_hooks env.calls)
      have hflags := run_hooks_flags env.calls d
      have hd3 : (d.run_hooks env.calls).build_waiting_graph.deadlock_detected_ = false := by
        show (d.run_hooks env.calls).deadlock_detected_ = false
        rw [hflags.2, hdd1]
      have hr3 : (d.run_hooks env.calls).build_waiting_graph.running_ = true := by
        show (d.run_hooks env.calls).running_ = true
        rw [hflags.1, hrun]
      have hseen0 : (d.running_ && !stop_seen (env :: rest) 0) = true := by
        rw [stop_seen_zero, hdr.1, hdr.2]; rfl
      have hcheck0 : (d.run_hooks (calls_before (env :: rest) 0)).check_deadlock.map Prod.fst =
          some res := by
        rw [calls_before_zero, hres]; rfl
      cases res with
      | true =>
        refine ⟨LoopOutcome.mk
            (env.during
              { (d.run_hooks env.calls).build_waiting_graph with deadlock_detected_ := true })
            [{ result := true, reported := true }] true, 0, ?_, Nat.zero_le _,
          fun j hj => absurd hj (Nat.not_lt_zero j),
          Or.inr (Or.inr ⟨by simp, hseen0, hcheck0, rfl, rfl, ?_⟩)⟩
        · simp [hres, hd3]
        · rw [(during_fields env _).2.2.1]
      | false =>
        have hdur := during_fields env (d.run_hooks env.calls).build_waiting_graph
        have hd5 : (env.during (d.run_hooks env.calls).build_waiting_graph).deadlock_detected_ =
            false := by rw [hdur.2.2.1, hd3]
        have hr5 : (env.during (d.run_hooks env.calls).build_waiting_graph).running_ =
            !env.stop_during := by rw [hdur.2.2.2, hr3]; simp
        obtain ⟨o, k, ho, hk, hpre, hshape⟩ := ih _ hd5
        have hseen : ∀ j, (d.running_ && !stop_seen (env :: rest) (j + 1)) =
            ((env.during (d.run_hooks env.calls).build_waiting_graph).running_ &&
              !stop_seen rest j) := by
          intro j
          rw [stop_seen_succ, hr5, hdr.1, hdr.2]
          cases env.stop_during <;> simp
        have hcheck : ∀ j, (d.run_hooks (calls_before (env :: rest) (j + 1))).check_deadlock.map
            Prod.fst =
            ((env.during (d.run_hooks env.calls).build_waiting_graph).run_hooks
              (calls_before rest j)).check_deadlock.map Prod.fst := by
          intro j
          rw [calls_before_succ, run_hooks_append, run_hooks_append]
          have h0 := run_hooks_tables_congr env.late_calls (d.run_hooks env.calls)
            (d.run_hooks env.calls).build_waiting_graph rfl rfl
          have h1 := run_hooks_tables_congr (calls_before rest j)
            ((d.run_hooks env.calls).run_hooks env.late_calls)
            (env.during (d.run_hooks env.calls).build_waiting_graph)
            (by rw [hdur.1]; exact h0.1) (by rw [hdur.2.1]; exact h0.2)
          exact check_deadlock_flag_congr _ _ h1.1 h1.2
        refine ⟨{ o with passes := { result := false, reported := false } :: o.passes },
          k + 1, ?_, by simp only [List.length_cons]; omega, ?_, ?_⟩
        · simp [hres, ho]
        · intro j hj
          cases j with
          | zero => exact ⟨hseen0, hcheck0⟩
          | succ j =>
            rw [hseen, hcheck]
            exact hpre j (by omega)
        · rcases hshape with ⟨h1, h2, h3, h4⟩ | ⟨h1, h2, h3, h4, h5⟩ | ⟨h1, h2, h3, h4, h5, h6⟩
          · exact Or.inl ⟨by simp only [List.length_cons]; omega,
              by simp [h2, List.replicate_succ], h3, h4⟩
          · exact Or.inr (Or.inl ⟨by simp only [List.length_cons]; omega, by rw [hseen]; exact h2,
              by simp [h3, List.replicate_succ], h4, h5⟩)
          · exact Or.inr (Or.inr ⟨by simp only [List.length_cons]; omega, by rw [hseen]; exact h2,
              by rw [hcheck]; exact h3, by simp [h4, List.replicate_succ], h5, h6⟩)

end DeadlockDetector

/-- A `stop()` call whose store lands while the worker is in the pass that finds
the cycle: the worker still reports and leaves, and `running_` is `false`. -/
theorem detector_loop_stop_during_report :
    ((DeadlockDetector.init.start 1).1.detector_loop
        [DeadlockDetector.sample_self_loop_stop_env]).map
        (fun o => (o.passes, o.exited, o.detector.is_running)) =
      some ([{ result := true, reported := true }], true, false) := by
  decide

/-! ## Cycle detection: contract theorems -/

section Contracts

open StdMap DirectedGraph DeadlockDetector

/-- C1: for every state of the holders and waiters tables (the waiters table
being a `std::map`, keys ascending), `check_deadlock()` returns, leaving the
rebuilt graph behind, and its result is `true` if and only if the tables contain
a circular wait `waiters[t_i] = L_i`, `holders[L_i] = t_((i+1) mod k)`; so a
`true` result is never a false positive for the tables it read. -/
theorem check_deadlock_iff_circular_wait (d : DeadlockDetector)
    (hW : d.thread_waiting_.Ordered) :
    ∃ b, d.check_deadlock = some (b, d.build_waiting_graph) ∧
      (b = true ↔ CircularWait d.lock_owners_ d.thread_waiting_) :=
  check_deadlock_spec d hW

theorem check_deadlock_iff_circular_wait_witness :
    sample_ab_ba.thread_waiting_.Ordered ∧
      ∃ b, sample_ab_ba.check_deadlock = some (b, sample_ab_ba.build_waiting_graph) ∧
        (b = true ↔ CircularWait sample_ab_ba.lock_owners_ sample_ab_ba.thread_waiting_) :=
  ⟨by decide, check_deadlock_iff_circular_wait sample_ab_ba (by decide)⟩

/-- C2: on every graph built from the empty graph by a finite sequence of
`add_edge` calls (parallel edges and self-loops allowed) that contains a
directed cycle, `has_cycle()` returns `true` (and leaves the graph unchanged). -/
theorem has_cycle_true_of_cycle (es : List (Nat × Nat))
    (h : (of_edges es).contains_cycle) :
    (of_edges es).has_cycle = some (true, of_edges es) := by
  obtain ⟨b, hb, hiff⟩ := has_cycle_represents (represents_of_edges es)
  have : b = true := hiff.2 h
  rw [hb, this]

theorem has_cycle_true_of_cycle_witness :
    (of_edges [(1, 2), (1, 2), (2, 2), (3, 1)]).contains_cycle ∧
      (of_edges [(1, 2), (1, 2), (2, 2), (3, 1)]).has_cycle =
        some (true, of_edges [(1, 2), (1, 2), (2, 2), (3, 1)]) := by
  have hc : (of_edges [(1, 2), (1, 2), (2, 2), (3, 1)]).contains_cycle :=
    ⟨2, Relation.TransGen.single (by unfold DirectedGraph.edge; decide)⟩
  exact ⟨hc, has_cycle_true_of_cycle _ hc⟩

/-- C3: on every graph built from the empty graph by a finite sequence of
`add_edge` calls whose edges form a directed acyclic graph (parallel edges
allowed), `has_cycle()` returns `false`, and the reduction leaves its loop
with an empty queue having processed every vertex. -/
theorem has_cycle_false_of_acyclic (es : List (Nat × Nat))
    (h : ¬ (of_edges es).contains_cycle) :
    (of_edges es).has_cycle = some (false, of_edges es) ∧
      ∃ s, kahn_run (of_edges es) = some s ∧ s.queue = [] ∧
        s.processed_count = (of_edges es).size := by
  have hr := represents_of_edges es
  constructor
  · obtain ⟨b, hb, hiff⟩ := has_cycle_represents hr
    have hbf : b = false := by
      cases b with
      | false => rfl
      | true => exact absurd (hiff.1 rfl) h
    rw [hb, hbf]
  · obtain ⟨s, R, hrun, hi, hq⟩ := kahn_run_spec hr
    exact ⟨s, hrun, hq, (kahn_final hr hi hq).2 h⟩

theorem has_cycle_false_of_acyclic_witness :
    ¬ (of_edges [(1, 2), (2, 3), (1, 3), (1, 3)]).contains_cycle ∧
      ((of_edges [(1, 2), (2, 3), (1, 3), (1, 3)]).has_cycle =
          some (false, of_edges [(1, 2), (2, 3), (1, 3), (1, 3)]) ∧
        ∃ s, kahn_run (of_edges [(1, 2), (2, 3), (1, 3), (1, 3)]) = some s ∧ s.queue = [] ∧
          s.processed_count = (of_edges [(1, 2), (2, 3), (1, 3), (1, 3)]).size) := by
  have hc : ¬ (of_edges [(1, 2), (2, 3), (1, 3), (1, 3)]).contains_cycle :=
    not_contains_cycle_of_increasing _ (by decide)
  exact ⟨hc, has_cycle_false_of_acyclic _ hc⟩

/-- C4: `has_cycle()` on the empty graph returns `false`, both for a freshly
constructed graph and for any graph right after `clear()`. -/
theorem has_cycle_empty_graph :
    DirectedGraph.empty.has_cycle = some (false, DirectedGraph.empty) ∧
      ∀ g : DirectedGraph, g.clear.has_cycle = some (false, g.clear) :=
  ⟨rfl, fun _ => rfl⟩

/-- C5: for every holders table `H` and waiters table `W`, after
`build_waiting_graph` the edges of the graph are, as a multiset, the pairs
`(t, H[L])` with `W[t] = L` and `L` a key of `H`: the edge `(a, b)` occurs once
when `a` waits for a lock whose recorded holder is `b` and not at all
otherwise; in particular a waiting thread whose awaited lock is absent from
`H` has no outgoing edge. -/
theorem build_waiting_graph_edges (d : DeadlockDetector) (hW : d.thread_waiting_.Ordered) :
    List.Perm d.build_waiting_graph.graph_.edges
        (wait_edges d.lock_owners_ d.thread_waiting_) ∧
      (∀ a b, List.count (a, b) d.build_waiting_graph.graph_.edges =
        if (d.thread_waiting_.find a).bind d.lock_owners_.find = some b then 1 else 0) ∧
      (∀ t L, d.thread_waiting_.find t = some L → d.lock_owners_.find L = none →
        ∀ b, (t, b) ∉ d.build_waiting_graph.graph_.edges) := by
  have hr := build_waiting_graph_represents d
  have hcount : ∀ a b, List.count (a, b) d.build_waiting_graph.graph_.edges =
      if (d.thread_waiting_.find a).bind d.lock_owners_.find = some b then 1 else 0 := by
    intro a b
    rw [count_eq_multiplicity, multiplicity_edges_represents hr,
      multiplicity_wait_edges _ _ hW]
  refine ⟨edges_perm hr, hcount, ?_⟩
  intro t L ht hL b hmem
  have hm : multiplicity d.build_waiting_graph.graph_.edges t b = 0 := by
    rw [multiplicity_edges_represents hr, multiplicity_wait_edges _ _ hW, ht]
    simp [hL]
  have hpos : 0 < multiplicity d.build_waiting_graph.graph_.edges t b :=
    List.countP_pos_iff.2 ⟨(t, b), hmem, by simp⟩
  omega

theorem build_waiting_graph_edges_witness :
    sample_ab_ba.thread_waiting_.Ordered ∧
      (List.Perm sample_ab_ba.build_waiting_graph.graph_.edges
          (wait_edges sample_ab_ba.lock_owners_ sample_ab_ba.thread_waiting_) ∧
        (∀ a b, List.count (a, b) sample_ab_ba.build_waiting_graph.graph_.edges =
          if (sample_ab_ba.thread_waiting_.find a).bind sample_ab_ba.lock_owners_.find = some b
          then 1 else 0) ∧
        (∀ t L, sample_ab_ba.thread_waiting_.find t = some L →
          sample_ab_ba.lock_owners_.find L = none →
          ∀ b, (t, b) ∉ sample_ab_ba.build_waiting_graph.graph_.edges)) :=
  ⟨by decide, build_waiting_graph_edges sample_ab_ba (by decide)⟩

/-- C6: starting from empty tables, after every finite sequence of calls of
`on_lock_before`, `on_lock_after` and `on_unlock_after` with arbitrary
arguments, the waiters table and the contexts table have the same keys. -/
theorem waiters_contexts_same_keys (calls : List HookCall) :
    keys (init.run_hooks calls).thread_waiting_ = keys (init.run_hooks calls).thread_stacks_ ∧
      ∀ t, t ∈ keys (init.run_hooks calls).thread_waiting_ ↔
        t ∈ keys (init.run_hooks calls).thread_stacks_ := by
  have h := run_hooks_keys calls init rfl
  exact ⟨h, fun t => by rw [h]⟩

/-- C7: `on_lock_before(tid, lock)` yields a state with `waiters[tid] = lock`
and `contexts[tid] = "[Stack trace placeholder]"`, whatever was recorded for
`tid` before; the waiters and contexts entries of every other thread and the
holders table are unchanged. -/
theorem on_lock_before_effect (d : DeadlockDetector) (tid lock : Nat) :
    (d.on_lock_before tid lock).thread_waiting_.find tid = some lock ∧
      (d.on_lock_before tid lock).thread_stacks_.find tid = some "[Stack trace placeholder]" ∧
      (∀ t, t ≠ tid →
        (d.on_lock_before tid lock).thread_waiting_.find t = d.thread_waiting_.find t ∧
        (d.on_lock_before tid lock).thread_stacks_.find t = d.thread_stacks_.find t) ∧
      (d.on_lock_before tid lock).lock_owners_ = d.lock_owners_ := by
  refine ⟨find_put_self _ _ _, find_put_self _ _ _, ?_, rfl⟩
  intro t ht
  exact ⟨find_put_ne _ _ ht, find_put_ne _ _ ht⟩

/-- C8: `on_lock_after(tid, lock)` yields a state in which `tid` is a key of
neither waiters nor contexts and `holders[lock] = tid`, whatever holder was
recorded before; every other entry of the three tables is unchanged. -/
theorem on_lock_after_effect (d : DeadlockDetector) (tid lock : Nat) :
    tid ∉ keys (d.on_lock_after tid lock).thread_waiting_ ∧
      tid ∉ keys (d.on_lock_after tid lock).thread_stacks_ ∧
      (d.on_lock_after tid lock).lock_owners_.find lock = some tid ∧
      (∀ t, t ≠ tid →
        (d.on_lock_after tid lock).thread_waiting_.find t = d.thread_waiting_.find t ∧
        (d.on_lock_after tid lock).thread_stacks_.find t = d.thread_stacks_.find t) ∧
      (∀ l, l ≠ lock →
        (d.on_lock_after tid lock).lock_owners_.find l = d.lock_owners_.find l) := by
  refine ⟨?_, ?_, find_put_self _ _ _, ?_, ?_⟩
  · rw [← find_eq_none_iff]; exact find_erase_self _ _
  · rw [← find_eq_none_iff]; exact find_erase_self _ _
  · intro t ht
    exact ⟨find_erase_ne _ ht, find_erase_ne _ ht⟩
  · intro l hl
    exact find_put_ne _ _ hl

/-- C9: `on_unlock_after(tid, lock)` yields a state in which `lock` is not a
key of holders while every other holders entry, the waiters table and the
contexts table are unchanged; when `lock` was not a key of holders the whole
state is unchanged.  The hook is a total function: it raises no error. -/
theorem on_unlock_after_effect (d : DeadlockDetector) (tid lock : Nat) :
    lock ∉ keys (d.on_unlock_after tid lock).lock_owners_ ∧
      (∀ l, l ≠ lock →
        (d.on_unlock_after tid lock).lock_owners_.find l = d.lock_owners_.find l) ∧
      (d.on_unlock_after tid lock).thread_waiting_ = d.thread_waiting_ ∧
      (d.on_unlock_after tid lock).thread_stacks_ = d.thread_stacks_ ∧
      (lock ∉ keys d.lock_owners_ → d.on_unlock_after tid lock = d) := by
  refine ⟨?_, ?_, rfl, rfl, ?_⟩
  · rw [← find_eq_none_iff]; exact find_erase_self _ _
  · intro l hl
    exact find_erase_ne _ hl
  · intro h
    simp only [on_unlock_after, erase_of_not_mem h]

/-- C10: AB/BA deadlock.  For distinct threads `T1`, `T2` and distinct locks
`L1`, `L2`, starting from empty tables, after any interleaving (each thread's
own order kept) of the hooks of `T1` acquiring `L1` then requesting `L2` and of
`T2` acquiring `L2` then requesting `L1`, `check_deadlock()` returns `true` and
the built graph has exactly the vertices `T1`, `T2` and exactly the edges
`T1 → T2` and `T2 → T1`. -/
theorem ab_ba_deadlock_detected (T1 T2 L1 L2 : Nat) (hT : T1 ≠ T2) (hL : L1 ≠ L2)
    (calls : List HookCall)
    (hc : calls ∈ interleavings
      [HookCall.lock_before T1 L1, HookCall.lock_after T1 L1, HookCall.lock_before T1 L2]
      [HookCall.lock_before T2 L2, HookCall.lock_after T2 L2, HookCall.lock_before T2 L1]) :
    (init.run_hooks calls).check_deadlock =
        some (true, (init.run_hooks calls).build_waiting_graph) ∧
      (∀ v, v ∈ (init.run_hooks calls).build_waiting_graph.graph_.get_all_nodes ↔
        v = T1 ∨ v = T2) ∧
      List.Perm (init.run_hooks calls).build_waiting_graph.graph_.edges
        [(T1, T2), (T2, T1)] := by
  obtain ⟨hWf, hHf⟩ := ab_ba_tables T1 T2 L1 L2 hT hL calls hc
  have hW : (init.run_hooks calls).thread_waiting_.Ordered :=
    run_hooks_ordered calls init (by simp [init, Ordered, keys])
  exact ab_ba_of_tables _ T1 T2 L1 L2 hT hL hW hWf hHf

theorem ab_ba_deadlock_detected_witness :
    (1 : Nat) ≠ 2 ∧ (10 : Nat) ≠ 20 ∧
      [HookCall.lock_before 1 10, HookCall.lock_before 2 20, HookCall.lock_after 1 10,
          HookCall.lock_after 2 20, HookCall.lock_before 2 10, HookCall.lock_before 1 20] ∈
        interleavings
          [HookCall.lock_before 1 10, HookCall.lock_after 1 10, HookCall.lock_before 1 20]
          [HookCall.lock_before 2 20, HookCall.lock_after 2 20, HookCall.lock_before 2 10] ∧
      ((init.run_hooks
          [HookCall.lock_before 1 10, HookCall.lock_before 2 20, HookCall.lock_after 1 10,
            HookCall.lock_after 2 20, HookCall.lock_before 2 10,
            HookCall.lock_before 1 20]).check_deadlock =
          some (true, (init.run_hooks
            [HookCall.lock_before 1 10, HookCall.lock_before 2 20, HookCall.lock_after 1 10,
              HookCall.lock_after 2 20, HookCall.lock_before 2 10,
              HookCall.lock_before 1 20]).build_waiting_graph) ∧
        (∀ v, v ∈ (init.run_hooks
            [HookCall.lock_before 1 10, HookCall.lock_before 2 20, HookCall.lock_after 1 10,
              HookCall.lock_after 2 20, HookCall.lock_before 2 10,
              HookCall.lock_before 1 20]).build_waiting_graph.graph_.get_all_nodes ↔
          v = 1 ∨ v = 2) ∧
        List.Perm (init.run_hooks
            [HookCall.lock_before 1 10, HookCall.lock_before 2 20, HookCall.lock_after 1 10,
              HookCall.lock_after 2 20, HookCall.lock_before 2 10,
              HookCall.lock_before 1 20]).build_waiting_graph.graph_.edges
          [(1, 2), (2, 1)]) :=
  ⟨by decide, by decide, by simp [interleavings],
    ab_ba_deadlock_detected 1 2 10 20 (by decide) (by decide) _ (by simp [interleavings])⟩

/-- C13: transient wait.  For distinct threads `T1`, `T2` and any lock `L1`, in
a state with holders `{L1 ↦ T1}` and waiters `{T2 ↦ L1}` the built graph has
exactly the single edge `T2 → T1` and `check_deadlock()` returns `false`. -/
theorem transient_wait_no_deadlock (d : DeadlockDetector) (T1 T2 L1 : Nat) (hT : T1 ≠ T2)
    (hH : d.lock_owners_ = [(L1, T1)]) (hWt : d.thread_waiting_ = [(T2, L1)]) :
    d.check_deadlock = some (false, d.build_waiting_graph) ∧
      d.build_waiting_graph.graph_.edges = [(T2, T1)] := by
  have hW : d.thread_waiting_.Ordered := by rw [hWt]; simp [Ordered, keys]
  have hwf : ∀ a b, waits_for d.lock_owners_ d.thread_waiting_ a b ↔ (a = T2 ∧ b = T1) := by
    intro a b
    unfold waits_for
    rw [hH, hWt]
    by_cases ha : a = T2
    · subst ha
      simp [find, eq_comm]
    · simp [find, ha]
  constructor
  · apply check_deadlock_false_of_no_wait d hW
    rw [circularWait_iff]
    rintro ⟨v, hv⟩
    obtain ⟨c, hvc, _⟩ := Relation.TransGen.head'_iff.1 hv
    obtain ⟨c', _, hcv⟩ := Relation.TransGen.tail'_iff.1 hv
    have h1 := ((hwf _ _).1 hvc).1
    have h2 := ((hwf _ _).1 hcv).2
    exact hT (h2.symm.trans h1)
  · have hg := (graph_of_waits d hW [(T2, T1)] (by simp) (by
      intro a b
      rw [hwf]
      simp)).2
    exact List.perm_singleton.1 hg

theorem transient_wait_no_deadlock_witness :
    (1 : Nat) ≠ 2 ∧
      ({ init with lock_owners_ := [(10, 1)], thread_waiting_ := [(2, 10)] } :
          DeadlockDetector).check_deadlock =
        some (false, ({ init with lock_owners_ := [(10, 1)], thread_waiting_ := [(2, 10)] } :
          DeadlockDetector).build_waiting_graph) ∧
      ({ init with lock_owners_ := [(10, 1)], thread_waiting_ := [(2, 10)] } :
          DeadlockDetector).build_waiting_graph.graph_.edges = [(2, 1)] :=
  ⟨by decide, transient_wait_no_deadlock _ 1 2 10 (by decide) rfl rfl⟩

/-- C14: self-loop.  Starting from empty tables, after `on_lock_before(T1, L1)`,
`on_lock_after(T1, L1)`, `on_lock_before(T1, L1)` the tables are
`waiters = {T1 ↦ L1}` and `holders = {L1 ↦ T1}`, `check_deadlock()` returns
`true`, and the built graph has the only vertex `T1` and the only edge
`T1 → T1`. -/
theorem self_loop_detected (T1 L1 : Nat) :
    (init.run_hooks [HookCall.lock_before T1 L1, HookCall.lock_after T1 L1,
        HookCall.lock_before T1 L1]).thread_waiting_ = [(T1, L1)] ∧
      (init.run_hooks [HookCall.lock_before T1 L1, HookCall.lock_after T1 L1,
        HookCall.lock_before T1 L1]).lock_owners_ = [(L1, T1)] ∧
      (init.run_hooks [HookCall.lock_before T1 L1, HookCall.lock_after T1 L1,
        HookCall.lock_before T1 L1]).check_deadlock =
        some (true, (init.run_hooks [HookCall.lock_before T1 L1, HookCall.lock_after T1 L1,
          HookCall.lock_before T1 L1]).build_waiting_graph) ∧
      (init.run_hooks [HookCall.lock_before T1 L1, HookCall.lock_after T1 L1,
        HookCall.lock_before T1 L1]).build_waiting_graph.graph_.get_all_nodes = [T1] ∧
      (init.run_hooks [HookCall.lock_before T1 L1, HookCall.lock_after T1 L1,
        HookCall.lock_before T1 L1]).build_waiting_graph.graph_.edges = [(T1, T1)] := by
  have hWt : (init.run_hooks [HookCall.lock_before T1 L1, HookCall.lock_after T1 L1,
      HookCall.lock_before T1 L1]).thread_waiting_ = [(T1, L1)] := by
    simp [run_hooks, apply_hook, on_lock_before, on_lock_after, init, put, erase]
  have hH : (init.run_hooks [HookCall.lock_before T1 L1, HookCall.lock_after T1 L1,
      HookCall.lock_before T1 L1]).lock_owners_ = [(L1, T1)] := by
    simp [run_hooks, apply_hook, on_lock_before, on_lock_after, init, put, erase]
  have hg : (init.run_hooks [HookCall.lock_before T1 L1, HookCall.lock_after T1 L1,
      HookCall.lock_before T1 L1]).build_waiting_graph.graph_ =
      ⟨[(T1, { indegree := 1, neighbors := [T1] })]⟩ := by
    simp only [build_waiting_graph, get_snapshot, hWt, hH]
    simp [find, DirectedGraph.clear, add_edge, ensure_node_exists, put]
    exact ⟨rfl, rfl⟩
  have hW : (init.run_hooks [HookCall.lock_before T1 L1, HookCall.lock_after T1 L1,
      HookCall.lock_before T1 L1]).thread_waiting_.Ordered := by
    rw [hWt]; simp [Ordered, keys]
  refine ⟨hWt, hH, ?_, ?_, ?_⟩
  · apply check_deadlock_true_of_wait _ hW
    rw [hWt, hH]
    refine ⟨1, le_refl 1, fun _ => T1, fun _ => L1, ?_⟩
    intro i _
    simp [find]
  · rw [hg]; rfl
  · rw [hg]; rfl

/-- C15: for every graph and identifiers `a` (from) and `b` (to),
`add_edge(a, b)` makes `a` and `b` vertices (a vertex created on demand has
indegree 0 and no out-neighbours), appends one occurrence of `b` to the
out-neighbour list of `a`, raises the indegree of `b` by one, and leaves every
other vertex as it was; `k` calls with the same pair append `k` occurrences of
`b` and raise the indegree of `b` by `k`. -/
theorem add_edge_effect (g : DirectedGraph) (a b : Nat) :
    a ∈ keys (g.add_edge a b).graph_ ∧ b ∈ keys (g.add_edge a b).graph_ ∧
      (∀ w, w ∈ keys (g.add_edge a b).graph_ ↔ w = a ∨ w = b ∨ w ∈ keys g.graph_) ∧
      (∀ v, v ∉ keys g.graph_ →
        (g.ensure_node_exists v).graph_.find v = some { indegree := 0, neighbors := [] }) ∧
      (∀ w, (g.add_edge a b).out_neighbors w =
        g.out_neighbors w ++ (if w = a then [b] else [])) ∧
      (∀ w, (g.add_edge a b).stored_indegree w =
        g.stored_indegree w + (if w = b then 1 else 0)) ∧
      (∀ w, w ≠ a → w ≠ b → (g.add_edge a b).graph_.find w = g.graph_.find w) ∧
      (∀ k w,
        (Nat.iterate (fun h => DirectedGraph.add_edge h a b) k g).out_neighbors w =
            g.out_neighbors w ++ (if w = a then List.replicate k b else []) ∧
          (Nat.iterate (fun h => DirectedGraph.add_edge h a b) k g).stored_indegree w =
            g.stored_indegree w + (if w = b then (k : Int) else 0)) := by
  refine ⟨?_, ?_, mem_keys_add_edge g a b, ?_, out_neighbors_add_edge g a b,
    stored_indegree_add_edge g a b, ?_, ?_⟩
  · exact (mem_keys_add_edge g a b a).2 (Or.inl rfl)
  · exact (mem_keys_add_edge g a b b).2 (Or.inr (Or.inl rfl))
  · intro v hv
    have hnone : g.graph_.find v = none := (find_eq_none_iff _ _).2 hv
    rw [find_ensure]
    simp [hnone]
    rfl
  · intro w ha hb
    simp only [add_edge, find_put, find_ensure, ha, hb, if_false]
  · intro k
    induction k with
    | zero => intro w; simp
    | succ k ih =>
      intro w
      rw [Function.iterate_succ_apply', out_neighbors_add_edge, stored_indegree_add_edge,
        (ih w).1, (ih w).2]
      constructor
      · by_cases hw : w = a
        · simp [hw, List.replicate_succ']
        · simp [hw]
      · by_cases hw : w = b
        · simp [hw]; omega
        · simp [hw]

/-- C16: for every graph, after `clear()` the graph has no vertices and no
edges (`size()` is 0, `get_all_nodes()` is empty), and a following `add_edge`
gives the same graph as on a freshly constructed one. -/
theorem clear_effect (g : DirectedGraph) :
    g.clear.size = 0 ∧ g.clear.get_all_nodes = [] ∧ g.clear.edges = [] ∧
      g.clear = DirectedGraph.empty ∧
      ∀ a b, g.clear.add_edge a b = DirectedGraph.empty.add_edge a b :=
  ⟨rfl, rfl, rfl, rfl, fun _ _ => rfl⟩

/-- C11: ring deadlock.  For `n ≥ 2`, pairwise distinct threads
`T 0 .. T (n-1)` and pairwise distinct locks `L 0 .. L (n-1)`, starting from
empty tables, after any sequence of hook calls in which every call is made by
one of the threads and the calls of `T i`, in order, are: acquire `L i`
(`on_lock_before`, `on_lock_after`), then request `L ((i+1) mod n)`
(`on_lock_before`), `check_deadlock()` returns `true`, the vertices of the built
graph are exactly the `T i`, and its edges are exactly the `n` edges
`T i → T ((i+1) mod n)`. -/
theorem ring_deadlock_detected (n : Nat) (hn : 2 ≤ n) (T L : Nat → Nat)
    (hT : ∀ i j, i < n → j < n → T i = T j → i = j)
    (hL : ∀ i j, i < n → j < n → L i = L j → i = j)
    (calls : List HookCall)
    (hproj : ∀ i, i < n →
      calls.filter (fun c => decide (c.thread_id = T i)) = ring_program T L n i)
    (hown : ∀ c, c ∈ calls → ∃ i, i < n ∧ c.thread_id = T i) :
    (init.run_hooks calls).check_deadlock =
        some (true, (init.run_hooks calls).build_waiting_graph) ∧
      (∀ v, v ∈ (init.run_hooks calls).build_waiting_graph.graph_.get_all_nodes ↔
        ∃ i, i < n ∧ v = T i) ∧
      List.Perm (init.run_hooks calls).build_waiting_graph.graph_.edges (ring_edges T n) ∧
      (init.run_hooks calls).build_waiting_graph.graph_.edges.length = n := by
  obtain ⟨hW1, hW2, hH⟩ := ring_tables n T L hL calls hproj hown
  have hmod : ∀ i, (i + 1) % n < n := fun i => Nat.mod_lt _ (by omega)
  have hW : (init.run_hooks calls).thread_waiting_.Ordered :=
    run_hooks_ordered calls init (by simp [init, Ordered, keys])
  have hwf : ∀ a b, (a, b) ∈ ring_edges T n ↔
      waits_for (init.run_hooks calls).lock_owners_ (init.run_hooks calls).thread_waiting_
        a b := by
    intro a b
    rw [mem_ring_edges]
    constructor
    · rintro ⟨i, hi, rfl, rfl⟩
      exact ⟨L ((i + 1) % n), hW1 i hi, hH _ (hmod i)⟩
    · rintro ⟨Lx, h1, h2⟩
      by_cases hex : ∃ i, i < n ∧ a = T i
      · obtain ⟨i, hi, rfl⟩ := hex
        rw [hW1 i hi] at h1
        simp only [Option.some.injEq] at h1
        subst h1
        rw [hH _ (hmod i)] at h2
        simp only [Option.some.injEq] at h2
        exact ⟨i, hi, rfl, h2.symm⟩
      · have hnone := hW2 a (fun i hi e => hex ⟨i, hi, e⟩)
        rw [hnone] at h1
        cases h1
  obtain ⟨hnodes, hperm⟩ :=
    graph_of_waits _ hW (ring_edges T n) (nodup_ring_edges T n hT) hwf
  refine ⟨?_, ?_, hperm, ?_⟩
  · apply check_deadlock_true_of_wait _ hW
    refine ⟨n, by omega, T, fun i => L ((i + 1) % n), ?_⟩
    intro i hi
    exact ⟨hW1 i hi, hH _ (hmod i)⟩
  · intro v
    rw [hnodes]
    constructor
    · rintro ⟨⟨a, b⟩, he, hv⟩
      obtain ⟨i, hi, rfl, rfl⟩ := (mem_ring_edges T n a b).1 he
      rcases hv with rfl | rfl
      · exact ⟨i, hi, rfl⟩
      · exact ⟨(i + 1) % n, hmod i, rfl⟩
    · rintro ⟨i, hi, rfl⟩
      exact ⟨(T i, T ((i + 1) % n)), (mem_ring_edges T n _ _).2 ⟨i, hi, rfl, rfl⟩, Or.inl rfl⟩
  · rw [hperm.length_eq]
    simp [ring_edges]

theorem ring_deadlock_detected_witness :
    2 ≤ 3 ∧
    (init.run_hooks sample_ring_calls).check_deadlock =
        some (true, (init.run_hooks sample_ring_calls).build_waiting_graph) ∧
      (∀ v, v ∈ (init.run_hooks sample_ring_calls).build_waiting_graph.graph_.get_all_nodes ↔
        ∃ i, i < 3 ∧ v = (fun i => i + 1) i) ∧
      List.Perm (init.run_hooks sample_ring_calls).build_waiting_graph.graph_.edges
        (ring_edges (fun i => i + 1) 3) ∧
      (init.run_hooks sample_ring_calls).build_waiting_graph.graph_.edges.length = 3 :=
  ⟨by decide, ring_deadlock_detected 3 (by decide) (fun i => i + 1) (fun i => 10 * (i + 1))
    (fun i j _ _ h => by simpa using h) (fun i j _ _ h => by simpa using h)
    sample_ring_calls
    (by intro i hi; interval_cases i <;> rfl)
    (by
      intro c hc
      simp only [sample_ring_calls, List.mem_cons, List.mem_singleton, List.not_mem_nil,
        or_false] at hc
      rcases hc with rfl | rfl | rfl | rfl | rfl | rfl | rfl | rfl | rfl
      · exact ⟨0, by decide, rfl⟩
      · exact ⟨0, by decide, rfl⟩
      · exact ⟨1, by decide, rfl⟩
      · exact ⟨1, by decide, rfl⟩
      · exact ⟨2, by decide, rfl⟩
      · exact ⟨2, by decide, rfl⟩
      · exact ⟨0, by decide, rfl⟩
      · exact ⟨1, by decide, rfl⟩
      · exact ⟨2, by decide, rfl⟩)⟩

/-- C17: lifecycle, start.  For every interval `i`, `start(i)` called while the
running flag is set changes nothing (running flag, interval and
`deadlock_detected` flag as before) and creates no worker, only the warning is
given; called while the running flag is clear it sets the interval to `i`, the
running flag to `true`, the `deadlock_detected` flag to `false`, and creates
the worker. -/
theorem start_effect (d : DeadlockDetector) (i : Int) :
    (d.running_ = true → d.start i = (d, [Effect.warning_already_running])) ∧
      (d.running_ = false →
        (d.start i).1.interval_seconds_ = i ∧ (d.start i).1.running_ = true ∧
        (d.start i).1.deadlock_detected_ = false ∧
        (d.start i).2 = [Effect.thread_created]) := by
  constructor
  · intro h
    simp [start, h]
  · intro h
    simp [start, h]

/-- C18: lifecycle, stop.  `stop()` called while the running flag is clear
changes no state; called while it is set it leaves the running flag clear; so
`stop(); stop()` yields the same state as `stop()`, and `is_running()` is
`false` after any `stop()`. -/
theorem stop_effect (d : DeadlockDetector) :
    (d.running_ = false → d.stop = (d, [])) ∧
      (d.running_ = true → d.stop.1.running_ = false) ∧
      d.stop.1.stop.1 = d.stop.1 ∧
      d.stop.1.is_running = false := by
  have hoff : d.stop.1.running_ = false := by
    unfold stop
    cases h1 : d.running_ <;> cases h2 : d.detector_thread_ <;> simp [h1]
  have hidle : ∀ e : DeadlockDetector, e.running_ = false → e.stop = (e, []) := by
    intro e h
    simp [stop, h]
  refine ⟨hidle d, fun _ => hoff, ?_, hoff⟩
  rw [hidle d.stop.1 hoff]

/-- C19, the code at the failing input: after an accepted `start(1)` and one
pass that sees a self-loop, no `stop()` being called, the worker has reported
the cycle and left its loop, so no detector thread is running any more; yet
`is_running()` returns `true`, and a following `start(5)` is ignored with the
warning that the detector thread is already running: the state is unchanged
and no worker is created. -/
theorem self_exit_keeps_running_flag :
    ((init.start 1).1.detector_loop [sample_self_loop_env]).map
        (fun o => (o.passes, o.exited, o.detector.is_running, (o.detector.start 5).2,
          decide ((o.detector.start 5).1 = o.detector))) =
      some ([{ result := true, reported := true }], true, true,
        [Effect.warning_already_running], true) := by
  decide

/-- C12: same lock order, no deadlock.  Two distinct threads `T1`, `T2` each run,
over and over, `lock L1; lock L2; unlock L2; unlock L1` on two distinct locks,
every `lock` being `on_lock_before`, the real exclusive acquire and
`on_lock_after`, every `unlock` the real release and `on_unlock_after`.  In the
state reached by any interleaving of their steps `check_deadlock()` returns
`false`. -/
theorem same_order_no_deadlock (T1 T2 L1 L2 : Nat) (hT : T1 ≠ T2) (hL : L1 ≠ L2)
    (sched : List Bool) :
    (LockOrderState.initial.run T1 T2 L1 L2 sched).detector.check_deadlock =
      some (false, (LockOrderState.initial.run T1 T2 L1 L2 sched).detector.build_waiting_graph) := by
  have hinv := sameOrderInv_run T1 T2 L1 L2 hT sched _ (sameOrderInv_initial T1 T2 L1 L2)
  exact check_deadlock_false_of_no_wait _ hinv.ordered
    (sameOrderInv_no_wait T1 T2 L1 L2 hT hL _ hinv)

theorem same_order_no_deadlock_witness :
    (1 : Nat) ≠ 2 ∧ (10 : Nat) ≠ 20 ∧
      (LockOrderState.initial.run 1 2 10 20
          [false, false, false, true, false, true, false]).detector.check_deadlock =
        some (false, (LockOrderState.initial.run 1 2 10 20
          [false, false, false, true, false, true, false]).detector.build_waiting_graph) :=
  ⟨by decide, by decide,
    same_order_no_deadlock 1 2 10 20 (by decide) (by decide)
      [false, false, false, true, false, true, false]⟩

/-- C24, the claim fails on the code: with `holders[10] = 2`, the call
`on_unlock_after(1, 10)` by thread 1, which is not the recorded holder, removes
the entry of lock 10. -/
theorem unlock_by_non_holder_erases :
    sample_held_by_2.lock_owners_.find 10 = some 2 ∧ (1 : Nat) ≠ 2 ∧
      (sample_held_by_2.on_unlock_after 1 10).lock_owners_.find 10 = none := by
  decide

/-- C24, amended: `on_unlock_after(tid, L)` removes the entry of `L` from
holders whoever is recorded as its holder; the resulting state does not depend
on `tid`, so an `on_unlock_after` of the previous owner that comes after the
next owner's `on_lock_after` removes the record that call wrote. -/
theorem on_unlock_after_ignores_thread (d : DeadlockDetector) (tid L : Nat) :
    (d.on_unlock_after tid L).lock_owners_.find L = none ∧
      (∀ tid', d.on_unlock_after tid' L = d.on_unlock_after tid L) ∧
      (∀ next, ((d.on_lock_after next L).on_unlock_after tid L).lock_owners_.find L = none) :=
  ⟨find_erase_self _ _, fun _ => rfl, fun _ => find_erase_self _ _⟩

/-- C26: for every holders table and waiters table, in the graph produced by
`build_waiting_graph` every vertex has at most one outgoing edge: each
out-neighbour list has length at most 1 and no edge occurs twice. -/
theorem build_waiting_graph_functional (d : DeadlockDetector)
    (hW : d.thread_waiting_.Ordered) :
    (∀ v, (d.build_waiting_graph.graph_.out_neighbors v).length ≤ 1) ∧
      (∀ k vtx, (k, vtx) ∈ d.build_waiting_graph.graph_.graph_ → vtx.neighbors.length ≤ 1) ∧
      (∀ a b, List.count (a, b) d.build_waiting_graph.graph_.edges ≤ 1) := by
  have hr := build_waiting_graph_represents d
  refine ⟨out_neighbors_build_length d hW, ?_, ?_⟩
  · intro k vtx hmem
    rw [← out_neighbors_of_mem hr.ordered hmem]
    exact out_neighbors_build_length d hW k
  · intro a b
    rw [count_eq_multiplicity, multiplicity_edges_represents hr,
      multiplicity_wait_edges _ _ hW]
    split_ifs <;> omega

theorem build_waiting_graph_functional_witness :
    sample_ab_ba.thread_waiting_.Ordered ∧
      ((∀ v, (sample_ab_ba.build_waiting_graph.graph_.out_neighbors v).length ≤ 1) ∧
        (∀ k vtx, (k, vtx) ∈ sample_ab_ba.build_waiting_graph.graph_.graph_ →
          vtx.neighbors.length ≤ 1) ∧
        (∀ a b, List.count (a, b) sample_ab_ba.build_waiting_graph.graph_.edges ≤ 1)) :=
  ⟨by decide, build_waiting_graph_functional sample_ab_ba (by decide)⟩

/-- C28: fresh construction.  Two detector states with the same holders and
waiters tables, whatever their graphs held before, get the same graph from
`build_waiting_graph` and the same flag and graph from `check_deadlock()`; and
when the tables hold no circular wait the flag is `false` whatever the graph
held before. -/
theorem fresh_construction (d1 d2 : DeadlockDetector)
    (hH : d1.lock_owners_ = d2.lock_owners_) (hWt : d1.thread_waiting_ = d2.thread_waiting_) :
    d1.build_waiting_graph.graph_ = d2.build_waiting_graph.graph_ ∧
      d1.check_deadlock.map (fun r => (r.1, r.2.graph_)) =
        d2.check_deadlock.map (fun r => (r.1, r.2.graph_)) ∧
      (d1.thread_waiting_.Ordered → ¬ CircularWait d1.lock_owners_ d1.thread_waiting_ →
        d1.check_deadlock.map Prod.fst = some false ∧
        d2.check_deadlock.map Prod.fst = some false) := by
  have hg : d1.build_waiting_graph.graph_ = d2.build_waiting_graph.graph_ := by
    rw [build_waiting_graph_graph, build_waiting_graph_graph, hH, hWt]
  refine ⟨hg, ?_, ?_⟩
  · simp only [check_deadlock, hg]
    cases d2.build_waiting_graph.graph_.has_cycle with
    | none => rfl
    | some r => rfl
  · intro ho hno
    have h1 := check_deadlock_false_of_no_wait d1 ho hno
    have h2 := check_deadlock_false_of_no_wait d2 (hWt ▸ ho) (by rw [← hH, ← hWt]; exact hno)
    rw [h1, h2]
    exact ⟨rfl, rfl⟩

theorem fresh_construction_witness :
    sample_ab_ba.lock_owners_ =
        ({ sample_ab_ba with graph_ := of_edges [(7, 7)] } : DeadlockDetector).lock_owners_ ∧
      sample_ab_ba.thread_waiting_ =
        ({ sample_ab_ba with graph_ := of_edges [(7, 7)] } : DeadlockDetector).thread_waiting_ ∧
      sample_ab_ba.build_waiting_graph.graph_ =
        ({ sample_ab_ba with graph_ := of_edges [(7, 7)] } :
          DeadlockDetector).build_waiting_graph.graph_ :=
  ⟨rfl, rfl, (fresh_construction sample_ab_ba
    ({ sample_ab_ba with graph_ := of_edges [(7, 7)] } : DeadlockDetector) rfl rfl).1⟩

/-- C29: for every graph, `get_all_nodes()` returns the keys of `graph_` in
order, so its length equals `size()` and (the keys of a `std::map` being
ascending) every vertex occurs exactly once and nothing else occurs; for a
graph built by `add_edge` calls the result has no duplicates and contains
exactly the identifiers that appeared as `from` or `to`. -/
theorem get_all_nodes_spec (g : DirectedGraph) :
    g.get_all_nodes = keys g.graph_ ∧
      g.get_all_nodes.length = g.size ∧
      (g.graph_.Ordered → g.get_all_nodes.Nodup) ∧
      (∀ es : List (Nat × Nat), (of_edges es).get_all_nodes.Nodup ∧
        ∀ v, v ∈ (of_edges es).get_all_nodes ↔ ∃ e, e ∈ es ∧ (e.1 = v ∨ e.2 = v)) := by
  refine ⟨get_all_nodes_eq g, ?_, ?_, ?_⟩
  · rw [get_all_nodes_eq]; simp [keys, size]
  · intro ho
    rw [get_all_nodes_eq]
    exact nodup_keys ho
  · intro es
    have hr := represents_of_edges es
    rw [get_all_nodes_eq]
    exact ⟨nodup_keys hr.ordered, fun v => hr.mem_keys v⟩

/-- C25: deadlock persistence.  When the tables hold a circular wait among the
threads `t 0 .. t (k-1)` (so that `check_deadlock()` returns `true`), then
after any finite sequence of hook calls none of which is made by one of these
threads and none of which names a lock recorded as held by one of them,
`check_deadlock()` still returns `true`, the entries of the circular wait are
as before, and the edges `t i → t ((i+1) mod k)` are in the rebuilt graph. -/
theorem deadlock_persists (d : DeadlockDetector) (hW : d.thread_waiting_.Ordered)
    (k : Nat) (hk : 1 ≤ k) (t L : Nat → Nat)
    (hcw : ∀ i, i < k → d.thread_waiting_.find (t i) = some (L i) ∧
      d.lock_owners_.find (L i) = some (t ((i + 1) % k)))
    (calls : List HookCall)
    (hthr : ∀ c, c ∈ calls → ∀ i, i < k → c.thread_id ≠ t i)
    (hlock : ∀ c, c ∈ calls → ∀ i, i < k → d.lock_owners_.find c.lock_addr ≠ some (t i)) :
    d.check_deadlock = some (true, d.build_waiting_graph) ∧
      (d.run_hooks calls).check_deadlock = some (true, (d.run_hooks calls).build_waiting_graph) ∧
      (∀ i, i < k → (d.run_hooks calls).thread_waiting_.find (t i) = some (L i) ∧
        (d.run_hooks calls).lock_owners_.find (L i) = some (t ((i + 1) % k))) ∧
      (∀ i, i < k →
        (t i, t ((i + 1) % k)) ∈ (d.run_hooks calls).build_waiting_graph.graph_.edges) := by
  have hmod : ∀ i, (i + 1) % k < k := fun i => Nat.mod_lt _ (by omega)
  have hW' : (d.run_hooks calls).thread_waiting_.Ordered := run_hooks_ordered calls d hW
  have hkeep : ∀ i, i < k → (d.run_hooks calls).thread_waiting_.find (t i) = some (L i) ∧
      (d.run_hooks calls).lock_owners_.find (L i) = some (t ((i + 1) % k)) := by
    intro i hi
    constructor
    · rw [find_waiting_run_hooks_of_ne d calls (t i) (fun c hc => hthr c hc i hi)]
      exact (hcw i hi).1
    · rw [find_owner_run_hooks_of_ne d calls (L i)]
      · exact (hcw i hi).2
      · intro c hc heq
        apply hlock c hc ((i + 1) % k) (hmod i)
        rw [heq]
        exact (hcw i hi).2
  refine ⟨?_, ?_, hkeep, ?_⟩
  · exact check_deadlock_true_of_wait d hW ⟨k, hk, t, L, hcw⟩
  · exact check_deadlock_true_of_wait _ hW' ⟨k, hk, t, L, hkeep⟩
  · intro i hi
    rw [mem_edges_build_iff _ hW']
    exact ⟨L i, (hkeep i hi).1, (hkeep i hi).2⟩

theorem deadlock_persists_witness :
    sample_ab_ba.thread_waiting_.Ordered ∧
      (sample_ab_ba.run_hooks [HookCall.lock_before 3 30, HookCall.lock_after 3 30,
          HookCall.unlock_after 3 30, HookCall.lock_before 3 40]).check_deadlock =
        some (true, (sample_ab_ba.run_hooks [HookCall.lock_before 3 30, HookCall.lock_after 3 30,
          HookCall.unlock_after 3 30, HookCall.lock_before 3 40]).build_waiting_graph) ∧
      (1, 2) ∈ (sample_ab_ba.run_hooks [HookCall.lock_before 3 30, HookCall.lock_after 3 30,
          HookCall.unlock_after 3 30, HookCall.lock_before 3 40]).build_waiting_graph.graph_.edges :=
  have h := deadlock_persists sample_ab_ba (by decide) 2 (by decide)
    (fun i => if i = 0 then 1 else 2) (fun i => if i = 0 then 20 else 10)
    (by intro i hi; interval_cases i <;> decide)
    [HookCall.lock_before 3 30, HookCall.lock_after 3 30, HookCall.unlock_after 3 30,
      HookCall.lock_before 3 40]
    (by
      intro c hc i hi
      simp only [List.mem_cons, List.mem_singleton, List.not_mem_nil, or_false] at hc
      rcases hc with rfl | rfl | rfl | rfl <;> interval_cases i <;> decide)
    (by
      intro c hc i hi
      simp only [List.mem_cons, List.mem_singleton, List.not_mem_nil, or_false] at hc
      rcases hc with rfl | rfl | rfl | rfl <;> interval_cases i <;> decide)
  ⟨by decide, h.2.1, h.2.2.2 0 (by decide)⟩

/-- C27: in every graph reachable from the empty graph by `add_edge` and
`clear` calls the vertices are exactly the identifiers that are an endpoint of
an edge of the graph, and every vertex has a positive indegree or a non-empty
out-neighbour list; in the graph produced by `build_waiting_graph` a thread is a
vertex exactly when it waits for a held lock or holds an awaited lock. -/
theorem vertices_are_endpoints (ops : List GraphOp) :
    (∀ v, v ∈ keys (DirectedGraph.empty.run_ops ops).graph_ ↔
        ∃ e, e ∈ (DirectedGraph.empty.run_ops ops).edges ∧ (e.1 = v ∨ e.2 = v)) ∧
      (∀ k vtx, (k, vtx) ∈ (DirectedGraph.empty.run_ops ops).graph_ →
        0 < vtx.indegree ∨ vtx.neighbors ≠ []) ∧
      (∀ d : DeadlockDetector, d.thread_waiting_.Ordered →
        ∀ v, v ∈ d.build_waiting_graph.graph_.get_all_nodes ↔
          (∃ b, waits_for d.lock_owners_ d.thread_waiting_ v b) ∨
            (∃ a, waits_for d.lock_owners_ d.thread_waiting_ a v)) := by
  obtain ⟨es, hr⟩ := represents_reachable ops
  refine ⟨fun v => (vertex_iff_endpoint hr v).1, ?_, ?_⟩
  · intro k vtx hmem
    have hk : k ∈ keys (DirectedGraph.empty.run_ops ops).graph_ :=
      List.mem_map.2 ⟨(k, vtx), hmem, rfl⟩
    have h := (vertex_iff_endpoint hr k).2 hk
    rw [stored_indegree_of_mem hr.ordered hmem, out_neighbors_of_mem hr.ordered hmem] at h
    exact h
  · intro d hW v
    rw [get_all_nodes_eq, (vertex_iff_endpoint (build_waiting_graph_represents d) v).1]
    constructor
    · rintro ⟨⟨a, b⟩, he, hv⟩
      rw [mem_edges_build_iff d hW] at he
      rcases hv with rfl | rfl
      · exact Or.inl ⟨b, he⟩
      · exact Or.inr ⟨a, he⟩
    · rintro (⟨b, hb⟩ | ⟨a, ha⟩)
      · exact ⟨(v, b), (mem_edges_build_iff d hW v b).2 hb, Or.inl rfl⟩
      · exact ⟨(a, v), (mem_edges_build_iff d hW a v).2 ha, Or.inr rfl⟩

/-- C30: graph well-formedness.  In every graph reachable from the empty graph
by `add_edge` and `clear` calls, every identifier in an out-neighbour list is a
vertex, the stored indegree of every vertex is the number of occurrences of
that vertex in all out-neighbour lists together, and the indegrees add up to
the number of edges. -/
theorem graph_wellformed (ops : List GraphOp) :
    (∀ k vtx w, (k, vtx) ∈ (DirectedGraph.empty.run_ops ops).graph_ → w ∈ vtx.neighbors →
        w ∈ keys (DirectedGraph.empty.run_ops ops).graph_) ∧
      (∀ k vtx, (k, vtx) ∈ (DirectedGraph.empty.run_ops ops).graph_ →
        vtx.indegree = ((((DirectedGraph.empty.run_ops ops).graph_.map
          (fun p => p.2.neighbors.count k)).sum : Nat) : Int)) ∧
      ((DirectedGraph.empty.run_ops ops).graph_.map (fun p => p.2.indegree)).sum =
        ((((DirectedGraph.empty.run_ops ops).graph_.map
          (fun p => p.2.neighbors.length)).sum : Nat) : Int) := by
  obtain ⟨es, hr⟩ := represents_reachable ops
  obtain ⟨h1, h2, h3⟩ := represents_wellformed hr
  refine ⟨h1, ?_, ?_⟩
  · intro k vtx hmem
    rw [← stored_indegree_of_mem hr.ordered hmem]
    exact h2 k
  · rw [h3]
    have := length_edges (DirectedGraph.empty.run_ops ops).graph_
    exact_mod_cast this

/-- C23: Kahn residue.  For every graph built by `add_edge` calls the reduction
of `has_cycle` leaves its loop with an empty queue, and a vertex is never
dequeued if and only if it lies on a directed cycle or is reachable from a
vertex on a directed cycle, if and only if its working indegree is still
positive. -/
theorem kahn_residue_is_cycle_closure (es : List (Nat × Nat)) :
    ∃ s, kahn_run (of_edges es) = some s ∧ s.queue = [] ∧
      (∀ v, v ∈ (of_edges es).dequeued → v ∈ keys (of_edges es).graph_) ∧
      ∀ v, v ∈ keys (of_edges es).graph_ →
        ((v ∉ (of_edges es).dequeued ↔ (of_edges es).fed_by_cycle v) ∧
          (v ∉ (of_edges es).dequeued ↔ 0 < working s.indegree_copy v)) :=
  dequeued_spec (represents_of_edges es)

/-- C21, the code at the failing input: with threads 1 and 2 deadlocked and
thread 5 waiting for a lock held by thread 4, `check_deadlock()` returns `true`
and `print_deadlock_info()` then lists the threads 1, 2, 4 and 5 (thread 4 as
waiting for lock 0 held by thread 0), although neither 4 nor 5 lies on a
directed cycle of the wait-for graph. -/
theorem report_lists_bystanders :
    sample_with_bystanders.check_deadlock.map (fun r => (r.1, r.2.print_deadlock_info)) =
        some (true, [{ tid := 1, waiting_lock := 20, owner := 2 },
          { tid := 2, waiting_lock := 10, owner := 1 },
          { tid := 4, waiting_lock := 0, owner := 0 },
          { tid := 5, waiting_lock := 40, owner := 4 }]) ∧
      ¬ Relation.TransGen sample_with_bystanders.build_waiting_graph.graph_.edge 4 4 ∧
      ¬ Relation.TransGen sample_with_bystanders.build_waiting_graph.graph_.edge 5 5 := by
  have h4 : ∀ b, ¬ sample_with_bystanders.build_waiting_graph.graph_.edge 4 b := by
    intro b hb
    have hnil : sample_with_bystanders.build_waiting_graph.graph_.out_neighbors 4 = [] := by
      decide
    unfold DirectedGraph.edge at hb
    rw [hnil] at hb
    exact absurd hb (List.not_mem_nil b)
  have h5 : ∀ b, sample_with_bystanders.build_waiting_graph.graph_.edge 5 b → b = 4 := by
    intro b hb
    have hout : sample_with_bystanders.build_waiting_graph.graph_.out_neighbors 5 = [4] := by
      decide
    unfold DirectedGraph.edge at hb
    rw [hout] at hb
    simpa using hb
  refine ⟨by decide, ?_, ?_⟩
  · intro h
    obtain ⟨b, hb, _⟩ := Relation.TransGen.head'_iff.1 h
    exact h4 b hb
  · intro h
    obtain ⟨b, hb, hrest⟩ := Relation.TransGen.head'_iff.1 h
    have hb4 := h5 b hb
    subst hb4
    rcases Relation.ReflTransGen.cases_head hrest with heq | ⟨c, hc, _⟩
    · exact absurd heq (by decide)
    · exact h4 c hc

/-- C22, the claim fails on the code: `check_deadlock` takes the three table
mutexes (inside `get_snapshot`) while it holds `mutex_graph_`, and
`print_deadlock_info` takes `mutex_thread_waiting_` and then
`mutex_lock_owners_`, each in its own `lock_guard`, while it holds
`mutex_graph_`; neither takes all its mutexes in one `std::lock` step. -/
theorem detection_nests_mutexes :
    acquires_while_holding [] (lock_steps DetectorOp.check_deadlock) = true ∧
      acquires_while_holding [] (lock_steps (DetectorOp.print_deadlock_info 1)) = true := by
  decide

/-- C22, amended: the hooks, `get_snapshot` and `print_status` take all their
mutexes in one step and request nothing while they hold a mutex;
`check_deadlock` and `print_deadlock_info` hold `mutex_graph_` while they take
table mutexes.  Every sequence of member functions requests mutexes only
while it holds no table mutex and requests `mutex_graph_` only while it holds
nothing, and therefore, whatever member functions the threads call and however
their steps interleave, in every reachable state either every thread has
finished or some thread can take its next step: the detector's own mutexes
never deadlock. -/
theorem own_mutexes_never_deadlock (programs : List (List DetectorOp)) (sched : List Nat) :
    acquires_while_holding [] (lock_steps DetectorOp.on_lock_before) = false ∧
      acquires_while_holding [] (lock_steps DetectorOp.on_lock_after) = false ∧
      acquires_while_holding [] (lock_steps DetectorOp.on_unlock_after) = false ∧
      acquires_while_holding [] (lock_steps DetectorOp.get_snapshot) = false ∧
      acquires_while_holding [] (lock_steps DetectorOp.print_status) = false ∧
      (∀ ops : List DetectorOp, disciplined [] (ops.flatMap lock_steps)) ∧
      ((∀ th, th ∈ lock_run (start_threads programs) sched → th.todo = []) ∨
        ∃ i, can_step (lock_run (start_threads programs) sched) i = true) := by
  refine ⟨by decide, by decide, by decide, by decide, by decide, disciplined_programs, ?_⟩
  exact progress_of_disciplined _
    (disciplined_lock_run sched _ (disciplined_start_threads programs))

/-- C31: `has_cycle()` is read-only on every graph built by `add_edge` calls.
It returns, with the graph as it was, and a second call on the graph it leaves
returns the same flag and the same graph.  In every state the `while` loop goes
through, and after every pass of the `for` loop over `neighbors`, `graph_` is
the map the call started with (the lookup `graph_[node]` inserts no vertex),
`indegree_copy` has the vertices of the graph for its keys (the lookup
`indegree_copy[neighbor]` inserts no key), and no working indegree is
negative. -/
theorem has_cycle_read_only (es : List (Nat × Nat)) :
    (∃ b, (of_edges es).has_cycle = some (b, of_edges es) ∧
        (of_edges es).has_cycle.bind (fun r => r.2.has_cycle) = some (b, of_edges es)) ∧
      (∃ s, kahn_run (of_edges es) = some s ∧ (of_edges es).states.getLast? = some s) ∧
      ∀ s, s ∈ (of_edges es).states →
        s.graph_ = (of_edges es).graph_ ∧
          keys s.indegree_copy = keys (of_edges es).graph_ ∧
          (∀ p, p ∈ s.indegree_copy → 0 ≤ p.2) ∧
          ∀ node rest, s.queue = node :: rest →
            (kahn_step s node rest).graph_ = (of_edges es).graph_ ∧
              ∀ k, keys (kahn_inner s node rest k).1 = keys (of_edges es).graph_ ∧
                ∀ p, p ∈ (kahn_inner s node rest k).1 → 0 ≤ p.2 := by
  have hr := represents_of_edges es
  obtain ⟨hst, _, _, _, s, hrun, _, hlast, _, _⟩ := has_cycle_run_spec hr
  refine ⟨?_, ⟨s, hrun, hlast⟩, ?_⟩
  · obtain ⟨b, hb, _⟩ := has_cycle_represents hr
    exact ⟨b, hb, by rw [hb]; exact hb⟩
  · intro t ht
    obtain ⟨R, hi, hk⟩ := hst t ht
    obtain ⟨h1, _, h3, h4⟩ := kahn_state_facts hr hi hk
    have ho : t.indegree_copy.Ordered := by
      unfold Ordered; rw [hk]; exact hr.ordered
    refine ⟨h1, hk, entries_nonneg ho h3, ?_⟩
    intro node rest hq
    obtain ⟨h5, _, h6⟩ := h4 node rest hq
    refine ⟨h5, fun k => ⟨(h6 k).1, ?_⟩⟩
    have ho' : (kahn_inner t node rest k).1.Ordered := by
      unfold Ordered; rw [(h6 k).1]; exact hr.ordered
    exact entries_nonneg ho' (h6 k).2

/-- C32: `has_cycle()` terminates on every graph built by `add_edge` calls.  The
`while` loop is left with an empty queue within `size()` iterations (more fuel
changes nothing) and the call returns.  No vertex is pushed onto the queue
twice, none is dequeued twice, the vertices dequeued are the vertices pushed,
in the same order, and all are vertices of the graph; the number of iterations
is the final `processed_count`, it is at most `size()`, and `processed_count`
is at most `size()` in every state of the loop. -/
theorem has_cycle_terminates (es : List (Nat × Nat)) :
    ∃ s b, kahn_run (of_edges es) = some s ∧ s.queue = [] ∧
      (∀ fuel, (of_edges es).size ≤ fuel →
        kahn_loop fuel (of_edges es).kahn_init = some s) ∧
      (of_edges es).has_cycle = some (b, of_edges es) ∧
      (of_edges es).enqueued.Nodup ∧ (of_edges es).dequeued.Nodup ∧
      (of_edges es).enqueued = (of_edges es).dequeued ∧
      (∀ v, v ∈ (of_edges es).dequeued → v ∈ keys (of_edges es).graph_) ∧
      (of_edges es).states.length = (of_edges es).dequeued.length + 1 ∧
      (of_edges es).dequeued.length = s.processed_count ∧
      (of_edges es).dequeued.length ≤ (of_edges es).size ∧
      (∀ t, t ∈ (of_edges es).states → t.processed_count ≤ (of_edges es).size) ∧
      ∀ (t : KahnState) (node : Nat) (rest : List Nat),
        (kahn_step t node rest).queue = rest ++ kahn_pushed t node rest := by
  have hr := represents_of_edges es
  obtain ⟨hst, hnd, hsub, henq, s, hrun, hq, hlast, hlen, hpc⟩ := has_cycle_run_spec hr
  obtain ⟨b, hb, _⟩ := has_cycle_represents hr
  have hbound : ∀ t, t ∈ (of_edges es).states → t.processed_count ≤ (of_edges es).size := by
    intro t ht
    obtain ⟨R, hi, _⟩ := hst t ht
    have := hi.count
    unfold size
    omega
  have hs : s ∈ (of_edges es).states := List.mem_of_getLast?_eq_some hlast
  refine ⟨s, b, hrun, hq, ?_, hb, by rw [henq]; exact hnd, hnd, henq, hsub, hlen, hpc.symm,
    by rw [← hpc]; exact hbound s hs, hbound, queue_kahn_step⟩
  intro fuel hle
  exact kahn_loop_mono _ _ _ hrun fuel hle

/-- C33: version equivalence.  Let a day-3 detector, a detector of the earlier
implementation in `src/src` and a day-1 detector hold the same three tables
(whatever their graphs hold).  Then for all arguments each of the hooks
`on_lock_before`, `on_lock_after` and `on_unlock_after` leaves the same three
tables in all three implementations, and `check_deadlock()` returns in the
day-3 and in the earlier implementation, with the same flag, the same graph
and the tables unchanged. -/
theorem versions_agree (d : DeadlockDetector) (e : Earlier.DeadlockDetector)
    (o : Day1.DeadlockDetector) (he : e.tables = d.tables) (ho : o.tables = d.tables)
    (thread_id lock_addr : Nat) :
    (e.on_lock_before thread_id lock_addr).tables =
        (d.on_lock_before thread_id lock_addr).tables ∧
      (e.on_lock_after thread_id lock_addr).tables =
        (d.on_lock_after thread_id lock_addr).tables ∧
      (e.on_unlock_after thread_id lock_addr).tables =
        (d.on_unlock_after thread_id lock_addr).tables ∧
      (o.on_lock_before thread_id lock_addr).tables =
        (d.on_lock_before thread_id lock_addr).tables ∧
      (o.on_lock_after thread_id lock_addr).tables =
        (d.on_lock_after thread_id lock_addr).tables ∧
      (o.on_unlock_after thread_id lock_addr).tables =
        (d.on_unlock_after thread_id lock_addr).tables ∧
      ∃ b d1 e1, d.check_deadlock = some (b, d1) ∧ e.check_deadlock = some (b, e1) ∧
        e1.tables = d1.tables ∧ d1.tables = d.tables ∧ e1.graph_ = d1.graph_ := by
  obtain ⟨eH, eW, eS, eg⟩ := e
  obtain ⟨oH, oW, oS⟩ := o
  simp only [Earlier.DeadlockDetector.tables, Day1.DeadlockDetector.tables,
    DeadlockDetector.tables, Prod.mk.injEq] at he ho
  obtain ⟨rfl, rfl, rfl⟩ := he
  obtain ⟨rfl, rfl, rfl⟩ := ho
  refine ⟨rfl, rfl, rfl, rfl, rfl, rfl, ?_⟩
  obtain ⟨b, hb⟩ := check_deadlock_some d
  have hg : (Earlier.DeadlockDetector.build_waiting_graph
      ⟨d.lock_owners_, d.thread_waiting_, d.thread_stacks_, eg⟩).graph_ =
      d.build_waiting_graph.graph_ := rfl
  have hc : d.build_waiting_graph.graph_.has_cycle = some (b, d.build_waiting_graph.graph_) := by
    obtain ⟨b', hb', _⟩ := has_cycle_represents (build_waiting_graph_represents d)
    have h2 : d.check_deadlock = some (b', d.build_waiting_graph) := by
      simp only [check_deadlock, hb']
    rw [hb] at h2
    have hbb : b = b' := by
      have := Option.some.inj h2
      exact congrArg Prod.fst this
    rw [hbb]
    exact hb'
  refine ⟨b, d.build_waiting_graph,
    ⟨d.lock_owners_, d.thread_waiting_, d.thread_stacks_, d.build_waiting_graph.graph_⟩,
    hb, ?_, rfl, rfl, rfl⟩
  simp only [Earlier.DeadlockDetector.check_deadlock, hg, hc]
  rfl

theorem versions_agree_witness :
    Earlier.DeadlockDetector.sample_ab_ba.tables = sample_ab_ba.tables ∧
      Day1.DeadlockDetector.sample_ab_ba.tables = sample_ab_ba.tables ∧
      (Earlier.DeadlockDetector.sample_ab_ba.on_lock_after 3 30).tables =
        (sample_ab_ba.on_lock_after 3 30).tables ∧
      ∃ b d1 e1, sample_ab_ba.check_deadlock = some (b, d1) ∧
        Earlier.DeadlockDetector.sample_ab_ba.check_deadlock = some (b, e1) ∧
        e1.tables = d1.tables ∧ d1.tables = sample_ab_ba.tables ∧ e1.graph_ = d1.graph_ :=
  ⟨rfl, rfl,
    (versions_agree sample_ab_ba Earlier.DeadlockDetector.sample_ab_ba
      Day1.DeadlockDetector.sample_ab_ba rfl rfl 3 30).2.1,
    (versions_agree sample_ab_ba Earlier.DeadlockDetector.sample_ab_ba
      Day1.DeadlockDetector.sample_ab_ba rfl rfl 3 30).2.2.2.2.2.2⟩

/-- C20: one-shot report.  In every run of the worker after an accepted
`start`, whatever hook calls and `stop()` calls the other threads make, there
is a number `k` of passes such that: each of the passes `0 .. k-1` is executed
with `running_` still set when its loop condition is read, its
`check_deadlock()`, run on the tables as the hook calls made before its
snapshot have left them, returns `false`, and it reports nothing; and then
either the described environment ends (the worker is still looping), or
`running_` is `false` when the loop condition is read for pass `k` (the worker
leaves without a report and `deadlock_detected_` is clear), or pass `k` is
executed, its `check_deadlock()` returns `true`, it emits the report, sets
`deadlock_detected_`, and is the last pass (the worker has left the loop).  So
the report is emitted at most once, and exactly at the first pass whose
`check_deadlock()` result is `true`. -/
theorem one_shot_report (d0 : DeadlockDetector) (h0 : d0.running_ = false) (i : Int)
    (envs : List PassEnv) :
    ∃ o k, (d0.start i).1.detector_loop envs = some o ∧ k ≤ envs.length ∧
      (∀ j, j < k → stop_seen envs j = false ∧
        ((d0.start i).1.run_hooks (calls_before envs j)).check_deadlock.map Prod.fst =
          some false) ∧
      (o.passes.filter (fun p => p.reported)).length ≤ 1 ∧
      ((k = envs.length ∧
          o.passes = List.replicate k { result := false, reported := false } ∧
          o.exited = false ∧ o.detector.deadlock_detected_ = false) ∨
        (k < envs.length ∧ stop_seen envs k = true ∧
          o.passes = List.replicate k { result := false, reported := false } ∧
          o.exited = true ∧ o.detector.deadlock_detected_ = false) ∨
        (k < envs.length ∧ stop_seen envs k = false ∧
          ((d0.start i).1.run_hooks (calls_before envs k)).check_deadlock.map Prod.fst =
            some true ∧
          o.passes = List.replicate k { result := false, reported := false } ++
            [{ result := true, reported := true }] ∧
          o.exited = true ∧ o.detector.deadlock_detected_ = true)) := by
  have hd : (d0.start i).1.deadlock_detected_ = false := by simp [start, h0]
  have hr : (d0.start i).1.running_ = true := by simp [start, h0]
  obtain ⟨o, k, ho, hk, hpre, hshape⟩ := detector_loop_run envs _ hd
  simp only [hr, Bool.true_and, Bool.not_eq_true', Bool.not_eq_false'] at hpre hshape
  have hnone : (List.replicate k ({ result := false, reported := false } : PassRecord)).filter
      (fun p => p.reported) = [] := by
    rw [List.filter_eq_nil_iff]
    intro p hp
    rw [List.eq_of_mem_replicate hp]
    simp
  refine ⟨o, k, ho, hk, hpre, ?_, hshape⟩
  rcases hshape with ⟨_, h1, _⟩ | ⟨_, _, h1, _⟩ | ⟨_, _, _, h1, _⟩
  · rw [h1, hnone]; simp
  · rw [h1, hnone]; simp
  · rw [h1, List.filter_append, hnone]; simp

theorem one_shot_report_witness :
    init.running_ = false ∧
      ∃ o, (init.start 1).1.detector_loop
          [sample_idle_env, sample_self_loop_env, sample_idle_env] = some o ∧
        stop_seen [sample_idle_env, sample_self_loop_env, sample_idle_env] 1 = false ∧
        ((init.start 1).1.run_hooks
          (calls_before [sample_idle_env, sample_self_loop_env, sample_idle_env] 1)).check_deadlock.map
            Prod.fst = some true ∧
        o.passes = [{ result := false, reported := false }, { result := true, reported := true }] ∧
        (o.passes.filter (fun p => p.reported)).length ≤ 1 ∧
        o.exited = true ∧ o.detector.deadlock_detected_ = true := by
  obtain ⟨o, k, ho, _, _, hcnt, hshape⟩ :=
    one_shot_report init rfl 1 [sample_idle_env, sample_self_loop_env, sample_idle_env]
  have hp : ((init.start 1).1.detector_loop
      [sample_idle_env, sample_self_loop_env, sample_idle_env]).map (fun o => o.passes) =
      some [{ result := false, reported := false }, { result := true, reported := true }] := by
    decide
  rw [ho] at hp
  simp only [Option.map_some', Option.some.injEq] at hp
  rcases hshape with ⟨hk, h1, _⟩ | ⟨_, _, h1, _⟩ | ⟨_, hseen, hchk, h1, hex, hflag⟩
  · rw [hp, hk] at h1
    simp [List.replicate] at h1
  · rw [hp] at h1
    have hmem : ({ result := true, reported := true } : PassRecord) ∈
        List.replicate k ({ result := false, reported := false } : PassRecord) := by
      rw [← h1]; simp
    have := List.eq_of_mem_replicate hmem
    simp at this
  · have hk : k = 1 := by
      have := congrArg List.length h1
      rw [hp] at this
      simp at this
      omega
    subst hk
    exact ⟨rfl, o, ho, hseen, hchk, hp, hcnt, hex, hflag⟩

end Contracts

end Deadlock
